import Mathlib

/-!
Disk I/O scheduling simulation: the five policies and the tick loop.

Shallow embedding of `data_structures.h` and `simulate.cpp`.

Modelling conventions.

* A `Request*` is an address of type `Nat`; the objects live in a heap
  `Nat → Request`.  A nullable pointer is an `Option Nat`.  The global
  `std::list<Request*> requests` is a list of addresses.
* `int` is modelled by `Int`.  The quantities of the program (ticks, tracks,
  head position, differences of two of them) stay far inside the 32-bit range
  for every input whose numbers do, so no wrap-around is modelled.
* The constructor of `Request` leaves `start_time`, `end_time`, `wait_time` and
  `turn_around_time` unassigned; the general theorems about runs quantify over
  an arbitrary initial heap, hence over arbitrary initial values of these
  fields, and the worked examples use storage that reads as zero.
* `std::list::remove(v)` erases every element equal to `v`.
-/

namespace IOSim

/-! ## Data structures (`data_structures.h`) -/

/-- Lifecycle state of a request (`enum State`). -/
inductive State where
  | CREATED
  | READY
  | RUNNING
  | COMPLETE
  deriving DecidableEq, Repr

/-- An I/O request (`class Request`). -/
structure Request where
  request_id : Int
  arrival_time : Int
  start_time : Int
  end_time : Int
  track_required : Int
  wait_time : Int
  turn_around_time : Int
  state : State
  deriving DecidableEq, Repr

/-- The objects the `Request*` pointers point to. -/
abbrev Heap := Nat → Request

/-- Assignment through a pointer: the object at `p` becomes `r`. -/
def Heap.set (heap : Heap) (p : Nat) (r : Request) : Heap :=
  fun q => if q = p then r else heap q

/-- The member function `get_seek_time`, identical in the SSTF, LOOK, CLOOK and
FLOOK classes; `curr_head_location` is the global it reads. -/
def get_seek_time (curr_head_location : Int) (request : Request) : Int :=
  if curr_head_location > request.track_required then
    curr_head_location - request.track_required
  else
    request.track_required - curr_head_location

/-- The call `queue.remove(request)` of `std::list<Request*>`: every element
equal to the pointer is erased, the others keep their order. -/
def list_remove (queue : List Nat) (request : Nat) : List Nat :=
  queue.filter (fun it => it != request)

/-- The call `queue.remove(request)` where `request` may be `NULL`; no element
of a queue is `NULL`, so removing `NULL` erases nothing. -/
def list_remove_ptr (queue : List Nat) (request : Option Nat) : List Nat :=
  match request with
  | none => queue
  | some r => list_remove queue r

/-! ### FIFO -/

/-- State of `class FIFOScheduler`. -/
structure FIFOScheduler where
  queue : List Nat
  deriving DecidableEq, Repr

/-- Member `FIFOScheduler::add_request`: `queue.push_back(request)`. -/
def FIFOScheduler.add_request (s : FIFOScheduler) (request : Nat) : FIFOScheduler :=
  { queue := s.queue ++ [request] }

/-- Member `FIFOScheduler::get_next_request`: `front()` then `pop_front()`. -/
def FIFOScheduler.get_next_request (s : FIFOScheduler) : Option Nat × FIFOScheduler :=
  match s.queue with
  | [] => (none, s)
  | request :: rest => (some request, { queue := rest })

/-! ### SSTF -/

/-- State of `class SSTFScheduler`. -/
structure SSTFScheduler where
  queue : List Nat
  deriving DecidableEq, Repr

/-- Member `SSTFScheduler::add_request`. -/
def SSTFScheduler.add_request (s : SSTFScheduler) (request : Nat) : SSTFScheduler :=
  { queue := s.queue ++ [request] }

/-- Body of the `for` loop of `SSTFScheduler::get_next_request`; the
accumulator is the pair `(min_seek, request)`. -/
def sstf_scan_step (heap : Heap) (curr_head_location : Int) (acc : Int × Nat) (it : Nat) :
    Int × Nat :=
  let seek := get_seek_time curr_head_location (heap it)
  if seek < acc.1 then (seek, it) else acc

/-- Member `SSTFScheduler::get_next_request`. -/
def SSTFScheduler.get_next_request (heap : Heap) (curr_head_location : Int)
    (s : SSTFScheduler) : Option Nat × SSTFScheduler :=
  match s.queue with
  | [] => (none, s)
  | front :: _ =>
    let acc := s.queue.foldl (sstf_scan_step heap curr_head_location)
      (get_seek_time curr_head_location (heap front), front)
    (some acc.2, { queue := list_remove s.queue acc.2 })

/-! ### LOOK -/

/-- State of `class LookScheduler`. -/
structure LookScheduler where
  queue : List Nat
  forward_direction : Bool
  deriving DecidableEq, Repr

/-- Constructor `LookScheduler()`. -/
def LookScheduler.new : LookScheduler :=
  { queue := [], forward_direction := true }

/-- Member `LookScheduler::add_request`. -/
def LookScheduler.add_request (s : LookScheduler) (request : Nat) : LookScheduler :=
  { s with queue := s.queue ++ [request] }

/-- Body of the scanning `for` loops of `LookScheduler::get_next_request` and
`FLookScheduler::get_next_request` (the four loops have the same text); the
accumulator is the pair `(min_seek, request)`, with `-1` and `NULL` as the
not-yet-found values. -/
def look_scan_step (heap : Heap) (curr_head_location : Int) (forward_direction : Bool)
    (acc : Int × Option Nat) (it : Nat) : Int × Option Nat :=
  if forward_direction = true ∧ (heap it).track_required < curr_head_location then acc
  else if forward_direction = false ∧ (heap it).track_required > curr_head_location then acc
  else
    let seek_time := get_seek_time curr_head_location (heap it)
    if acc.1 = -1 then (seek_time, some it)
    else if seek_time < acc.1 then (seek_time, some it)
    else acc

/-- Member `LookScheduler::get_next_request`. -/
def LookScheduler.get_next_request (heap : Heap) (curr_head_location : Int)
    (s : LookScheduler) : Option Nat × LookScheduler :=
  if s.queue.length = 0 then (none, s)
  else
    let acc := s.queue.foldl (look_scan_step heap curr_head_location s.forward_direction)
      (-1, none)
    match acc.2 with
    | some request => (some request, { s with queue := list_remove s.queue request })
    | none =>
      let forward_direction := !s.forward_direction
      let acc2 := s.queue.foldl (look_scan_step heap curr_head_location forward_direction) acc
      (acc2.2, { queue := list_remove_ptr s.queue acc2.2,
                 forward_direction := forward_direction })

/-! ### CLOOK -/

/-- State of `class CLookScheduler`. -/
structure CLookScheduler where
  queue : List Nat
  deriving DecidableEq, Repr

/-- Member `CLookScheduler::add_request`. -/
def CLookScheduler.add_request (s : CLookScheduler) (request : Nat) : CLookScheduler :=
  { queue := s.queue ++ [request] }

/-- Body of the first `for` loop of `CLookScheduler::get_next_request`
(requests at or above the head, by seek time). -/
def clook_forward_step (heap : Heap) (curr_head_location : Int)
    (acc : Int × Option Nat) (it : Nat) : Int × Option Nat :=
  if (heap it).track_required < curr_head_location then acc
  else
    let seek_time := get_seek_time curr_head_location (heap it)
    if acc.1 = -1 then (seek_time, some it)
    else if seek_time < acc.1 then (seek_time, some it)
    else acc

/-- Body of the second `for` loop of `CLookScheduler::get_next_request` (all
requests, by raw track number). -/
def clook_wrap_step (heap : Heap) (acc : Int × Option Nat) (it : Nat) : Int × Option Nat :=
  let seek_time := (heap it).track_required
  if acc.1 = -1 then (seek_time, some it)
  else if seek_time < acc.1 then (seek_time, some it)
  else acc

/-- Member `CLookScheduler::get_next_request`. -/
def CLookScheduler.get_next_request (heap : Heap) (curr_head_location : Int)
    (s : CLookScheduler) : Option Nat × CLookScheduler :=
  if s.queue.length = 0 then (none, s)
  else
    let acc := s.queue.foldl (clook_forward_step heap curr_head_location) (-1, none)
    match acc.2 with
    | some request => (some request, { queue := list_remove s.queue request })
    | none =>
      let acc2 := s.queue.foldl (clook_wrap_step heap) acc
      (acc2.2, { queue := list_remove_ptr s.queue acc2.2 })

/-! ### FLOOK -/

/-- State of `class FLookScheduler`: `queue1` is the generation being served,
`queue2` receives the arrivals. -/
structure FLookScheduler where
  queue1 : List Nat
  queue2 : List Nat
  forward_direction : Bool
  deriving DecidableEq, Repr

/-- Constructor `FLookScheduler()`. -/
def FLookScheduler.new : FLookScheduler :=
  { queue1 := [], queue2 := [], forward_direction := true }

/-- Member `FLookScheduler::add_request`: `queue2.push_back(request)`. -/
def FLookScheduler.add_request (s : FLookScheduler) (request : Nat) : FLookScheduler :=
  { s with queue2 := s.queue2 ++ [request] }

/-- The first statement of `FLookScheduler::get_next_request`: when `queue1` is
empty it takes the content of `queue2`, which is cleared. -/
def FLookScheduler.switch_queues (s : FLookScheduler) : FLookScheduler :=
  if s.queue1.length = 0 then { s with queue1 := s.queue2, queue2 := [] } else s

/-- Member `FLookScheduler::get_next_request`. -/
def FLookScheduler.get_next_request (heap : Heap) (curr_head_location : Int)
    (s0 : FLookScheduler) : Option Nat × FLookScheduler :=
  let s := s0.switch_queues
  if s.queue1.length = 0 then (none, s)
  else
    let acc := s.queue1.foldl (look_scan_step heap curr_head_location s.forward_direction)
      (-1, none)
    match acc.2 with
    | some request => (some request, { s with queue1 := list_remove s.queue1 request })
    | none =>
      let forward_direction := !s.forward_direction
      let acc2 := s.queue1.foldl (look_scan_step heap curr_head_location forward_direction) acc
      (acc2.2, { s with queue1 := list_remove_ptr s.queue1 acc2.2,
                        forward_direction := forward_direction })

/-! ### The `Scheduler` base class with its five subclasses -/

/-- An object of one of the five subclasses of `class Scheduler`. -/
inductive Scheduler where
  | FIFO (s : FIFOScheduler)
  | SSTF (s : SSTFScheduler)
  | LOOK (s : LookScheduler)
  | CLOOK (s : CLookScheduler)
  | FLOOK (s : FLookScheduler)
  deriving DecidableEq, Repr

/-- Virtual call `sched->add_request(request)`. -/
def Scheduler.add_request (sched : Scheduler) (request : Nat) : Scheduler :=
  match sched with
  | .FIFO s => .FIFO (s.add_request request)
  | .SSTF s => .SSTF (s.add_request request)
  | .LOOK s => .LOOK (s.add_request request)
  | .CLOOK s => .CLOOK (s.add_request request)
  | .FLOOK s => .FLOOK (s.add_request request)

/-- Virtual call `sched->get_next_request()`; the head position is the global
`curr_head_location` the subclasses read. -/
def Scheduler.get_next_request (heap : Heap) (curr_head_location : Int)
    (sched : Scheduler) : Option Nat × Scheduler :=
  match sched with
  | .FIFO s => let r := s.get_next_request; (r.1, .FIFO r.2)
  | .SSTF s => let r := s.get_next_request heap curr_head_location; (r.1, .SSTF r.2)
  | .LOOK s => let r := s.get_next_request heap curr_head_location; (r.1, .LOOK r.2)
  | .CLOOK s => let r := s.get_next_request heap curr_head_location; (r.1, .CLOOK r.2)
  | .FLOOK s => let r := s.get_next_request heap curr_head_location; (r.1, .FLOOK r.2)

/-- The requests a scheduler holds and has not yet handed out, in the order
they were added (for FLOOK: `queue1` followed by `queue2`). -/
def Scheduler.pending (sched : Scheduler) : List Nat :=
  match sched with
  | .FIFO s => s.queue
  | .SSTF s => s.queue
  | .LOOK s => s.queue
  | .CLOOK s => s.queue
  | .FLOOK s => s.queue1 ++ s.queue2

/-- Virtual call `sched->print_queue()`: the requests it prints, in order (for
FLOOK only `queue1`). -/
def Scheduler.print_queue (sched : Scheduler) : List Nat :=
  match sched with
  | .FIFO s => s.queue
  | .SSTF s => s.queue
  | .LOOK s => s.queue
  | .CLOOK s => s.queue
  | .FLOOK s => s.queue1

/-! ## The simulation (`simulate.cpp`) -/

/-- Result of running a piece of the program: a value, the dereference of a
`NULL` scheduler pointer, or the exhaustion of the step budget of the model. -/
inductive Outcome (α : Type) where
  | ok (a : α)
  | fault
  | out_of_fuel

/-- Sequencing of two pieces of the program. -/
def Outcome.bind {α β : Type} (x : Outcome α) (f : α → Outcome β) : Outcome β :=
  match x with
  | .ok a => f a
  | .fault => .fault
  | .out_of_fuel => .out_of_fuel

/-- The variables of `simulate` together with the globals it works on. -/
structure Sim where
  curr_time : Int
  tot_movement : Int
  curr_request : Option Nat
  sched : Option Scheduler
  curr_head_location : Int
  requests : List Nat
  heap : Heap

/-- The function `is_request_active`, over the list `requests`. -/
def is_request_active (heap : Heap) : List Nat → Bool
  | [] => false
  | it :: rest =>
    if (heap it).state = State.CREATED ∨ (heap it).state = State.READY
        ∨ (heap it).state = State.RUNNING then true
    else is_request_active heap rest

/-- The function `new_request_arrived`, over the list `requests`. -/
def new_request_arrived (heap : Heap) (curr_time : Int) : List Nat → Option Nat
  | [] => none
  | it :: rest =>
    if (heap it).arrival_time = curr_time then some it
    else if (heap it).arrival_time > curr_time then none
    else new_request_arrived heap curr_time rest

/-- The chain of `if(algo == ...)` of `simulate`; `none` is `sched` left `NULL`. -/
def select_scheduler (algo : Char) : Option Scheduler :=
  if algo = 'i' then some (.FIFO { queue := [] })
  else if algo = 'j' then some (.SSTF { queue := [] })
  else if algo = 's' then some (.LOOK LookScheduler.new)
  else if algo = 'c' then some (.CLOOK { queue := [] })
  else if algo = 'f' then some (.FLOOK FLookScheduler.new)
  else none

/-- Lines 60-68 of `simulate`: the arrival of the tick is added to the scheduler
and marked `READY`. -/
def arrive (s : Sim) : Outcome Sim :=
  match new_request_arrived s.heap s.curr_time s.requests with
  | none => .ok s
  | some request =>
    match s.sched with
    | none => .fault
    | some sched =>
      .ok { s with
        sched := some (sched.add_request request)
        heap := s.heap.set request { s.heap request with state := State.READY } }

/-- The three assignments that finish a request at the current tick. -/
def finish (s : Sim) (request : Nat) : Sim :=
  { s with
    heap := s.heap.set request
      { s.heap request with
        end_time := s.curr_time
        turn_around_time := s.curr_time - (s.heap request).arrival_time
        state := State.COMPLETE } }

/-- Lines 71-92 of `simulate`: one step of the head towards the track of the
request in service, which is finished when the head is on its track. -/
def service (s : Sim) : Sim :=
  match s.curr_request with
  | none => s
  | some cur =>
    let s1 : Sim :=
      if s.curr_head_location < (s.heap cur).track_required then
        { s with curr_head_location := s.curr_head_location + 1
                 tot_movement := s.tot_movement + 1 }
      else if s.curr_head_location > (s.heap cur).track_required then
        { s with curr_head_location := s.curr_head_location - 1
                 tot_movement := s.tot_movement + 1 }
      else s
    if s1.curr_head_location = (s1.heap cur).track_required then
      { finish s1 cur with curr_request := none }
    else s1

/-- The two assignments made when a request is issued: `start_time` and
`wait_time`; the request becomes `curr_request`. -/
def issue (s : Sim) (request : Nat) : Sim :=
  { s with
    curr_request := some request
    heap := s.heap.set request
      { s.heap request with
        start_time := s.curr_time
        wait_time := s.curr_time - (s.heap request).arrival_time } }

/-- Lines 115-136 of `simulate`: the inner `while` loop that finishes the
requests whose track the head is on.  The first argument bounds the number of
evaluations of the loop condition. -/
def drain : Nat → Sim → Outcome Sim
  | 0, _ => .out_of_fuel
  | fuel + 1, s =>
    match s.curr_request with
    | none => .ok s
    | some cur =>
      if s.curr_head_location = (s.heap cur).track_required then
        let s1 := finish s cur
        match s1.sched with
        | none => .fault
        | some sched =>
          let r := sched.get_next_request s1.heap s1.curr_head_location
          match r.1 with
          | none => .ok { s1 with sched := some r.2, curr_request := none }
          | some next => drain fuel (issue { s1 with sched := some r.2 } next)
      else .ok s

/-- Lines 96-138 of `simulate`: when no request is in service the next one is
taken from the scheduler and issued, and the inner loop runs.  Every turn of
the inner loop takes a request out of the scheduler, so one more evaluation of
its condition than there are pending requests is enough. -/
def dispatch (s : Sim) : Outcome Sim :=
  match s.curr_request with
  | some _ => .ok s
  | none =>
    match s.sched with
    | none => .fault
    | some sched =>
      let r := sched.get_next_request s.heap s.curr_head_location
      match r.1 with
      | none => .ok { s with sched := some r.2 }
      | some request => drain (r.2.pending.length + 1) (issue { s with sched := some r.2 } request)

/-- The body of the outer `while` loop of `simulate` (lines 59-141). -/
def tick (s : Sim) : Outcome Sim :=
  (arrive s).bind fun s1 =>
    (dispatch (service s1)).bind fun s2 =>
      .ok { s2 with curr_time := s2.curr_time + 1 }

/-- The state after at most `n` turns of the outer `while` loop: it stops
earlier when `is_request_active` is false at the loop head. -/
def run_ticks : Nat → Sim → Outcome Sim
  | 0, s => .ok s
  | n + 1, s =>
    if is_request_active s.heap s.requests then (tick s).bind (run_ticks n) else .ok s

/-- The outer `while` loop of `simulate` with a bound on the number of turns:
the state at the exit of the loop. -/
def loop : Nat → Sim → Outcome Sim
  | 0, s => if is_request_active s.heap s.requests then .out_of_fuel else .ok s
  | n + 1, s =>
    if is_request_active s.heap s.requests then (tick s).bind (loop n) else .ok s

/-- The state of `simulate` before the loop, given the scheduler pointer; the
global `curr_head_location` is zero-initialised. -/
def Sim.start (sched : Option Scheduler) (requests : List Nat) (heap : Heap) : Sim :=
  { curr_time := 0
    tot_movement := 0
    curr_request := none
    sched := sched
    curr_head_location := 0
    requests := requests
    heap := heap }

/-- The function `simulate` up to the exit of its loop. -/
def simulate (fuel : Nat) (algo : Char) (requests : List Nat) (heap : Heap) : Outcome Sim :=
  loop fuel (Sim.start (select_scheduler algo) requests heap)

/-! ## Reading the input (`readinput.cpp`) -/

/-- The constructor `Request(request_id, arrival_time, track_required, state)`:
it assigns four fields and leaves the other four as the storage `raw` had them. -/
def Request.new (raw : Request) (request_id arrival_time track_required : Int) (state : State) :
    Request :=
  { raw with
    request_id := request_id
    arrival_time := arrival_time
    track_required := track_required
    state := state }

/-- Storage whose unassigned fields read as zero. -/
def zero_request : Request :=
  { request_id := 0, arrival_time := 0, start_time := 0, end_time := 0,
    track_required := 0, wait_time := 0, turn_around_time := 0, state := State.CREATED }

/-- The loop of `readInput` over the parsed lines `arrival_time track_required`:
the request of line number `k` is allocated at address `k` with `request_id = k`
and pushed at the back of `requests`. -/
def readInput_from (curr_req_id : Nat) (lines : List (Int × Int)) (heap : Heap) :
    List Nat × Heap :=
  match lines with
  | [] => ([], heap)
  | (arrival_time, track_required) :: rest =>
    let heap1 := heap.set curr_req_id
      (Request.new (heap curr_req_id) curr_req_id arrival_time track_required State.CREATED)
    let r := readInput_from (curr_req_id + 1) rest heap1
    (curr_req_id :: r.1, r.2)

/-- The function `readInput` on the parsed lines, over the storage `raw`. -/
def readInput (raw : Heap) (lines : List (Int × Int)) : List Nat × Heap :=
  readInput_from 0 lines raw

/-! ## Vocabulary of the statements -/

/-- The request `p` is, among the requests of `queue` that satisfy `cand`, one
of least `key`, and the first such in the order of the queue: the queue splits
as `before ++ p :: after`, every candidate of `before` has a strictly larger
key and every candidate of `after` a key at least as large. -/
def FirstMin (key : Nat → Int) (cand : Nat → Prop) (queue : List Nat) (p : Nat) : Prop :=
  ∃ before after, queue = before ++ p :: after ∧ cand p ∧
    (∀ q ∈ before, cand q → key p < key q) ∧ (∀ q ∈ after, cand q → key p ≤ key q)

/-- The request at `it` lies on the side of the head the direction flag points
to: track at or above the head when ascending, at or below when descending. -/
def on_side (heap : Heap) (curr_head_location : Int) (forward_direction : Bool) (it : Nat) :
    Prop :=
  if forward_direction = true then curr_head_location ≤ (heap it).track_required
  else (heap it).track_required ≤ curr_head_location

/-- Which side a request lies on can be computed. -/
instance (heap : Heap) (h : Int) (d : Bool) : DecidablePred (on_side heap h d) := by
  intro it
  unfold on_side
  infer_instance

/-- Seek distance of the request at `it` from the head. -/
def seek_of (heap : Heap) (curr_head_location : Int) (it : Nat) : Int :=
  get_seek_time curr_head_location (heap it)

/-- Track of the request at `it`. -/
def track_of (heap : Heap) (it : Nat) : Int :=
  (heap it).track_required

/-- The common shape of the scanning loops: among the candidates keep the
first one of least key, with `-1` and `NULL` as the not-yet-found values. -/
def scan_step (key : Nat → Int) (cand : Nat → Prop) [DecidablePred cand]
    (acc : Int × Option Nat) (it : Nat) : Int × Option Nat :=
  if cand it then
    if acc.1 = -1 then (key it, some it)
    else if key it < acc.1 then (key it, some it)
    else acc
  else acc

/-- What a scanning loop has established after the requests of `done`: nothing
found and no candidate seen, or the first candidate of least key. -/
def ScanInv (key : Nat → Int) (cand : Nat → Prop) (done : List Nat)
    (acc : Int × Option Nat) : Prop :=
  (acc = (-1, none) ∧ ∀ q ∈ done, ¬ cand q) ∨
    ∃ p, acc = (key p, some p) ∧ FirstMin key cand done p

/-- A run of `add_request` calls, in the order of the list. -/
def Scheduler.add_requests (sched : Scheduler) (requests : List Nat) : Scheduler :=
  requests.foldl Scheduler.add_request sched

/-- A run of `get_next_request` calls, one for each element of `heads`, which
gives the value of `curr_head_location` at the time of that call; the results
are collected in call order. -/
def Scheduler.get_next_requests (heap : Heap) :
    List Int → Scheduler → List (Option Nat) × Scheduler
  | [], sched => ([], sched)
  | h :: heads, sched =>
    let r := sched.get_next_request heap h
    let rest := Scheduler.get_next_requests heap heads r.2
    (r.1 :: rest.1, rest.2)

/-- A call made on a scheduler object: `add_request(request)`, or
`get_next_request()` with the value `curr_head_location` has at that time. -/
inductive Call where
  | add (request : Nat)
  | next (curr_head_location : Int)

/-- The results of the `get_next_request` calls of a sequence of calls made on
an FLOOK scheduler, in call order. -/
def FLookScheduler.run_calls (heap : Heap) : List Call → FLookScheduler → List (Option Nat)
  | [], _ => []
  | Call.add request :: calls, s => FLookScheduler.run_calls heap calls (s.add_request request)
  | Call.next h :: calls, s =>
    let r := s.get_next_request heap h
    r.1 :: FLookScheduler.run_calls heap calls r.2

/-- A heap for examples: the request at address `k` has `request_id = k`, the
arrival time and the track of line `k` of the input, state `CREATED`, and zero
in the fields the constructor leaves unassigned. -/
def example_heap (lines : List (Int × Int)) : Heap :=
  (readInput (fun _ => zero_request) lines).2

/-! ### Invariant of the tick loop -/

/-- A request that has been issued not later than tick `bound`. -/
def Issued (bound : Int) (r : Request) : Prop :=
  r.arrival_time ≤ r.start_time ∧ r.start_time ≤ bound ∧
    r.wait_time = r.start_time - r.arrival_time

/-- A request that has been issued and finished not later than tick `bound`. -/
def Accounted (bound : Int) (r : Request) : Prop :=
  r.arrival_time ≤ r.start_time ∧ r.start_time ≤ r.end_time ∧ r.end_time ≤ bound ∧
    r.wait_time = r.start_time - r.arrival_time ∧
    r.turn_around_time = r.end_time - r.arrival_time

/-- The facts that hold of the variables of `simulate` at every point of the
loop body, `sched` being the scheduler object and `bound` the latest tick at
which something has happened to a request. -/
structure InvAt (bound : Int) (s : Sim) (sched : Scheduler) : Prop where
  sched_eq : s.sched = some sched
  nodup : sched.pending.Nodup
  pending_ready : ∀ p ∈ sched.pending, p ∈ s.requests ∧ (s.heap p).state = State.READY
  current_not_pending : ∀ c, s.curr_request = some c → c ∉ sched.pending
  current_ready : ∀ c, s.curr_request = some c →
    c ∈ s.requests ∧ (s.heap c).state = State.READY ∧ Issued bound (s.heap c)
  ready_held : ∀ p ∈ s.requests, (s.heap p).state = State.READY →
    p ∈ sched.pending ∨ s.curr_request = some p
  arrived : ∀ p ∈ s.requests, (s.heap p).state ≠ State.CREATED →
    (s.heap p).arrival_time ≤ bound
  complete_accounted : ∀ p ∈ s.requests, (s.heap p).state = State.COMPLETE →
    Accounted bound (s.heap p)
  not_running : ∀ p ∈ s.requests, (s.heap p).state ≠ State.RUNNING

/-- The invariant of the outer loop, at the loop head: everything that has
happened to a request happened before the current tick, and the disk is idle
only when nothing is pending. -/
def Inv (s : Sim) : Prop :=
  ∃ sched, InvAt (s.curr_time - 1) s sched ∧ (s.curr_request = none → sched.pending = [])

/-- What a part of the loop body leaves alone: the clock, the list of
requests, the input fields of every request, and every request that is still
`CREATED`. -/
structure Same (s s2 : Sim) : Prop where
  time_eq : s2.curr_time = s.curr_time
  requests_eq : s2.requests = s.requests
  arrival_eq : ∀ q, (s2.heap q).arrival_time = (s.heap q).arrival_time
  track_eq : ∀ q, (s2.heap q).track_required = (s.heap q).track_required
  created_eq : ∀ q, (s.heap q).state = State.CREATED → s2.heap q = s.heap q

/-- The five policies a run can be started with. -/
inductive Policy where
  | FIFO
  | SSTF
  | LOOK
  | CLOOK
  | FLOOK
  deriving DecidableEq, Repr

/-- The selector letter of each policy, as `simulate` tests it. -/
def Policy.letter : Policy → Char
  | Policy.FIFO => 'i'
  | Policy.SSTF => 'j'
  | Policy.LOOK => 's'
  | Policy.CLOOK => 'c'
  | Policy.FLOOK => 'f'

/-- The loop of `simulate` has exited within the budget, without a fault. -/
def Outcome.finished {α : Type} : Outcome α → Bool
  | Outcome.ok _ => true
  | Outcome.fault => false
  | Outcome.out_of_fuel => false

/-- The requests of the list as the program would print them at this point. -/
def Sim.report (s : Sim) : List Request :=
  s.requests.map s.heap

/-- The report of an outcome, when there is a state. -/
def Outcome.report : Outcome Sim → Option (List Request)
  | Outcome.ok s => some s.report
  | Outcome.fault => none
  | Outcome.out_of_fuel => none

/-- The list `requests` that `readInput` builds for examples. -/
def example_requests (lines : List (Int × Int)) : List Nat :=
  (readInput (fun _ => zero_request) lines).1

/-! ## The metrics and the summary line (`simulate.cpp`, lines 148 and 210-257) -/

/-- The loop of `get_avg_turnaround_time`: the sum of the turnaround times of
the requests of the list. -/
def sum_turn_around_time (heap : Heap) (requests : List Nat) : Int :=
  requests.foldl (fun turn_around_time it => turn_around_time + (heap it).turn_around_time) 0

/-- The loop of `get_avg_wait_time`: the sum of the wait times of the requests
of the list. -/
def sum_wait_time (heap : Heap) (requests : List Nat) : Int :=
  requests.foldl (fun wait_time it => wait_time + (heap it).wait_time) 0

/-- The function `get_avg_turnaround_time`, its quotient taken as an exact
rational: the sum divided by `requests.size()`.  With an empty list the
division is `0.0 / 0`, which yields no number: `none`. -/
def get_avg_turnaround_time (heap : Heap) (requests : List Nat) : Option ℚ :=
  if requests.length = 0 then none
  else some ((sum_turn_around_time heap requests : ℚ) / (requests.length : ℚ))

/-- The function `get_avg_wait_time`, its quotient taken as an exact rational:
the sum divided by `requests.size()`.  With an empty list the division is
`0.0 / 0`, which yields no number: `none`. -/
def get_avg_wait_time (heap : Heap) (requests : List Nat) : Option ℚ :=
  if requests.length = 0 then none
  else some ((sum_wait_time heap requests : ℚ) / (requests.length : ℚ))

/-- The function `get_max_wait_time`: `max_wait_time` starts at 0 and takes the
wait time of every request that exceeds it. -/
def get_max_wait_time (heap : Heap) (requests : List Nat) : Int :=
  requests.foldl
    (fun max_wait_time it =>
      if (heap it).wait_time > max_wait_time then (heap it).wait_time else max_wait_time) 0

/-- The numbers of the line `SUM:` that `simulate` prints after the loop. -/
structure Summary where
  total_time : Int
  tot_movement : Int
  avg_turnaround : Option ℚ
  avg_wait : Option ℚ
  max_wait : Int

/-- The arguments of the last `printf` of `simulate`, in the state at the exit
of the loop. -/
def Sim.summary (s : Sim) : Summary :=
  { total_time := s.curr_time - 1
    tot_movement := s.tot_movement
    avg_turnaround := get_avg_turnaround_time s.heap s.requests
    avg_wait := get_avg_wait_time s.heap s.requests
    max_wait := get_max_wait_time s.heap s.requests }

/-! ## The printed trace (`simulate.cpp`, the `printf` calls of the loop body) -/

/-- What the loop body prints, in print order.  `add`, `finish` and `issue` are
the lines printed under `verbose`; the numbers of a line other than the tick
and the head position are read through the pointer of the request.  `queue` is
the block printed by `sched->print_queue()` under `print_queue`: the requests
it lists, in order. -/
inductive Event where
  | add (curr_time : Int) (request : Nat)
  | finish (curr_time : Int) (request : Nat)
  | queue (dump : List Nat)
  | issue (curr_time : Int) (request : Nat) (curr_head_location : Int)
  deriving DecidableEq, Repr

/-- What is printed under the two flags: the events of the kinds switched on. -/
def Event.printed (verbose print_queue : Bool) : Event → Bool
  | Event.add _ _ => verbose
  | Event.finish _ _ => verbose
  | Event.queue _ => print_queue
  | Event.issue _ _ _ => verbose

/-- Mapping the value of an outcome. -/
def Outcome.map {α β : Type} (f : α → β) (x : Outcome α) : Outcome β :=
  x.bind fun a => Outcome.ok (f a)

/-- The function `arrive` together with what it prints. -/
def arrive_traced (s : Sim) : Outcome (Sim × List Event) :=
  match new_request_arrived s.heap s.curr_time s.requests with
  | none => .ok (s, [])
  | some request =>
    match s.sched with
    | none => .fault
    | some sched =>
      .ok ({ s with
          sched := some (sched.add_request request)
          heap := s.heap.set request { s.heap request with state := State.READY } },
        [Event.add s.curr_time request])

/-- The function `service` together with what it prints. -/
def service_traced (s : Sim) : Sim × List Event :=
  match s.curr_request with
  | none => (s, [])
  | some cur =>
    let s1 : Sim :=
      if s.curr_head_location < (s.heap cur).track_required then
        { s with curr_head_location := s.curr_head_location + 1
                 tot_movement := s.tot_movement + 1 }
      else if s.curr_head_location > (s.heap cur).track_required then
        { s with curr_head_location := s.curr_head_location - 1
                 tot_movement := s.tot_movement + 1 }
      else s
    if s1.curr_head_location = (s1.heap cur).track_required then
      ({ finish s1 cur with curr_request := none }, [Event.finish s1.curr_time cur])
    else (s1, [])

/-- The function `drain` together with what it prints: the inner loop prints a
`finish` line for the request it finishes and an `issue` line for the request
it takes next; it does not call `print_queue`. -/
def drain_traced : Nat → Sim → Outcome (Sim × List Event)
  | 0, _ => .out_of_fuel
  | fuel + 1, s =>
    match s.curr_request with
    | none => .ok (s, [])
    | some cur =>
      if s.curr_head_location = (s.heap cur).track_required then
        let s1 := finish s cur
        match s1.sched with
        | none => .fault
        | some sched =>
          let r := sched.get_next_request s1.heap s1.curr_head_location
          match r.1 with
          | none =>
            .ok ({ s1 with sched := some r.2, curr_request := none },
              [Event.finish s.curr_time cur])
          | some next =>
            (drain_traced fuel (issue { s1 with sched := some r.2 } next)).bind fun x =>
              .ok (x.1,
                Event.finish s.curr_time cur
                  :: Event.issue s.curr_time next s.curr_head_location :: x.2)
      else .ok (s, [])

/-- The function `dispatch` together with what it prints: after
`get_next_request` has returned a request, the queue as `print_queue` lists it
at that point, then the `issue` line, then the output of the inner loop. -/
def dispatch_traced (s : Sim) : Outcome (Sim × List Event) :=
  match s.curr_request with
  | some _ => .ok (s, [])
  | none =>
    match s.sched with
    | none => .fault
    | some sched =>
      let r := sched.get_next_request s.heap s.curr_head_location
      match r.1 with
      | none => .ok ({ s with sched := some r.2 }, [])
      | some request =>
        (drain_traced (r.2.pending.length + 1)
            (issue { s with sched := some r.2 } request)).bind fun x =>
          .ok (x.1,
            Event.queue r.2.print_queue
              :: Event.issue s.curr_time request s.curr_head_location :: x.2)

/-- The function `tick` together with what it prints. -/
def tick_traced (s : Sim) : Outcome (Sim × List Event) :=
  (arrive_traced s).bind fun x1 =>
    (dispatch_traced (service_traced x1.1).1).bind fun x3 =>
      .ok ({ x3.1 with curr_time := x3.1.curr_time + 1 },
        x1.2 ++ (service_traced x1.1).2 ++ x3.2)

/-- The function `run_ticks` together with everything printed so far. -/
def run_traced : Nat → Sim → Outcome (Sim × List Event)
  | 0, s => .ok (s, [])
  | n + 1, s =>
    if is_request_active s.heap s.requests then
      (tick_traced s).bind fun x =>
        (run_traced n x.1).bind fun y => .ok (y.1, x.2 ++ y.2)
    else .ok (s, [])

/-- The state after exactly `n` turns of the loop body, whatever the loop
condition says. -/
def ticks : Nat → Sim → Outcome Sim
  | 0, s => .ok s
  | n + 1, s => (tick s).bind (ticks n)

/-! ### Bookkeeping of the trace -/

/-- The seek distances `|track - head|` of the `issue` events of a trace, in
order; `track` gives the track of each request. -/
def issue_seeks (track : Nat → Int) (log : List Event) : List Int :=
  log.filterMap fun e =>
    match e with
    | Event.issue _ p h => some |track p - h|
    | _ => none

/-- The requests of the `issue` events of a trace, in order. -/
def issued (log : List Event) : List Nat :=
  log.filterMap fun e =>
    match e with
    | Event.issue _ p _ => some p
    | _ => none

/-- The distance the head still has to go for the request in service. -/
def remaining (track : Nat → Int) (s : Sim) : Int :=
  match s.curr_request with
  | none => 0
  | some c => |track c - s.curr_head_location|

/-- In the trace the `issue` line of `p` is directly followed by its `finish`
line, both at tick `t`. -/
def Adjacent (log : List Event) (t : Int) (p : Nat) (h : Int) : Prop :=
  ∃ pre post, log = pre ++ Event.issue t p h :: Event.finish t p :: post

/-- How the trace printed so far accounts for the state: `b` is the last tick
whose head step has been made. -/
structure Ledger (track : Nat → Int) (b : Int) (s : Sim) (log : List Event) : Prop where
  track_eq : ∀ q, (s.heap q).track_required = track q
  moved : s.tot_movement + remaining track s = (issue_seeks track log).sum
  issued_nodup : (issued log).Nodup
  issued_held : ∀ p ∈ issued log,
    p ∈ s.requests ∧ ((s.heap p).state = State.COMPLETE ∨ s.curr_request = some p)
  held_issued : ∀ p ∈ s.requests,
    ((s.heap p).state = State.COMPLETE ∨ s.curr_request = some p) → p ∈ issued log
  event_ok : ∀ t p h, Event.issue t p h ∈ log →
    (s.heap p).start_time = t ∧ t ≤ b ∧
      (((s.heap p).state = State.COMPLETE ∧ (s.heap p).end_time - t = |track p - h| ∧
          (h = track p → Adjacent log t p h)) ∨
        (s.curr_request = some p ∧
          (b - t) + |track p - s.curr_head_location| = |track p - h|))

/-- The head is not on the track of the request in service. -/
def OffTrack (track : Nat → Int) (s : Sim) : Prop :=
  ∀ c, s.curr_request = some c → s.curr_head_location ≠ track c

/-- What a part of the loop body at tick `t` may do to a request once it has
arrived: nothing to a `COMPLETE` one, and otherwise leave its state or take it
from `READY` to `COMPLETE` with `end_time = t`. -/
def AdvanceAt (t : Int) (s s2 : Sim) : Prop :=
  ∀ q, ((s.heap q).state = State.COMPLETE → s2.heap q = s.heap q) ∧
    ((s2.heap q).state = (s.heap q).state ∨
      ((s.heap q).state = State.READY ∧ (s2.heap q).state = State.COMPLETE ∧
        (s2.heap q).end_time = t))

/-- No `issue` line among these events. -/
def Plain (events : List Event) : Prop :=
  ∀ t p h, Event.issue t p h ∉ events

/-- No queue dump among these events. -/
def NoQueue (events : List Event) : Prop :=
  ∀ d, Event.queue d ∉ events

/-- Position of a state in the order `CREATED`, `READY`, `RUNNING`, `COMPLETE`. -/
def State.rank : State → Nat
  | State.CREATED => 0
  | State.READY => 1
  | State.RUNNING => 2
  | State.COMPLETE => 3

/-- The invariant of the outer loop together with the bookkeeping of the trace. -/
def Good (track : Nat → Int) (s : Sim) (log : List Event) : Prop :=
  ∃ sched, InvAt (s.curr_time - 1) s sched ∧ (s.curr_request = none → sched.pending = []) ∧
    Ledger track (s.curr_time - 1) s log ∧ OffTrack track s

/-- What one turn of the loop body, at the tick of `s`, may do to a request. -/
def TickRel (s s2 : Sim) : Prop :=
  ∀ q, ((s.heap q).state = State.COMPLETE → s2.heap q = s.heap q) ∧
    ((s.heap q).state = State.CREATED → (s2.heap q).state ≠ State.CREATED →
      (s.heap q).arrival_time = s.curr_time) ∧
    ((s.heap q).state ≠ State.COMPLETE → (s2.heap q).state = State.COMPLETE →
      (s2.heap q).end_time = s.curr_time) ∧
    (s.heap q).state.rank ≤ (s2.heap q).state.rank

/-- The trace of an outcome, when there is one. -/
def Outcome.trace : Outcome (Sim × List Event) → Option (List Event)
  | Outcome.ok x => some x.2
  | Outcome.fault => none
  | Outcome.out_of_fuel => none

/-- Reading of a trace in which every `issue` line comes directly after a queue
dump that lists the request issued; `prev` is the event printed just before. -/
def dumps_cover (prev : Option Event) : List Event → Bool
  | [] => true
  | Event.issue t p h :: rest =>
    (match prev with
      | some (Event.queue d) => decide (p ∈ d)
      | _ => false) && dumps_cover (some (Event.issue t p h)) rest
  | Event.add t p :: rest => dumps_cover (some (Event.add t p)) rest
  | Event.finish t p :: rest => dumps_cover (some (Event.finish t p)) rest
  | Event.queue d :: rest => dumps_cover (some (Event.queue d)) rest


/-- A state at the dispatch step of tick 5 for examples, over the input `0 5`,
`1 5`, `2 5`, `3 7` under FIFO: the head is on track 5, no request is in
service, and the requests 1, 2 and 3 are pending. -/
def dump_example : Sim :=
  { curr_time := 5
    tot_movement := 5
    curr_request := none
    sched := some (Scheduler.FIFO { queue := [1, 2, 3] })
    curr_head_location := 5
    requests := example_requests [(0, 5), (1, 5), (2, 5), (3, 7)]
    heap := example_heap [(0, 5), (1, 5), (2, 5), (3, 7)] }

/-- A state at the dispatch step of tick 7 for examples, over the input `0 5`,
`1 9`, `2 7`, `3 8`, `7 6` under FLOOK: the head is on track 7, no request is in
service, the requests 1 and 3 are left in the active queue `queue1`, and the
request 4, which arrived at this tick, is in `queue2`. -/
def flook_dump_example : Sim :=
  { curr_time := 7
    tot_movement := 7
    curr_request := none
    sched := some (Scheduler.FLOOK { queue1 := [1, 3], queue2 := [4], forward_direction := true })
    curr_head_location := 7
    requests := example_requests [(0, 5), (1, 9), (2, 7), (3, 8), (7, 6)]
    heap := example_heap [(0, 5), (1, 9), (2, 7), (3, 8), (7, 6)] }

/-! ### Arrivals, and a bound on the number of turns -/

/-- The request has an `add` line in the trace: `sched->add_request` has been
called on it. -/
def Added (log : List Event) (p : Nat) : Prop :=
  ∃ t, Event.add t p ∈ log

/-- No `add` line among these events. -/
def NoAdd (events : List Event) : Prop :=
  ∀ t p, Event.add t p ∉ events

/-- How the `add` lines of the trace account for the states: a request of the
list is `CREATED` exactly when no `add` line names it. -/
def Booked (s : Sim) (log : List Event) : Prop :=
  ∀ p ∈ s.requests, ((s.heap p).state = State.CREATED ↔ ¬ Added log p)

/-- The largest value of `f` over the list, and at least 0. -/
def largest (f : Nat → Int) (requests : List Nat) : Int :=
  requests.foldr (fun p m => max (f p) m) 0

/-- A number of turns of the outer loop that is enough for a list whose
arrival times increase: the last arrival time, plus the largest track for
every request, plus one. -/
def turn_budget (heap : Heap) (requests : List Nat) : Nat :=
  (largest (fun p => (heap p).arrival_time) requests
    + requests.length * largest (fun p => (heap p).track_required) requests + 1).toNat

/-- The facts about the clock at the loop head, for a list whose arrival times
strictly increase and are at most `A` and whose tracks lie between 0 and `M`:
a request still `CREATED` arrives at the current tick or later, the head is
between 0 and `M` and was so at every `issue` line, and every tick so far was
spent waiting for an arrival, of which there are at most `A + 1`, or moving
the head. -/
structure Timed (A M : Int) (track : Nat → Int) (s : Sim) (log : List Event) : Prop where
  arrival_le : ∀ p ∈ s.requests, (s.heap p).arrival_time ≤ A
  increasing : s.requests.Pairwise
    fun p q => (s.heap p).arrival_time < (s.heap q).arrival_time
  track_range : ∀ p ∈ s.requests, 0 ≤ track p ∧ track p ≤ M
  created_later : ∀ p ∈ s.requests, (s.heap p).state = State.CREATED →
    s.curr_time ≤ (s.heap p).arrival_time
  head_range : 0 ≤ s.curr_head_location ∧ s.curr_head_location ≤ M
  issue_range : ∀ t p h, Event.issue t p h ∈ log → 0 ≤ h ∧ h ≤ M
  moved_nonneg : 0 ≤ s.tot_movement
  clock : s.curr_time ≤ s.tot_movement + A + 1

/-- The request in service and the pending set at an outcome, when there is a
state with a scheduler. -/
def Outcome.held : Outcome Sim → Option (Option Nat × List Nat)
  | Outcome.ok s => s.sched.map fun sched => (s.curr_request, sched.pending)
  | Outcome.fault => none
  | Outcome.out_of_fuel => none
/-! ## The scanning loops -/

theorem get_seek_time_nonneg (h : Int) (r : Request) : 0 ≤ get_seek_time h r := by
  unfold get_seek_time
  split <;> omega

theorem get_seek_time_eq_abs (h : Int) (r : Request) :
    get_seek_time h r = |h - r.track_required| := by
  unfold get_seek_time
  split
  · rw [abs_of_pos (by omega)]
  · rw [abs_of_nonpos (by omega)]; omega

theorem firstMin_mem {key : Nat → Int} {cand : Nat → Prop} {queue : List Nat} {p : Nat}
    (h : FirstMin key cand queue p) : p ∈ queue := by
  obtain ⟨b, a, hq, -⟩ := h
  rw [hq]
  simp

theorem firstMin_is_cand {key : Nat → Int} {cand : Nat → Prop} {queue : List Nat} {p : Nat}
    (h : FirstMin key cand queue p) : cand p := by
  obtain ⟨_, _, _, hc, _⟩ := h
  exact hc

theorem firstMin_le {key : Nat → Int} {cand : Nat → Prop} {queue : List Nat} {p : Nat}
    (h : FirstMin key cand queue p) : ∀ q ∈ queue, cand q → key p ≤ key q := by
  obtain ⟨b, a, hq, -, hb, ha⟩ := h
  intro q hmem hc
  rw [hq] at hmem
  simp only [List.mem_append, List.mem_cons] at hmem
  rcases hmem with hm | rfl | hm
  · exact le_of_lt (hb q hm hc)
  · exact le_refl _
  · exact ha q hm hc

theorem scan_step_inv (key : Nat → Int) (cand : Nat → Prop) [DecidablePred cand]
    (done : List Nat) (acc : Int × Option Nat) (x : Nat)
    (hkey : ∀ q ∈ done ++ [x], cand q → key q ≠ -1)
    (hinv : ScanInv key cand done acc) :
    ScanInv key cand (done ++ [x]) (scan_step key cand acc x) := by
  unfold scan_step
  by_cases hx : cand x
  · rw [if_pos hx]
    rcases hinv with ⟨hacc, hnone⟩ | ⟨p, hacc, hp⟩
    · subst hacc
      refine Or.inr ⟨x, by simp, done, [], rfl, hx, ?_, by simp⟩
      intro q hq hc
      exact absurd hc (hnone q hq)
    · have hpne : key p ≠ -1 :=
        hkey p (List.mem_append_left _ (firstMin_mem hp)) (firstMin_is_cand hp)
      subst hacc
      simp only [hpne, if_false]
      by_cases hlt : key x < key p
      · rw [if_pos hlt]
        refine Or.inr ⟨x, rfl, done, [], rfl, hx, ?_, by simp⟩
        intro q hq hc
        exact lt_of_lt_of_le hlt (firstMin_le hp q hq hc)
      · rw [if_neg hlt]
        obtain ⟨b, a, hq, hcp, hb, ha⟩ := hp
        refine Or.inr ⟨p, rfl, b, a ++ [x], by simp [hq], hcp, hb, ?_⟩
        intro q hq hc
        simp only [List.mem_append, List.mem_singleton] at hq
        rcases hq with hq | rfl
        · exact ha q hq hc
        · exact not_lt.mp hlt
  · rw [if_neg hx]
    rcases hinv with ⟨hacc, hnone⟩ | ⟨p, hacc, hp⟩
    · refine Or.inl ⟨hacc, ?_⟩
      intro q hq
      simp only [List.mem_append, List.mem_singleton] at hq
      rcases hq with hq | rfl
      · exact hnone q hq
      · exact hx
    · obtain ⟨b, a, hq, hcp, hb, ha⟩ := hp
      refine Or.inr ⟨p, hacc, b, a ++ [x], by simp [hq], hcp, hb, ?_⟩
      intro q hq hc
      simp only [List.mem_append, List.mem_singleton] at hq
      rcases hq with hq | rfl
      · exact ha q hq hc
      · exact absurd hc hx

theorem scan_fold_inv (key : Nat → Int) (cand : Nat → Prop) [DecidablePred cand] :
    ∀ (l done : List Nat) (acc : Int × Option Nat),
      (∀ q ∈ done ++ l, cand q → key q ≠ -1) →
      ScanInv key cand done acc →
      ScanInv key cand (done ++ l) (l.foldl (scan_step key cand) acc) := by
  intro l
  induction l with
  | nil => intro done acc _ h; simpa using h
  | cons x xs ih =>
    intro done acc hkey hinv
    have hsplit : done ++ x :: xs = (done ++ [x]) ++ xs := by simp
    rw [List.foldl_cons, hsplit]
    apply ih
    · rw [← hsplit]; exact hkey
    · apply scan_step_inv _ _ _ _ _ _ hinv
      intro q hq
      apply hkey
      rw [hsplit]
      exact List.mem_append_left _ hq

theorem scan_fold_spec (key : Nat → Int) (cand : Nat → Prop) [DecidablePred cand]
    (l : List Nat) (hkey : ∀ q ∈ l, cand q → key q ≠ -1) :
    ScanInv key cand l (l.foldl (scan_step key cand) (-1, none)) := by
  have h := scan_fold_inv key cand l [] (-1, none) (by simpa using hkey)
    (Or.inl ⟨rfl, by simp⟩)
  simpa using h

theorem look_scan_step_eq (heap : Heap) (h : Int) (d : Bool) :
    look_scan_step heap h d = scan_step (seek_of heap h) (on_side heap h d) := by
  funext acc it
  unfold look_scan_step scan_step on_side seek_of
  cases d
  · by_cases hc : (heap it).track_required ≤ h
    · have h1 : ¬ (heap it).track_required > h := by omega
      simp [hc, h1]
    · have h1 : (heap it).track_required > h := by omega
      simp [hc, h1]
  · by_cases hc : h ≤ (heap it).track_required
    · have h1 : ¬ (heap it).track_required < h := by omega
      simp [hc, h1]
    · have h1 : (heap it).track_required < h := by omega
      simp [hc, h1]

theorem clook_forward_step_eq (heap : Heap) (h : Int) :
    clook_forward_step heap h = scan_step (seek_of heap h) (on_side heap h true) := by
  funext acc it
  unfold clook_forward_step scan_step on_side seek_of
  by_cases hc : h ≤ (heap it).track_required
  · have h1 : ¬ (heap it).track_required < h := by omega
    simp [hc, h1]
  · have h1 : (heap it).track_required < h := by omega
    simp [hc, h1]

theorem clook_wrap_step_eq (heap : Heap) :
    clook_wrap_step heap = scan_step (track_of heap) (fun _ => True) := by
  funext acc it
  unfold clook_wrap_step scan_step track_of
  simp

theorem seek_of_ne (heap : Heap) (h : Int) (q : Nat) : seek_of heap h q ≠ -1 := by
  have := get_seek_time_nonneg h (heap q)
  unfold seek_of
  omega

/-! ## The queue operations -/

theorem mem_list_remove (queue : List Nat) (r x : Nat) :
    x ∈ list_remove queue r ↔ x ∈ queue ∧ x ≠ r := by
  simp [list_remove]

theorem list_remove_eq_erase (queue : List Nat) (r : Nat) (hnd : queue.Nodup) :
    list_remove queue r = queue.erase r := by
  unfold list_remove
  exact (List.Nodup.erase_eq_filter hnd r).symm

theorem list_remove_length_lt (queue : List Nat) (r : Nat) (hr : r ∈ queue) :
    (list_remove queue r).length < queue.length := by
  unfold list_remove
  apply List.length_filter_lt_length_iff_exists.mpr
  exact ⟨r, hr, by simp⟩

theorem list_remove_not_mem (queue : List Nat) (r : Nat) (hr : r ∉ queue) :
    list_remove queue r = queue := by
  unfold list_remove
  apply List.filter_eq_self.mpr
  intro a ha
  have : a ≠ r := fun h => hr (h ▸ ha)
  simpa using this

/-! ## What each policy selects -/

theorem fifo_get_next_request_nil (s : FIFOScheduler) (h : s.queue = []) :
    s.get_next_request = (none, s) := by
  unfold FIFOScheduler.get_next_request
  rw [h]

theorem fifo_get_next_request_cons (s : FIFOScheduler) (p : Nat) (rest : List Nat)
    (h : s.queue = p :: rest) :
    s.get_next_request = (some p, { queue := rest }) := by
  unfold FIFOScheduler.get_next_request
  rw [h]

theorem sstf_fold_eq_scan (heap : Heap) (h : Int) :
    ∀ (l : List Nat) (m : Int) (r : Nat), m ≠ -1 →
      l.foldl (scan_step (seek_of heap h) (fun _ => True)) (m, some r)
        = ((l.foldl (sstf_scan_step heap h) (m, r)).1,
            some (l.foldl (sstf_scan_step heap h) (m, r)).2) := by
  intro l
  induction l with
  | nil => intro m r _; rfl
  | cons x xs ih =>
    intro m r hm
    simp only [List.foldl_cons]
    have hstep : scan_step (seek_of heap h) (fun _ => True) (m, some r) x
        = ((sstf_scan_step heap h (m, r) x).1, some (sstf_scan_step heap h (m, r) x).2) := by
      unfold scan_step sstf_scan_step seek_of
      simp only [if_true, hm, if_false]
      split <;> rfl
    have hne : (sstf_scan_step heap h (m, r) x).1 ≠ -1 := by
      unfold sstf_scan_step
      have := get_seek_time_nonneg h (heap x)
      dsimp only
      split
      · dsimp only; omega
      · exact hm
    rw [hstep]
    exact ih _ _ hne

theorem sstf_get_next_request_nil (heap : Heap) (h : Int) (s : SSTFScheduler)
    (hq : s.queue = []) : s.get_next_request heap h = (none, s) := by
  unfold SSTFScheduler.get_next_request
  rw [hq]

theorem sstf_get_next_request_spec (heap : Heap) (h : Int) (s : SSTFScheduler)
    (hne : s.queue ≠ []) :
    ∃ p, FirstMin (seek_of heap h) (fun _ => True) s.queue p ∧
      s.get_next_request heap h = (some p, { queue := list_remove s.queue p }) := by
  obtain ⟨queue⟩ := s
  cases queue with
  | nil => exact absurd rfl hne
  | cons front rest =>
    have hfront : seek_of heap h front ≠ -1 := seek_of_ne heap h front
    have hinit : ScanInv (seek_of heap h) (fun _ => True) [front]
        (seek_of heap h front, some front) :=
      Or.inr ⟨front, rfl, [], [], rfl, trivial, by simp, by simp⟩
    have hscan := scan_fold_inv (seek_of heap h) (fun _ => True) rest [front]
      (seek_of heap h front, some front) (fun q _ _ => seek_of_ne heap h q) hinit
    rw [sstf_fold_eq_scan heap h rest _ front hfront] at hscan
    have hfirst : sstf_scan_step heap h (seek_of heap h front, front) front
        = (seek_of heap h front, front) := by
      unfold sstf_scan_step seek_of
      simp
    have hfold : (front :: rest).foldl (sstf_scan_step heap h)
        (get_seek_time h (heap front), front)
        = rest.foldl (sstf_scan_step heap h) (seek_of heap h front, front) := by
      rw [List.foldl_cons]
      show List.foldl _ (sstf_scan_step heap h (seek_of heap h front, front) front) rest = _
      rw [hfirst]
    rcases hscan with ⟨hacc, -⟩ | ⟨p, hacc, hp⟩
    · simp at hacc
    · refine ⟨p, by simpa using hp, ?_⟩
      have hp2 : (rest.foldl (sstf_scan_step heap h) (seek_of heap h front, front)).2 = p := by
        have := congrArg Prod.snd hacc
        simpa using this
      unfold SSTFScheduler.get_next_request
      simp only [hfold, hp2]

/-- When no request of a non-empty queue lies on the side the flag points to,
all of them lie on the other side. -/
theorem on_side_flip (heap : Heap) (h : Int) (d : Bool) (q : Nat)
    (hq : ¬ on_side heap h d q) : on_side heap h (!d) q := by
  unfold on_side at *
  cases d <;> simp at * <;> omega

theorem look_select_spec (heap : Heap) (h : Int) (d : Bool) (queue : List Nat)
    (hne : queue ≠ []) :
    ((∃ q ∈ queue, on_side heap h d q) →
      ∃ p, FirstMin (seek_of heap h) (on_side heap h d) queue p ∧
        queue.foldl (look_scan_step heap h d) (-1, none) = (seek_of heap h p, some p)) ∧
    ((¬ ∃ q ∈ queue, on_side heap h d q) →
      queue.foldl (look_scan_step heap h d) (-1, none) = (-1, none) ∧
      ∃ p, FirstMin (seek_of heap h) (on_side heap h (!d)) queue p ∧
        queue.foldl (look_scan_step heap h (!d)) (-1, none) = (seek_of heap h p, some p)) := by
  have h1 := scan_fold_spec (seek_of heap h) (on_side heap h d) queue
    (fun q _ _ => seek_of_ne heap h q)
  have h2 := scan_fold_spec (seek_of heap h) (on_side heap h (!d)) queue
    (fun q _ _ => seek_of_ne heap h q)
  rw [← look_scan_step_eq] at h1 h2
  constructor
  · rintro ⟨q, hq, hside⟩
    rcases h1 with ⟨-, hnone⟩ | ⟨p, hacc, hp⟩
    · exact absurd hside (hnone q hq)
    · exact ⟨p, hp, hacc⟩
  · intro hno
    rcases h1 with ⟨hacc, hnone⟩ | ⟨p, -, hp⟩
    · refine ⟨hacc, ?_⟩
      rcases h2 with ⟨-, hnone2⟩ | ⟨p, hacc2, hp2⟩
      · obtain ⟨x, xs, rfl⟩ := List.exists_cons_of_ne_nil hne
        have hx : x ∈ x :: xs := by simp
        exact absurd (on_side_flip heap h d x (hnone x hx)) (hnone2 x hx)
      · exact ⟨p, hp2, hacc2⟩
    · exact absurd ⟨p, (firstMin_mem hp), (firstMin_is_cand hp)⟩ hno

theorem look_get_next_request_nil (heap : Heap) (h : Int) (s : LookScheduler)
    (hq : s.queue = []) : s.get_next_request heap h = (none, s) := by
  unfold LookScheduler.get_next_request
  simp [hq]

theorem look_get_next_request_spec (heap : Heap) (h : Int) (s : LookScheduler)
    (hne : s.queue ≠ []) :
    ((∃ q ∈ s.queue, on_side heap h s.forward_direction q) →
      ∃ p, FirstMin (seek_of heap h) (on_side heap h s.forward_direction) s.queue p ∧
        s.get_next_request heap h
          = (some p, { queue := list_remove s.queue p,
                       forward_direction := s.forward_direction })) ∧
    ((¬ ∃ q ∈ s.queue, on_side heap h s.forward_direction q) →
      ∃ p, FirstMin (seek_of heap h) (on_side heap h (!s.forward_direction)) s.queue p ∧
        s.get_next_request heap h
          = (some p, { queue := list_remove s.queue p,
                       forward_direction := !s.forward_direction })) := by
  have hlen : ¬ s.queue.length = 0 := by
    intro h0
    exact hne (List.length_eq_zero.mp h0)
  obtain ⟨hyes, hno⟩ := look_select_spec heap h s.forward_direction s.queue hne
  constructor
  · intro hex
    obtain ⟨p, hp, hacc⟩ := hyes hex
    refine ⟨p, hp, ?_⟩
    unfold LookScheduler.get_next_request
    simp only [hlen, if_false, hacc]
  · intro hex
    obtain ⟨hacc, p, hp, hacc2⟩ := hno hex
    refine ⟨p, hp, ?_⟩
    unfold LookScheduler.get_next_request
    simp only [hlen, if_false, hacc, hacc2, list_remove_ptr]

theorem clook_get_next_request_nil (heap : Heap) (h : Int) (s : CLookScheduler)
    (hq : s.queue = []) : s.get_next_request heap h = (none, s) := by
  unfold CLookScheduler.get_next_request
  simp [hq]

theorem clook_get_next_request_forward (heap : Heap) (h : Int) (s : CLookScheduler)
    (hex : ∃ q ∈ s.queue, on_side heap h true q) :
    ∃ p, FirstMin (seek_of heap h) (on_side heap h true) s.queue p ∧
      s.get_next_request heap h = (some p, { queue := list_remove s.queue p }) := by
  obtain ⟨q, hq, hside⟩ := hex
  have hlen : ¬ s.queue.length = 0 := by
    intro h0
    rw [List.length_eq_zero.mp h0] at hq
    simp at hq
  have h1 := scan_fold_spec (seek_of heap h) (on_side heap h true) s.queue
    (fun q _ _ => seek_of_ne heap h q)
  rw [← clook_forward_step_eq] at h1
  rcases h1 with ⟨-, hnone⟩ | ⟨p, hacc, hp⟩
  · exact absurd hside (hnone q hq)
  · refine ⟨p, hp, ?_⟩
    unfold CLookScheduler.get_next_request
    simp only [hlen, if_false, hacc]

theorem clook_get_next_request_wrap (heap : Heap) (h : Int) (s : CLookScheduler)
    (hne : s.queue ≠ []) (htrack : ∀ q ∈ s.queue, (heap q).track_required ≠ -1)
    (hex : ¬ ∃ q ∈ s.queue, on_side heap h true q) :
    ∃ p, FirstMin (track_of heap) (fun _ => True) s.queue p ∧
      s.get_next_request heap h = (some p, { queue := list_remove s.queue p }) := by
  have hlen : ¬ s.queue.length = 0 := by
    intro h0
    exact hne (List.length_eq_zero.mp h0)
  have h1 := scan_fold_spec (seek_of heap h) (on_side heap h true) s.queue
    (fun q _ _ => seek_of_ne heap h q)
  have h2 := scan_fold_spec (track_of heap) (fun _ => True) s.queue
    (fun q hq _ => htrack q hq)
  rw [← clook_forward_step_eq] at h1
  rw [← clook_wrap_step_eq] at h2
  rcases h1 with ⟨hacc, -⟩ | ⟨p, -, hp⟩
  · rcases h2 with ⟨-, hnone2⟩ | ⟨p, hacc2, hp2⟩
    · obtain ⟨x, xs, hx⟩ := List.exists_cons_of_ne_nil hne
      exact absurd trivial (hnone2 x (by rw [hx]; simp))
    · refine ⟨p, hp2, ?_⟩
      unfold CLookScheduler.get_next_request
      simp only [hlen, if_false, hacc, hacc2, list_remove_ptr]
  · exact absurd ⟨p, (firstMin_mem hp), (firstMin_is_cand hp)⟩ hex
theorem clook_wrap_fold_some (heap : Heap) :
    ∀ (l : List Nat) (acc : Int × Option Nat) (p : Nat) (S : List Nat),
      acc.2 = some p → p ∈ S → (∀ x ∈ l, x ∈ S) →
      ∃ p2, (l.foldl (clook_wrap_step heap) acc).2 = some p2 ∧ p2 ∈ S := by
  intro l
  induction l with
  | nil => intro acc p S hacc hp _; exact ⟨p, hacc, hp⟩
  | cons x xs ih =>
    intro acc p S hacc hp hl
    rw [List.foldl_cons]
    have hx : x ∈ S := hl x (by simp)
    have hxs : ∀ y ∈ xs, y ∈ S := fun y hy => hl y (by simp [hy])
    have hstep : ∃ p1, (clook_wrap_step heap acc x).2 = some p1 ∧ p1 ∈ S := by
      unfold clook_wrap_step
      dsimp only
      split
      · exact ⟨x, rfl, hx⟩
      · split
        · exact ⟨x, rfl, hx⟩
        · exact ⟨p, hacc, hp⟩
    obtain ⟨p1, hp1, hp1S⟩ := hstep
    exact ih _ p1 S hp1 hp1S hxs

theorem clook_wrap_fold_cons (heap : Heap) (x : Nat) (xs : List Nat) :
    ∃ p, ((x :: xs).foldl (clook_wrap_step heap) (-1, none)).2 = some p ∧ p ∈ x :: xs := by
  rw [List.foldl_cons]
  have hstep : clook_wrap_step heap (-1, none) x = ((heap x).track_required, some x) := by
    unfold clook_wrap_step
    simp
  rw [hstep]
  exact clook_wrap_fold_some heap xs _ x (x :: xs) rfl (by simp) (fun y hy => by simp [hy])

/-- Every single-queue policy either finds its queue empty and returns `NULL`
leaving the object as it was, or returns a request of the queue and removes it. -/
theorem sstf_get_next_request_cases (heap : Heap) (h : Int) (s : SSTFScheduler) :
    (s.queue = [] ∧ s.get_next_request heap h = (none, s)) ∨
    ∃ p, p ∈ s.queue ∧
      s.get_next_request heap h = (some p, { queue := list_remove s.queue p }) := by
  by_cases hq : s.queue = []
  · exact Or.inl ⟨hq, sstf_get_next_request_nil heap h s hq⟩
  · obtain ⟨p, hp, hget⟩ := sstf_get_next_request_spec heap h s hq
    exact Or.inr ⟨p, (firstMin_mem hp), hget⟩

theorem look_get_next_request_cases (heap : Heap) (h : Int) (s : LookScheduler) :
    (s.queue = [] ∧ s.get_next_request heap h = (none, s)) ∨
    ∃ p d, p ∈ s.queue ∧
      s.get_next_request heap h
        = (some p, { queue := list_remove s.queue p, forward_direction := d }) := by
  by_cases hq : s.queue = []
  · exact Or.inl ⟨hq, look_get_next_request_nil heap h s hq⟩
  · obtain ⟨hyes, hno⟩ := look_get_next_request_spec heap h s hq
    by_cases hex : ∃ q ∈ s.queue, on_side heap h s.forward_direction q
    · obtain ⟨p, hp, hget⟩ := hyes hex
      exact Or.inr ⟨p, _, (firstMin_mem hp), hget⟩
    · obtain ⟨p, hp, hget⟩ := hno hex
      exact Or.inr ⟨p, _, (firstMin_mem hp), hget⟩

theorem clook_get_next_request_cases (heap : Heap) (h : Int) (s : CLookScheduler) :
    (s.queue = [] ∧ s.get_next_request heap h = (none, s)) ∨
    ∃ p, p ∈ s.queue ∧
      s.get_next_request heap h = (some p, { queue := list_remove s.queue p }) := by
  by_cases hq : s.queue = []
  · exact Or.inl ⟨hq, clook_get_next_request_nil heap h s hq⟩
  · by_cases hex : ∃ q ∈ s.queue, on_side heap h true q
    · obtain ⟨p, hp, hget⟩ := clook_get_next_request_forward heap h s hex
      exact Or.inr ⟨p, (firstMin_mem hp), hget⟩
    · have hlen : ¬ s.queue.length = 0 := fun h0 => hq (List.length_eq_zero.mp h0)
      have h1 := scan_fold_spec (seek_of heap h) (on_side heap h true) s.queue
        (fun q _ _ => seek_of_ne heap h q)
      rw [← clook_forward_step_eq] at h1
      rcases h1 with ⟨hacc, -⟩ | ⟨p, -, hp⟩
      · obtain ⟨x, xs, hx⟩ := List.exists_cons_of_ne_nil hq
        obtain ⟨p, hp, hmem⟩ := clook_wrap_fold_cons heap x xs
        rw [← hx] at hp hmem
        refine Or.inr ⟨p, hmem, ?_⟩
        unfold CLookScheduler.get_next_request
        simp only [hlen, if_false, hacc, hp, list_remove_ptr]
      · exact absurd ⟨p, (firstMin_mem hp), (firstMin_is_cand hp)⟩ hex

/-- The FLOOK selection is the LOOK selection on `queue1` after the switch. -/
theorem flook_get_next_request_eq (heap : Heap) (h : Int) (s0 : FLookScheduler) :
    s0.get_next_request heap h =
      ((LookScheduler.get_next_request heap h
          { queue := s0.switch_queues.queue1,
            forward_direction := s0.switch_queues.forward_direction }).1,
        { queue1 := (LookScheduler.get_next_request heap h
            { queue := s0.switch_queues.queue1,
              forward_direction := s0.switch_queues.forward_direction }).2.queue,
          queue2 := s0.switch_queues.queue2,
          forward_direction := (LookScheduler.get_next_request heap h
            { queue := s0.switch_queues.queue1,
              forward_direction := s0.switch_queues.forward_direction }).2.forward_direction }) := by
  unfold FLookScheduler.get_next_request LookScheduler.get_next_request
  dsimp only
  split
  · rfl
  · split <;> rfl

theorem flook_get_next_request_cases (heap : Heap) (h : Int) (s : FLookScheduler) :
    (s.queue1 = [] ∧ s.queue2 = [] ∧ s.get_next_request heap h = (none, s)) ∨
    ∃ p d, p ∈ s.switch_queues.queue1 ∧
      s.get_next_request heap h
        = (some p, { queue1 := list_remove s.switch_queues.queue1 p,
                     queue2 := s.switch_queues.queue2,
                     forward_direction := d }) := by
  rw [flook_get_next_request_eq]
  rcases look_get_next_request_cases heap h
      { queue := s.switch_queues.queue1,
        forward_direction := s.switch_queues.forward_direction } with
    ⟨hq, hget⟩ | ⟨p, d, hp, hget⟩
  · left
    dsimp only at hq
    have h1 : s.queue1 = [] := by
      unfold FLookScheduler.switch_queues at hq
      by_cases hl : s.queue1.length = 0
      · exact List.length_eq_zero.mp hl
      · rw [if_neg hl] at hq; exact hq
    have h2 : s.queue2 = [] := by
      unfold FLookScheduler.switch_queues at hq
      rw [if_pos (by simp [h1])] at hq
      exact hq
    have hsw : s.switch_queues = s := by
      unfold FLookScheduler.switch_queues
      obtain ⟨q1, q2, d⟩ := s
      simp only at h1 h2
      subst h1 h2
      simp
    refine ⟨h1, h2, ?_⟩
    rw [hget, hsw]
  · right
    refine ⟨p, d, hp, ?_⟩
    rw [hget]

theorem flook_switch_pending (s : FLookScheduler) :
    s.switch_queues.queue1 ++ s.switch_queues.queue2 = s.queue1 ++ s.queue2 := by
  unfold FLookScheduler.switch_queues
  split
  · rename_i hl
    simp [List.length_eq_zero.mp hl]
  · rfl

/-! ## The contract common to the five policies -/

theorem erase_append_of_mem_left (l1 l2 : List Nat) (p : Nat) (hp : p ∈ l1) :
    (l1 ++ l2).erase p = l1.erase p ++ l2 :=
  List.erase_append_left l2 hp

theorem get_next_request_none_iff (heap : Heap) (h : Int) (sched : Scheduler) :
    (sched.get_next_request heap h).1 = none ↔ sched.pending = [] := by
  cases sched with
  | FIFO s =>
    obtain ⟨q⟩ := s
    cases q <;>
      simp [Scheduler.get_next_request, Scheduler.pending, FIFOScheduler.get_next_request]
  | SSTF s =>
    simp only [Scheduler.get_next_request, Scheduler.pending]
    rcases sstf_get_next_request_cases heap h s with ⟨hq, hget⟩ | ⟨p, hp, hget⟩
    · simp [hget, hq]
    · simp only [hget]
      constructor
      · intro hc; simp at hc
      · intro hc; rw [hc] at hp; simp at hp
  | LOOK s =>
    simp only [Scheduler.get_next_request, Scheduler.pending]
    rcases look_get_next_request_cases heap h s with ⟨hq, hget⟩ | ⟨p, d, hp, hget⟩
    · simp [hget, hq]
    · simp only [hget]
      constructor
      · intro hc; simp at hc
      · intro hc; rw [hc] at hp; simp at hp
  | CLOOK s =>
    simp only [Scheduler.get_next_request, Scheduler.pending]
    rcases clook_get_next_request_cases heap h s with ⟨hq, hget⟩ | ⟨p, hp, hget⟩
    · simp [hget, hq]
    · simp only [hget]
      constructor
      · intro hc; simp at hc
      · intro hc; rw [hc] at hp; simp at hp
  | FLOOK s =>
    simp only [Scheduler.get_next_request, Scheduler.pending]
    rcases flook_get_next_request_cases heap h s with ⟨h1, h2, hget⟩ | ⟨p, d, hp, hget⟩
    · simp [hget, h1, h2]
    · simp only [hget]
      constructor
      · intro hc; simp at hc
      · intro hc
        have hmem : p ∈ s.switch_queues.queue1 ++ s.switch_queues.queue2 :=
          List.mem_append_left _ hp
        rw [flook_switch_pending, hc] at hmem
        simp at hmem

theorem get_next_request_none_same (heap : Heap) (h : Int) (sched : Scheduler)
    (hnone : (sched.get_next_request heap h).1 = none) :
    (sched.get_next_request heap h).2 = sched := by
  have hq := (get_next_request_none_iff heap h sched).mp hnone
  cases sched with
  | FIFO s =>
    simp only [Scheduler.pending] at hq
    simp only [Scheduler.get_next_request]
    simp [fifo_get_next_request_nil s hq]
  | SSTF s =>
    simp only [Scheduler.pending] at hq
    simp only [Scheduler.get_next_request]
    simp [sstf_get_next_request_nil heap h s hq]
  | LOOK s =>
    simp only [Scheduler.pending] at hq
    simp only [Scheduler.get_next_request]
    simp [look_get_next_request_nil heap h s hq]
  | CLOOK s =>
    simp only [Scheduler.pending] at hq
    simp only [Scheduler.get_next_request]
    simp [clook_get_next_request_nil heap h s hq]
  | FLOOK s =>
    simp only [Scheduler.pending] at hq
    simp only [Scheduler.get_next_request]
    rcases flook_get_next_request_cases heap h s with ⟨h1, h2, hget⟩ | ⟨p, d, hp, hget⟩
    · simp [hget]
    · have hmem : p ∈ s.switch_queues.queue1 ++ s.switch_queues.queue2 :=
        List.mem_append_left _ hp
      rw [flook_switch_pending, hq] at hmem
      simp at hmem

theorem get_next_request_some (heap : Heap) (h : Int) (sched : Scheduler)
    (hnd : sched.pending.Nodup) (p : Nat)
    (hsome : (sched.get_next_request heap h).1 = some p) :
    p ∈ sched.pending ∧ (sched.get_next_request heap h).2.pending = sched.pending.erase p := by
  cases sched with
  | FIFO s =>
    obtain ⟨q⟩ := s
    cases q with
    | nil =>
      simp [Scheduler.get_next_request, FIFOScheduler.get_next_request] at hsome
    | cons x xs =>
      simp only [Scheduler.get_next_request, FIFOScheduler.get_next_request,
        Option.some.injEq] at hsome
      subst hsome
      simp [Scheduler.get_next_request, Scheduler.pending, FIFOScheduler.get_next_request]
  | SSTF s =>
    simp only [Scheduler.get_next_request, Scheduler.pending] at *
    rcases sstf_get_next_request_cases heap h s with ⟨hq, hget⟩ | ⟨p2, hp, hget⟩
    · rw [hget] at hsome; simp at hsome
    · rw [hget] at hsome ⊢
      simp only [Option.some.injEq] at hsome
      subst hsome
      exact ⟨hp, list_remove_eq_erase _ _ hnd⟩
  | LOOK s =>
    simp only [Scheduler.get_next_request, Scheduler.pending] at *
    rcases look_get_next_request_cases heap h s with ⟨hq, hget⟩ | ⟨p2, d, hp, hget⟩
    · rw [hget] at hsome; simp at hsome
    · rw [hget] at hsome ⊢
      simp only [Option.some.injEq] at hsome
      subst hsome
      exact ⟨hp, list_remove_eq_erase _ _ hnd⟩
  | CLOOK s =>
    simp only [Scheduler.get_next_request, Scheduler.pending] at *
    rcases clook_get_next_request_cases heap h s with ⟨hq, hget⟩ | ⟨p2, hp, hget⟩
    · rw [hget] at hsome; simp at hsome
    · rw [hget] at hsome ⊢
      simp only [Option.some.injEq] at hsome
      subst hsome
      exact ⟨hp, list_remove_eq_erase _ _ hnd⟩
  | FLOOK s =>
    simp only [Scheduler.get_next_request, Scheduler.pending] at *
    rcases flook_get_next_request_cases heap h s with ⟨h1, h2, hget⟩ | ⟨p2, d, hp, hget⟩
    · rw [hget] at hsome; simp at hsome
    · rw [hget] at hsome ⊢
      simp only [Option.some.injEq] at hsome
      subst hsome
      rw [← flook_switch_pending] at hnd ⊢
      refine ⟨List.mem_append_left _ hp, ?_⟩
      dsimp only
      rw [erase_append_of_mem_left _ _ _ hp,
        list_remove_eq_erase _ _ (List.Nodup.of_append_left hnd)]
/-! ## Sequences of calls -/

theorem fifo_add_requests (requests queue : List Nat) :
    (Scheduler.FIFO { queue := queue }).add_requests requests
      = Scheduler.FIFO { queue := queue ++ requests } := by
  unfold Scheduler.add_requests
  induction requests generalizing queue with
  | nil => simp
  | cons r rs ih =>
    rw [List.foldl_cons]
    simp only [Scheduler.add_request, FIFOScheduler.add_request]
    rw [ih]
    simp

theorem fifo_get_next_requests (heap : Heap) (heads : List Int) (queue : List Nat) :
    Scheduler.get_next_requests heap heads (Scheduler.FIFO { queue := queue })
      = ((queue.take heads.length).map some
            ++ List.replicate (heads.length - queue.length) none,
          Scheduler.FIFO { queue := queue.drop heads.length }) := by
  induction heads generalizing queue with
  | nil => simp [Scheduler.get_next_requests]
  | cons h hs ih =>
    cases queue with
    | nil =>
      simp only [Scheduler.get_next_requests, Scheduler.get_next_request,
        FIFOScheduler.get_next_request]
      rw [ih]
      simp [List.replicate_succ]
    | cons q qs =>
      simp only [Scheduler.get_next_requests, Scheduler.get_next_request,
        FIFOScheduler.get_next_request]
      rw [ih]
      simp

theorem flook_add_request_queue1 (s : FLookScheduler) (p : Nat) :
    (s.add_request p).queue1 = s.queue1 := rfl

theorem flook_switch_of_ne (s : FLookScheduler) (h : s.queue1 ≠ []) : s.switch_queues = s := by
  unfold FLookScheduler.switch_queues
  rw [if_neg]
  intro h0
  exact h (List.length_eq_zero.mp h0)

theorem flook_isolation_aux (heap : Heap) (p : Nat) :
    ∀ (calls : List Call) (s : FLookScheduler), p ∉ s.queue1 →
      ∀ before after, FLookScheduler.run_calls heap calls s = before ++ some p :: after →
        ∀ x ∈ s.queue1, some x ∈ before := by
  intro calls
  induction calls with
  | nil =>
    intro s _ before after hrun
    simp [FLookScheduler.run_calls] at hrun
  | cons c cs ih =>
    intro s hp before after hrun x hx
    cases c with
    | add q =>
      simp only [FLookScheduler.run_calls] at hrun
      exact ih (s.add_request q) hp before after hrun x hx
    | next h =>
      simp only [FLookScheduler.run_calls] at hrun
      have hne : s.queue1 ≠ [] := by
        intro h0
        rw [h0] at hx
        simp at hx
      rcases flook_get_next_request_cases heap h s with ⟨h1, -, -⟩ | ⟨p2, d, hp2, hget⟩
      · exact absurd h1 hne
      · rw [flook_switch_of_ne s hne] at hp2 hget
        rw [hget] at hrun
        have hpp : p2 ≠ p := fun h => hp (h ▸ hp2)
        cases before with
        | nil =>
          simp only [List.nil_append, List.cons.injEq, Option.some.injEq] at hrun
          exact absurd hrun.1 hpp
        | cons b bs =>
          simp only [List.cons_append, List.cons.injEq] at hrun
          obtain ⟨hb, hrest⟩ := hrun
          by_cases hxp : x = p2
          · subst hxp
            rw [← hb]
            simp
          · have hmem : x ∈ list_remove s.queue1 p2 :=
              (mem_list_remove _ _ _).mpr ⟨hx, hxp⟩
            have hnot : p ∉ list_remove s.queue1 p2 := by
              intro hc
              exact hp ((mem_list_remove _ _ _).mp hc).1
            have := ih _ hnot bs after hrest x hmem
            exact List.mem_cons_of_mem _ this
/-! ## The tick loop -/

theorem heap_set_same (heap : Heap) (p : Nat) (r : Request) : (heap.set p r) p = r := by
  simp [Heap.set]

theorem heap_set_other (heap : Heap) (p q : Nat) (r : Request) (h : q ≠ p) :
    (heap.set p r) q = heap q := by
  simp [Heap.set, h]

theorem pending_add_request (sched : Scheduler) (p : Nat) :
    (sched.add_request p).pending = sched.pending ++ [p] := by
  cases sched <;>
    simp [Scheduler.add_request, Scheduler.pending, FIFOScheduler.add_request,
      SSTFScheduler.add_request, LookScheduler.add_request, CLookScheduler.add_request,
      FLookScheduler.add_request]

theorem new_request_arrived_some (heap : Heap) (t : Int) :
    ∀ (requests : List Nat) (p : Nat), new_request_arrived heap t requests = some p →
      p ∈ requests ∧ (heap p).arrival_time = t := by
  intro requests
  induction requests with
  | nil => intro p h; simp [new_request_arrived] at h
  | cons x xs ih =>
    intro p h
    unfold new_request_arrived at h
    split at h
    · rename_i hx
      simp only [Option.some.injEq] at h
      subst h
      exact ⟨by simp, hx⟩
    · split at h
      · simp at h
      · obtain ⟨hm, ha⟩ := ih p h
        exact ⟨List.mem_cons_of_mem _ hm, ha⟩

theorem new_request_arrived_congr (heap heap2 : Heap) (t : Int)
    (harr : ∀ q, (heap2 q).arrival_time = (heap q).arrival_time) :
    ∀ requests : List Nat,
      new_request_arrived heap2 t requests = new_request_arrived heap t requests := by
  intro requests
  induction requests with
  | nil => rfl
  | cons x xs ih =>
    unfold new_request_arrived
    rw [harr x, ih]

theorem same_refl (s : Sim) : Same s s :=
  { time_eq := rfl, requests_eq := rfl, arrival_eq := fun _ => rfl,
    track_eq := fun _ => rfl, created_eq := fun _ _ => rfl }

theorem same_trans {s s2 s3 : Sim} (h1 : Same s s2) (h2 : Same s2 s3) : Same s s3 :=
  { time_eq := by rw [h2.time_eq, h1.time_eq]
    requests_eq := by rw [h2.requests_eq, h1.requests_eq]
    arrival_eq := fun q => by rw [h2.arrival_eq, h1.arrival_eq]
    track_eq := fun q => by rw [h2.track_eq, h1.track_eq]
    created_eq := fun q hq => by
      have e1 := h1.created_eq q hq
      have e2 := h2.created_eq q (by rw [e1]; exact hq)
      rw [e2, e1] }

theorem issued_mono {b b2 : Int} {r : Request} (hb : b ≤ b2) (h : Issued b r) : Issued b2 r :=
  ⟨h.1, le_trans h.2.1 hb, h.2.2⟩

theorem accounted_mono {b b2 : Int} {r : Request} (hb : b ≤ b2) (h : Accounted b r) :
    Accounted b2 r :=
  ⟨h.1, h.2.1, le_trans h.2.2.1 hb, h.2.2.2.1, h.2.2.2.2⟩

theorem invAt_mono {b b2 : Int} {s : Sim} {sched : Scheduler} (hb : b ≤ b2)
    (h : InvAt b s sched) : InvAt b2 s sched :=
  { sched_eq := h.sched_eq
    nodup := h.nodup
    pending_ready := h.pending_ready
    current_not_pending := h.current_not_pending
    current_ready := fun c hc =>
      ⟨(h.current_ready c hc).1, (h.current_ready c hc).2.1, issued_mono hb (h.current_ready c hc).2.2⟩
    ready_held := h.ready_held
    arrived := fun p hp hs => le_trans (h.arrived p hp hs) hb
    complete_accounted := fun p hp hs => accounted_mono hb (h.complete_accounted p hp hs)
    not_running := h.not_running }

/-- The arrival step: the request found, if any, is still `CREATED`; it is
appended to the pending requests and becomes `READY`. -/
theorem arrive_inv (s : Sim) (sched : Scheduler) (h : InvAt (s.curr_time - 1) s sched) :
    ∃ s1 sched1, arrive s = Outcome.ok s1 ∧ InvAt s.curr_time s1 sched1 ∧
      s1.curr_time = s.curr_time ∧ s1.requests = s.requests ∧
      s1.curr_request = s.curr_request ∧
      (∀ q, (s1.heap q).arrival_time = (s.heap q).arrival_time) ∧
      (∀ q, (s1.heap q).track_required = (s.heap q).track_required) ∧
      (∀ q, new_request_arrived s.heap s.curr_time s.requests ≠ some q →
        s1.heap q = s.heap q) ∧
      (∀ q, new_request_arrived s.heap s.curr_time s.requests = some q →
        (s.heap q).state = State.CREATED ∧ (s1.heap q).state = State.READY ∧
          sched1.pending = sched.pending ++ [q]) ∧
      (new_request_arrived s.heap s.curr_time s.requests = none → sched1 = sched) := by
  have hmono : InvAt s.curr_time s sched := invAt_mono (by omega) h
  cases harr : new_request_arrived s.heap s.curr_time s.requests with
  | none =>
    refine ⟨s, sched, ?_, hmono, rfl, rfl, rfl, fun _ => rfl, fun _ => rfl,
      fun _ _ => rfl, ?_, fun _ => rfl⟩
    · unfold arrive
      rw [harr]
    · intro q hq
      simp at hq
  | some p =>
    obtain ⟨hpmem, hparr⟩ := new_request_arrived_some s.heap s.curr_time s.requests p harr
    have hcreated : (s.heap p).state = State.CREATED := by
      by_contra hne
      have := h.arrived p hpmem hne
      omega
    have hnotpend : p ∉ sched.pending := by
      intro hc
      have := (h.pending_ready p hc).2
      rw [hcreated] at this
      exact State.noConfusion this
    have hnotcur : s.curr_request ≠ some p := by
      intro hc
      have := (h.current_ready p hc).2.1
      rw [hcreated] at this
      exact State.noConfusion this
    refine ⟨{ s with
        sched := some (sched.add_request p)
        heap := s.heap.set p { s.heap p with state := State.READY } },
      sched.add_request p, ?_, ?_, rfl, rfl, rfl, ?_, ?_, ?_, ?_, ?_⟩
    · unfold arrive
      rw [harr, h.sched_eq]
    · refine
        { sched_eq := rfl
          nodup := ?_
          pending_ready := ?_
          current_not_pending := ?_
          current_ready := ?_
          ready_held := ?_
          arrived := ?_
          complete_accounted := ?_
          not_running := ?_ }
      · rw [pending_add_request]
        exact List.Nodup.append h.nodup (List.nodup_singleton p)
          (by simpa using hnotpend)
      · intro q hq
        rw [pending_add_request] at hq
        simp only [List.mem_append, List.mem_singleton] at hq
        rcases hq with hq | rfl
        · have hqp : q ≠ p := fun e => hnotpend (e ▸ hq)
          refine ⟨(h.pending_ready q hq).1, ?_⟩
          show ((s.heap.set p _) q).state = State.READY
          rw [heap_set_other _ _ _ _ hqp]
          exact (h.pending_ready q hq).2
        · refine ⟨hpmem, ?_⟩
          show ((s.heap.set q _) q).state = State.READY
          rw [heap_set_same]
      · intro c hc
        rw [pending_add_request]
        simp only [List.mem_append, List.mem_singleton, not_or]
        refine ⟨h.current_not_pending c hc, ?_⟩
        intro e
        exact hnotcur (e ▸ hc)
      · intro c hc
        have hcp : c ≠ p := fun e => hnotcur (e ▸ hc)
        obtain ⟨h1, h2, h3⟩ := hmono.current_ready c hc
        refine ⟨h1, ?_, ?_⟩
        · show ((s.heap.set p _) c).state = State.READY
          rw [heap_set_other _ _ _ _ hcp]
          exact h2
        · show Issued _ ((s.heap.set p _) c)
          rw [heap_set_other _ _ _ _ hcp]
          exact h3
      · intro q hq hst
        rw [pending_add_request]
        by_cases hqp : q = p
        · left
          simp [hqp]
        · have hst2 : (s.heap q).state = State.READY := by
            have : ((s.heap.set p { s.heap p with state := State.READY }) q).state
                = State.READY := hst
            rwa [heap_set_other _ _ _ _ hqp] at this
          rcases h.ready_held q hq hst2 with hh | hh
          · left
            exact List.mem_append_left _ hh
          · right
            exact hh
      · intro q hq hst
        by_cases hqp : q = p
        · subst hqp
          show ((s.heap.set q _) q).arrival_time ≤ s.curr_time
          rw [heap_set_same]
          show (s.heap q).arrival_time ≤ s.curr_time
          omega
        · have hst2 : (s.heap q).state ≠ State.CREATED := by
            have : ((s.heap.set p { s.heap p with state := State.READY }) q).state
                ≠ State.CREATED := hst
            rwa [heap_set_other _ _ _ _ hqp] at this
          show ((s.heap.set p _) q).arrival_time ≤ s.curr_time
          rw [heap_set_other _ _ _ _ hqp]
          exact hmono.arrived q hq hst2
      · intro q hq hst
        by_cases hqp : q = p
        · subst hqp
          have : ((s.heap.set q { s.heap q with state := State.READY }) q).state
              = State.COMPLETE := hst
          rw [heap_set_same] at this
          exact State.noConfusion this
        · have hst2 : (s.heap q).state = State.COMPLETE := by
            have : ((s.heap.set p { s.heap p with state := State.READY }) q).state
                = State.COMPLETE := hst
            rwa [heap_set_other _ _ _ _ hqp] at this
          show Accounted _ ((s.heap.set p _) q)
          rw [heap_set_other _ _ _ _ hqp]
          exact hmono.complete_accounted q hq hst2
      · intro q hq
        by_cases hqp : q = p
        · subst hqp
          show ((s.heap.set q _) q).state ≠ State.RUNNING
          rw [heap_set_same]
          exact fun e => State.noConfusion e
        · show ((s.heap.set p _) q).state ≠ State.RUNNING
          rw [heap_set_other _ _ _ _ hqp]
          exact h.not_running q hq
    · intro q
      by_cases hqp : q = p
      · subst hqp
        show ((s.heap.set q _) q).arrival_time = _
        rw [heap_set_same]
      · show ((s.heap.set p _) q).arrival_time = _
        rw [heap_set_other _ _ _ _ hqp]
    · intro q
      by_cases hqp : q = p
      · subst hqp
        show ((s.heap.set q _) q).track_required = _
        rw [heap_set_same]
      · show ((s.heap.set p _) q).track_required = _
        rw [heap_set_other _ _ _ _ hqp]
    · intro q hq
      have hqp : q ≠ p := fun e => hq (e ▸ rfl)
      show (s.heap.set p _) q = _
      rw [heap_set_other _ _ _ _ hqp]
    · intro q hq
      simp only [Option.some.injEq] at hq
      subst hq
      refine ⟨hcreated, ?_, pending_add_request sched p⟩
      show ((s.heap.set p _) p).state = State.READY
      rw [heap_set_same]
    · intro hc
      simp at hc
/-- The invariant only reads the scheduler, the request list, the heap and the
request in service. -/
theorem invAt_congr {b : Int} {s s2 : Sim} {sched : Scheduler} (h : InvAt b s sched)
    (hsched : s2.sched = s.sched) (hreq : s2.requests = s.requests)
    (hheap : s2.heap = s.heap) (hcur : s2.curr_request = s.curr_request) :
    InvAt b s2 sched := by
  obtain ⟨t1, m1, c1, sc1, hd1, r1, hp1⟩ := s
  obtain ⟨t2, m2, c2, sc2, hd2, r2, hp2⟩ := s2
  simp only at hsched hreq hheap hcur
  subst hsched hreq hheap hcur
  exact
    { sched_eq := h.sched_eq
      nodup := h.nodup
      pending_ready := h.pending_ready
      current_not_pending := h.current_not_pending
      current_ready := h.current_ready
      ready_held := h.ready_held
      arrived := h.arrived
      complete_accounted := h.complete_accounted
      not_running := h.not_running }

/-- Finishing the request in service keeps the invariant. -/
theorem invAt_finish (s s2 : Sim) {sched : Scheduler} {c : Nat}
    (h : InvAt s.curr_time s sched) (hc : s.curr_request = some c)
    (hsched : s2.sched = s.sched) (hreq : s2.requests = s.requests)
    (hcur : s2.curr_request = none)
    (hheap : s2.heap = s.heap.set c
      { s.heap c with
        end_time := s.curr_time
        turn_around_time := s.curr_time - (s.heap c).arrival_time
        state := State.COMPLETE }) :
    InvAt s.curr_time s2 sched ∧
      (∀ q, (s2.heap q).arrival_time = (s.heap q).arrival_time) ∧
      (∀ q, (s2.heap q).track_required = (s.heap q).track_required) ∧
      (∀ q, (s.heap q).state = State.CREATED → s2.heap q = s.heap q) := by
  obtain ⟨hcmem, hcready, hcissued⟩ := h.current_ready c hc
  have hother : ∀ q, q ≠ c → s2.heap q = s.heap q := by
    intro q hq
    rw [hheap, heap_set_other _ _ _ _ hq]
  have hself : s2.heap c = { s.heap c with
        end_time := s.curr_time
        turn_around_time := s.curr_time - (s.heap c).arrival_time
        state := State.COMPLETE } := by
    rw [hheap, heap_set_same]
  refine ⟨?_, ?_, ?_, ?_⟩
  · refine
      { sched_eq := by rw [hsched]; exact h.sched_eq
        nodup := h.nodup
        pending_ready := ?_
        current_not_pending := ?_
        current_ready := ?_
        ready_held := ?_
        arrived := ?_
        complete_accounted := ?_
        not_running := ?_ }
    · intro q hq
      have hqc : q ≠ c := fun e => h.current_not_pending c hc (e ▸ hq)
      rw [hreq, hother q hqc]
      exact h.pending_ready q hq
    · intro x hx
      rw [hcur] at hx
      simp at hx
    · intro x hx
      rw [hcur] at hx
      simp at hx
    · intro q hq hst
      rw [hreq] at hq
      by_cases hqc : q = c
      · subst hqc
        rw [hself] at hst
        exact State.noConfusion hst
      · rw [hother q hqc] at hst
        rcases h.ready_held q hq hst with hh | hh
        · exact Or.inl hh
        · rw [hc] at hh
          simp only [Option.some.injEq] at hh
          exact absurd hh.symm hqc
    · intro q hq hst
      rw [hreq] at hq
      by_cases hqc : q = c
      · subst hqc
        rw [hself]
        show (s.heap q).arrival_time ≤ s.curr_time
        exact h.arrived q hq (by rw [hcready]; exact fun e => State.noConfusion e)
      · rw [hother q hqc] at hst ⊢
        exact h.arrived q hq hst
    · intro q hq hst
      rw [hreq] at hq
      by_cases hqc : q = c
      · subst hqc
        rw [hself]
        obtain ⟨i1, i2, i3⟩ := hcissued
        exact ⟨i1, i2, le_refl _, i3, rfl⟩
      · rw [hother q hqc] at hst ⊢
        exact h.complete_accounted q hq hst
    · intro q hq
      rw [hreq] at hq
      by_cases hqc : q = c
      · subst hqc
        rw [hself]
        exact fun e => State.noConfusion e
      · rw [hother q hqc]
        exact h.not_running q hq
  · intro q
    by_cases hqc : q = c
    · subst hqc; rw [hself]
    · rw [hother q hqc]
  · intro q
    by_cases hqc : q = c
    · subst hqc; rw [hself]
    · rw [hother q hqc]
  · intro q hq
    have hqc : q ≠ c := by
      intro e
      subst e
      rw [hcready] at hq
      exact State.noConfusion hq
    exact hother q hqc

/-- Issuing a pending request while the disk is idle keeps the invariant. -/
theorem invAt_issue (s s2 : Sim) {sched sched2 : Scheduler} {p : Nat}
    (h : InvAt s.curr_time s sched) (hidle : s.curr_request = none)
    (hp : p ∈ sched.pending) (hpend : sched2.pending = sched.pending.erase p)
    (hsched : s2.sched = some sched2) (hreq : s2.requests = s.requests)
    (hcur : s2.curr_request = some p)
    (hheap : s2.heap = s.heap.set p
      { s.heap p with
        start_time := s.curr_time
        wait_time := s.curr_time - (s.heap p).arrival_time }) :
    InvAt s.curr_time s2 sched2 ∧
      (∀ q, (s2.heap q).arrival_time = (s.heap q).arrival_time) ∧
      (∀ q, (s2.heap q).track_required = (s.heap q).track_required) ∧
      (∀ q, (s.heap q).state = State.CREATED → s2.heap q = s.heap q) := by
  obtain ⟨hpmem, hpready⟩ := h.pending_ready p hp
  have hother : ∀ q, q ≠ p → s2.heap q = s.heap q := by
    intro q hq
    rw [hheap, heap_set_other _ _ _ _ hq]
  have hself : s2.heap p = { s.heap p with
        start_time := s.curr_time
        wait_time := s.curr_time - (s.heap p).arrival_time } := by
    rw [hheap, heap_set_same]
  have hmem_erase : ∀ q, q ∈ sched2.pending ↔ q ≠ p ∧ q ∈ sched.pending := by
    intro q
    rw [hpend]
    exact List.Nodup.mem_erase_iff h.nodup
  refine ⟨?_, ?_, ?_, ?_⟩
  · refine
      { sched_eq := hsched
        nodup := by rw [hpend]; exact List.Nodup.erase p h.nodup
        pending_ready := ?_
        current_not_pending := ?_
        current_ready := ?_
        ready_held := ?_
        arrived := ?_
        complete_accounted := ?_
        not_running := ?_ }
    · intro q hq
      obtain ⟨hqp, hq2⟩ := (hmem_erase q).mp hq
      rw [hreq, hother q hqp]
      exact h.pending_ready q hq2
    · intro x hx hmem
      rw [hcur] at hx
      simp only [Option.some.injEq] at hx
      subst hx
      exact ((hmem_erase p).mp hmem).1 rfl
    · intro x hx
      rw [hcur] at hx
      simp only [Option.some.injEq] at hx
      subst hx
      rw [hreq, hself]
      refine ⟨hpmem, hpready, ?_, le_refl _, rfl⟩
      show (s.heap p).arrival_time ≤ s.curr_time
      exact h.arrived p hpmem (by rw [hpready]; exact fun e => State.noConfusion e)
    · intro q hq hst
      rw [hreq] at hq
      by_cases hqp : q = p
      · right
        rw [hcur, hqp]
      · rw [hother q hqp] at hst
        rcases h.ready_held q hq hst with hh | hh
        · exact Or.inl ((hmem_erase q).mpr ⟨hqp, hh⟩)
        · rw [hidle] at hh
          simp at hh
    · intro q hq hst
      rw [hreq] at hq
      by_cases hqp : q = p
      · subst hqp
        rw [hself]
        show (s.heap q).arrival_time ≤ s.curr_time
        exact h.arrived q hq (by rw [hpready]; exact fun e => State.noConfusion e)
      · rw [hother q hqp] at hst ⊢
        exact h.arrived q hq hst
    · intro q hq hst
      rw [hreq] at hq
      by_cases hqp : q = p
      · subst hqp
        rw [hself] at hst
        have : (s.heap q).state = State.COMPLETE := hst
        rw [hpready] at this
        exact State.noConfusion this
      · rw [hother q hqp] at hst ⊢
        exact h.complete_accounted q hq hst
    · intro q hq
      rw [hreq] at hq
      by_cases hqp : q = p
      · subst hqp
        rw [hself]
        exact h.not_running q hq
      · rw [hother q hqp]
        exact h.not_running q hq
  · intro q
    by_cases hqp : q = p
    · subst hqp; rw [hself]
    · rw [hother q hqp]
  · intro q
    by_cases hqp : q = p
    · subst hqp; rw [hself]
    · rw [hother q hqp]
  · intro q hq
    have hqp : q ≠ p := by
      intro e
      subst e
      rw [hpready] at hq
      exact State.noConfusion hq
    exact hother q hqp
theorem service_aux (s s1 : Sim) (sched : Scheduler) (cur : Nat)
    (h : InvAt s.curr_time s sched) (hc : s.curr_request = some cur)
    (e1 : s1.sched = s.sched) (e2 : s1.requests = s.requests) (e3 : s1.heap = s.heap)
    (e4 : s1.curr_request = s.curr_request) (e5 : s1.curr_time = s.curr_time) :
    InvAt s.curr_time
        (if s1.curr_head_location = (s1.heap cur).track_required then
          { finish s1 cur with curr_request := none } else s1) sched ∧
      Same s
        (if s1.curr_head_location = (s1.heap cur).track_required then
          { finish s1 cur with curr_request := none } else s1) := by
  by_cases hhead : s1.curr_head_location = (s1.heap cur).track_required
  · rw [if_pos hhead]
    obtain ⟨hinv, harr, htrack, hcreated⟩ :=
      invAt_finish s { finish s1 cur with curr_request := none } h hc
        (by show s1.sched = s.sched; exact e1)
        (by show s1.requests = s.requests; exact e2)
        rfl
        (by
          show s1.heap.set cur _ = _
          rw [e3, e5])
    exact ⟨hinv,
      { time_eq := by show s1.curr_time = s.curr_time; exact e5
        requests_eq := by show s1.requests = s.requests; exact e2
        arrival_eq := harr
        track_eq := htrack
        created_eq := hcreated }⟩
  · rw [if_neg hhead]
    exact ⟨invAt_congr h e1 e2 e3 e4,
      { time_eq := e5, requests_eq := e2, arrival_eq := fun q => by rw [e3],
        track_eq := fun q => by rw [e3], created_eq := fun q _ => by rw [e3] }⟩

/-- The service step keeps the invariant. -/
theorem service_inv (s : Sim) (sched : Scheduler) (h : InvAt s.curr_time s sched) :
    InvAt s.curr_time (service s) sched ∧ Same s (service s) := by
  unfold service
  cases hc : s.curr_request with
  | none => exact ⟨h, same_refl s⟩
  | some cur =>
    dsimp only
    apply service_aux s _ sched cur h hc <;> split_ifs <;> first | rfl | exact hc.symm

/-- The inner loop terminates within its budget and keeps the invariant; when
it leaves the disk idle nothing is pending. -/
theorem drain_inv :
    ∀ (fuel : Nat) (s : Sim) (sched : Scheduler), InvAt s.curr_time s sched →
      s.curr_request ≠ none → sched.pending.length < fuel →
      ∃ s2 sched2, drain fuel s = Outcome.ok s2 ∧ InvAt s.curr_time s2 sched2 ∧ Same s s2 ∧
        (s2.curr_request = none → sched2.pending = []) := by
  intro fuel
  induction fuel with
  | zero => intro s sched _ _ hlen; omega
  | succ fuel ih =>
    intro s sched h hbusy hlen
    cases hc : s.curr_request with
    | none => exact absurd hc hbusy
    | some cur =>
      unfold drain
      simp only [hc]
      by_cases hhead : s.curr_head_location = (s.heap cur).track_required
      · rw [if_pos hhead]
        have hs1 : (finish s cur).sched = some sched := h.sched_eq
        simp only [hs1]
        obtain ⟨hinv0, harr0, htrack0, hcreated0⟩ :=
          invAt_finish s { finish s cur with curr_request := none } h hc rfl rfl rfl rfl
        have hsame0 : Same s { finish s cur with curr_request := none } :=
          { time_eq := rfl, requests_eq := rfl, arrival_eq := harr0,
            track_eq := htrack0, created_eq := hcreated0 }
        cases hr : (sched.get_next_request (finish s cur).heap
            (finish s cur).curr_head_location).1 with
        | none =>
          have hsched2 := get_next_request_none_same _ _ sched hr
          have hempty := (get_next_request_none_iff _ _ sched).mp hr
          refine ⟨_, sched, rfl, ?_, ?_, fun _ => hempty⟩
          · exact invAt_congr hinv0 (by show some _ = s.sched; rw [hsched2, h.sched_eq]) rfl rfl rfl
          · exact
              { time_eq := rfl, requests_eq := rfl, arrival_eq := harr0,
                track_eq := htrack0, created_eq := hcreated0 }
        | some next =>
          obtain ⟨hmem, hpend⟩ := get_next_request_some _ _ sched h.nodup next hr
          obtain ⟨hinv1, harr1, htrack1, hcreated1⟩ :=
            invAt_issue
              { finish s cur with curr_request := none }
              (issue { finish s cur with
                  sched := some (sched.get_next_request (finish s cur).heap
                    (finish s cur).curr_head_location).2 } next)
              hinv0 rfl hmem hpend rfl rfl rfl rfl
          have hsame1 : Same { finish s cur with curr_request := none }
              (issue { finish s cur with
                  sched := some (sched.get_next_request (finish s cur).heap
                    (finish s cur).curr_head_location).2 } next) :=
            { time_eq := rfl, requests_eq := rfl, arrival_eq := harr1,
              track_eq := htrack1, created_eq := hcreated1 }
          have hlen2 : (sched.get_next_request (finish s cur).heap
              (finish s cur).curr_head_location).2.pending.length < fuel := by
            rw [hpend, List.length_erase_of_mem hmem]
            have : 0 < sched.pending.length := List.length_pos_of_mem hmem
            omega
          obtain ⟨s2, sched2, hdrain, hinv2, hsame2, hidle2⟩ :=
            ih (issue { finish s cur with
                  sched := some (sched.get_next_request (finish s cur).heap
                    (finish s cur).curr_head_location).2 } next) _ hinv1
              (by simp [issue]) hlen2
          exact ⟨s2, sched2, hdrain, hinv2, same_trans (same_trans hsame0 hsame1) hsame2, hidle2⟩
      · rw [if_neg hhead]
        refine ⟨s, sched, rfl, h, same_refl s, ?_⟩
        intro hnone
        rw [hc] at hnone
        simp at hnone

/-- The dispatch step never fails on a scheduler object and keeps the
invariant; when it leaves the disk idle nothing is pending. -/
theorem dispatch_inv (s : Sim) (sched : Scheduler) (h : InvAt s.curr_time s sched) :
    ∃ s2 sched2, dispatch s = Outcome.ok s2 ∧ InvAt s.curr_time s2 sched2 ∧ Same s s2 ∧
      (s2.curr_request = none → sched2.pending = []) := by
  unfold dispatch
  cases hc : s.curr_request with
  | some cur =>
    refine ⟨s, sched, rfl, h, same_refl s, ?_⟩
    intro hnone
    rw [hc] at hnone
    simp at hnone
  | none =>
    simp only [h.sched_eq]
    cases hr : (sched.get_next_request s.heap s.curr_head_location).1 with
    | none =>
      have hsched2 := get_next_request_none_same _ _ sched hr
      have hempty := (get_next_request_none_iff _ _ sched).mp hr
      refine ⟨_, sched, rfl, ?_, ?_, fun _ => hempty⟩
      · exact invAt_congr h (by show some _ = s.sched; rw [hsched2, h.sched_eq]) rfl rfl hc.symm
      · exact
          { time_eq := rfl, requests_eq := rfl, arrival_eq := fun _ => rfl,
            track_eq := fun _ => rfl, created_eq := fun _ _ => rfl }
    | some request =>
      obtain ⟨hmem, hpend⟩ := get_next_request_some _ _ sched h.nodup request hr
      obtain ⟨hinv1, harr1, htrack1, hcreated1⟩ :=
        invAt_issue s
          (issue { s with
              sched := some (sched.get_next_request s.heap s.curr_head_location).2 } request)
          h hc hmem hpend rfl rfl rfl rfl
      have hsame1 : Same s
          (issue { s with
              sched := some (sched.get_next_request s.heap s.curr_head_location).2 } request) :=
        { time_eq := rfl, requests_eq := rfl, arrival_eq := harr1,
          track_eq := htrack1, created_eq := hcreated1 }
      obtain ⟨s2, sched2, hdrain, hinv2, hsame2, hidle2⟩ :=
        drain_inv _ (issue { s with
              sched := some (sched.get_next_request s.heap s.curr_head_location).2 } request)
          _ hinv1 (by simp [issue]) (Nat.lt_succ_self _)
      exact ⟨s2, sched2, hdrain, hinv2, same_trans hsame1 hsame2, hidle2⟩

/-- One turn of the outer loop on a state that satisfies the invariant: it
does not fail, the invariant holds again, the clock has advanced by one, and a
request that is `CREATED` and is not the arrival of this tick is untouched. -/
theorem tick_inv (s : Sim) (h : Inv s) :
    ∃ s2, tick s = Outcome.ok s2 ∧ Inv s2 ∧ s2.curr_time = s.curr_time + 1 ∧
      s2.requests = s.requests ∧
      (∀ q, (s2.heap q).arrival_time = (s.heap q).arrival_time) ∧
      (∀ q, (s2.heap q).track_required = (s.heap q).track_required) ∧
      (∀ q, (s.heap q).state = State.CREATED →
        new_request_arrived s.heap s.curr_time s.requests ≠ some q →
        s2.heap q = s.heap q) := by
  obtain ⟨sched, hinv, -⟩ := h
  obtain ⟨s1, sched1, harrive, hinv1, ht1, hreq1, -, harr1, htrack1, hframe1, -, -⟩ :=
    arrive_inv s sched hinv
  rw [← ht1] at hinv1
  obtain ⟨hinv2, hsame2⟩ := service_inv s1 sched1 hinv1
  rw [← hsame2.time_eq] at hinv2
  obtain ⟨s3, sched3, hdispatch, hinv3, hsame3, hidle3⟩ := dispatch_inv _ sched1 hinv2
  have hsame : Same s1 s3 := same_trans hsame2 hsame3
  refine ⟨{ s3 with curr_time := s3.curr_time + 1 }, ?_, ?_, ?_, ?_, ?_, ?_, ?_⟩
  · unfold tick
    rw [harrive]
    simp only [Outcome.bind, hdispatch]
  · refine ⟨sched3, ?_, hidle3⟩
    have h3 : InvAt s3.curr_time s3 sched3 := by
      rw [hsame3.time_eq]
      exact hinv3
    have h4 : InvAt s3.curr_time { s3 with curr_time := s3.curr_time + 1 } sched3 :=
      invAt_congr h3 rfl rfl rfl rfl
    have hb : ({ s3 with curr_time := s3.curr_time + 1 } : Sim).curr_time - 1 = s3.curr_time := by
      show s3.curr_time + 1 - 1 = s3.curr_time
      omega
    rw [hb]
    exact h4
  · show s3.curr_time + 1 = s.curr_time + 1
    rw [hsame.time_eq, ht1]
  · show s3.requests = s.requests
    rw [hsame.requests_eq, hreq1]
  · intro q
    show (s3.heap q).arrival_time = _
    rw [hsame.arrival_eq, harr1]
  · intro q
    show (s3.heap q).track_required = _
    rw [hsame.track_eq, htrack1]
  · intro q hq hnot
    show s3.heap q = _
    have e1 := hframe1 q hnot
    rw [hsame.created_eq q (by rw [e1]; exact hq), e1]
/-! ## Runs of the loop -/

theorem select_scheduler_letter (policy : Policy) :
    ∃ sched, select_scheduler policy.letter = some sched ∧ sched.pending = [] := by
  cases policy
  · exact ⟨Scheduler.FIFO { queue := [] }, by decide, rfl⟩
  · exact ⟨Scheduler.SSTF { queue := [] }, by decide, rfl⟩
  · exact ⟨Scheduler.LOOK LookScheduler.new, by decide, rfl⟩
  · exact ⟨Scheduler.CLOOK { queue := [] }, by decide, rfl⟩
  · exact ⟨Scheduler.FLOOK FLookScheduler.new, by decide, rfl⟩

/-- The invariant holds before the first tick. -/
theorem start_inv (sched : Scheduler) (requests : List Nat) (heap : Heap)
    (hempty : sched.pending = [])
    (hcreated : ∀ p ∈ requests, (heap p).state = State.CREATED) :
    Inv (Sim.start (some sched) requests heap) := by
  refine ⟨sched, ?_, fun _ => hempty⟩
  refine
    { sched_eq := rfl
      nodup := by rw [hempty]; exact List.nodup_nil
      pending_ready := by intro p hp; rw [hempty] at hp; simp at hp
      current_not_pending := by intro c hc; simp [Sim.start] at hc
      current_ready := by intro c hc; simp [Sim.start] at hc
      ready_held := ?_
      arrived := ?_
      complete_accounted := ?_
      not_running := ?_ }
  · intro p hp hst
    have := hcreated p hp
    simp only [Sim.start] at hst
    rw [this] at hst
    exact State.noConfusion hst
  · intro p hp hst
    exact absurd (hcreated p hp) hst
  · intro p hp hst
    have := hcreated p hp
    simp only [Sim.start] at hst
    rw [this] at hst
    exact State.noConfusion hst
  · intro p hp
    show (heap p).state ≠ State.RUNNING
    rw [hcreated p hp]
    exact fun e => State.noConfusion e

/-- Every turn of the loop succeeds and the invariant holds at every loop head. -/
theorem run_ticks_inv :
    ∀ (n : Nat) (s : Sim), Inv s →
      ∃ s2, run_ticks n s = Outcome.ok s2 ∧ Inv s2 ∧ s2.requests = s.requests ∧
        (∀ q, (s2.heap q).arrival_time = (s.heap q).arrival_time) ∧
        (∀ q, (s2.heap q).track_required = (s.heap q).track_required) := by
  intro n
  induction n with
  | zero => intro s h; exact ⟨s, rfl, h, rfl, fun _ => rfl, fun _ => rfl⟩
  | succ n ih =>
    intro s h
    unfold run_ticks
    by_cases hact : is_request_active s.heap s.requests = true
    · rw [if_pos hact]
      obtain ⟨s1, htick, hinv1, -, hreq1, harr1, htrack1, -⟩ := tick_inv s h
      obtain ⟨s2, hrun, hinv2, hreq2, harr2, htrack2⟩ := ih s1 hinv1
      refine ⟨s2, ?_, hinv2, by rw [hreq2, hreq1], ?_, ?_⟩
      · rw [htick]
        exact hrun
      · intro q; rw [harr2, harr1]
      · intro q; rw [htrack2, htrack1]
    · rw [if_neg hact]
      exact ⟨s, rfl, h, rfl, fun _ => rfl, fun _ => rfl⟩

theorem is_request_active_false (heap : Heap) :
    ∀ requests : List Nat, is_request_active heap requests = false →
      ∀ p ∈ requests, (heap p).state = State.COMPLETE := by
  intro requests
  induction requests with
  | nil => intro _ p hp; simp at hp
  | cons x xs ih =>
    intro h p hp
    unfold is_request_active at h
    split at h
    · simp at h
    · rename_i hx
      simp only [List.mem_cons] at hp
      rcases hp with rfl | hp
      · cases hst : (heap p).state <;> simp_all
      · exact ih h p hp

theorem is_request_active_of_created (heap : Heap) :
    ∀ (requests : List Nat) (q : Nat), q ∈ requests → (heap q).state = State.CREATED →
      is_request_active heap requests = true := by
  intro requests q hq hst
  by_contra hne
  have hfalse : is_request_active heap requests = false := by
    cases h : is_request_active heap requests
    · rfl
    · exact absurd h hne
  have := is_request_active_false heap requests hfalse q hq
  rw [hst] at this
  exact State.noConfusion this

/-- The state at the exit of the loop is a state at a loop head in which no
request is active. -/
theorem loop_ok :
    ∀ (n : Nat) (s s2 : Sim), loop n s = Outcome.ok s2 →
      run_ticks n s = Outcome.ok s2 ∧ is_request_active s2.heap s2.requests = false := by
  intro n
  induction n with
  | zero =>
    intro s s2 h
    unfold loop at h
    split at h
    · exact Outcome.noConfusion h
    · rename_i hact
      simp only [Outcome.ok.injEq] at h
      subst h
      exact ⟨rfl, by simpa using hact⟩
  | succ n ih =>
    intro s s2 h
    unfold loop at h
    unfold run_ticks
    split at h
    · rename_i hact
      rw [if_pos hact]
      cases ht : tick s with
      | ok s1 =>
        rw [ht] at h
        exact ih s1 s2 h
      | fault => rw [ht] at h; exact Outcome.noConfusion h
      | out_of_fuel => rw [ht] at h; exact Outcome.noConfusion h
    · rename_i hact
      rw [if_neg hact]
      simp only [Outcome.ok.injEq] at h
      subst h
      exact ⟨rfl, by simpa using hact⟩

/-- With the scheduler pointer left `NULL` and no request in service, a turn of
the loop dereferences it. -/
theorem tick_null_scheduler (s : Sim) (hsched : s.sched = none)
    (hidle : s.curr_request = none) : tick s = Outcome.fault := by
  unfold tick arrive
  cases harr : new_request_arrived s.heap s.curr_time s.requests with
  | none =>
    simp only [Outcome.bind]
    unfold service dispatch
    simp [hidle, hsched, Outcome.bind]
  | some p =>
    simp [hsched, Outcome.bind]

/-- A request that is `CREATED` and that `new_request_arrived` returns at no
tick stays `CREATED` for ever, and the loop never exits. -/
theorem never_arriving_request_blocks :
    ∀ (n : Nat) (s : Sim) (q : Nat), Inv s → q ∈ s.requests →
      (s.heap q).state = State.CREATED →
      (∀ t, new_request_arrived s.heap t s.requests ≠ some q) →
      loop n s = Outcome.out_of_fuel ∧
        ∃ s2, run_ticks n s = Outcome.ok s2 ∧ s2.heap q = s.heap q ∧ Inv s2 := by
  intro n
  induction n with
  | zero =>
    intro s q hinv hq hst _
    have hact := is_request_active_of_created s.heap s.requests q hq hst
    refine ⟨?_, s, rfl, rfl, hinv⟩
    unfold loop
    rw [if_pos hact]
  | succ n ih =>
    intro s q hinv hq hst hna
    have hact := is_request_active_of_created s.heap s.requests q hq hst
    obtain ⟨s1, htick, hinv1, -, hreq1, harr1, -, hframe1⟩ := tick_inv s hinv
    have hq1 : s1.heap q = s.heap q := hframe1 q hst (hna _)
    have hna1 : ∀ t, new_request_arrived s1.heap t s1.requests ≠ some q := by
      intro t
      rw [hreq1, new_request_arrived_congr s.heap s1.heap t harr1]
      exact hna t
    obtain ⟨hloop, s2, hrun, hq2, hinv2⟩ :=
      ih s1 q hinv1 (by rw [hreq1]; exact hq) (by rw [hq1]; exact hst) hna1
    refine ⟨?_, s2, ?_, by rw [hq2, hq1], hinv2⟩
    · unfold loop
      rw [if_pos hact, htick]
      exact hloop
    · unfold run_ticks
      rw [if_pos hact, htick]
      exact hrun
/-- The request `new_request_arrived` returns at a tick is the first of the
list whose arrival time is that tick; a request listed after another one of
the same arrival time is returned at no tick. -/
theorem shadowed_request_never_arrives (heap : Heap) (a b : Nat) (t : Int)
    (harr : (heap a).arrival_time = (heap b).arrival_time) (hab : b ≠ a) :
    ∀ (before after : List Nat), b ∉ before →
      new_request_arrived heap t (before ++ a :: after) ≠ some b := by
  intro before
  induction before with
  | nil =>
    intro after _ h
    simp only [List.nil_append] at h
    unfold new_request_arrived at h
    split at h
    · simp only [Option.some.injEq] at h
      exact hab h.symm
    · rename_i hne
      split at h
      · simp at h
      · have := (new_request_arrived_some heap t after b h).2
        rw [← harr] at this
        exact hne this
  | cons x xs ih =>
    intro after hb h
    simp only [List.cons_append] at h
    unfold new_request_arrived at h
    split at h
    · simp only [Option.some.injEq] at h
      apply hb
      rw [h]
      simp
    · split at h
      · simp at h
      · exact ih after (fun hc => hb (List.mem_cons_of_mem _ hc)) h

theorem select_scheduler_pending (algo : Char) (sched : Scheduler)
    (h : select_scheduler algo = some sched) : sched.pending = [] := by
  unfold select_scheduler at h
  split_ifs at h <;> simp only [Option.some.injEq] at h <;> subst h <;> rfl

/-- A loop that exits without fault from a list of `CREATED` requests ends in a
state that satisfies the invariant and in which every request is `COMPLETE`. -/
theorem simulate_ok_inv (fuel : Nat) (algo : Char) (requests : List Nat) (heap : Heap)
    (hcreated : ∀ p ∈ requests, (heap p).state = State.CREATED) (s : Sim)
    (hsim : simulate fuel algo requests heap = Outcome.ok s) :
    s.requests = requests ∧
      (∀ p ∈ s.requests, (s.heap p).state = State.COMPLETE) ∧
      (∀ p ∈ s.requests, Accounted (s.curr_time - 1) (s.heap p)) := by
  unfold simulate at hsim
  obtain ⟨hrun, hinactive⟩ := loop_ok fuel _ s hsim
  have hall := is_request_active_false s.heap s.requests hinactive
  cases hsel : select_scheduler algo with
  | none =>
    rw [hsel] at hsim hrun
    have hstart : s = Sim.start none requests heap := by
      cases fuel with
      | zero =>
        simp only [run_ticks, Outcome.ok.injEq] at hrun
        exact hrun.symm
      | succ n =>
        unfold loop at hsim
        split at hsim
        · rw [tick_null_scheduler _ rfl rfl] at hsim
          exact Outcome.noConfusion hsim
        · simp only [Outcome.ok.injEq] at hsim
          exact hsim.symm
    subst hstart
    have hnil : requests = [] := by
      cases requests with
      | nil => rfl
      | cons x xs =>
        have h1 := hall x (by simp [Sim.start])
        have h2 := hcreated x (by simp)
        simp only [Sim.start] at h1
        rw [h2] at h1
        exact State.noConfusion h1
    subst hnil
    exact ⟨rfl, by intro p hp; simp [Sim.start] at hp, by intro p hp; simp [Sim.start] at hp⟩
  | some sched0 =>
    rw [hsel] at hrun
    have hempty := select_scheduler_pending algo sched0 hsel
    obtain ⟨s2, hrun2, ⟨sched, hinv, -⟩, hreq, -, -⟩ :=
      run_ticks_inv fuel _ (start_inv sched0 requests heap hempty hcreated)
    rw [hrun] at hrun2
    simp only [Outcome.ok.injEq] at hrun2
    subst hrun2
    exact ⟨hreq, hall, fun p hp => hinv.complete_accounted p hp (hall p hp)⟩
/-! ## The policies: statements of the specification -/

/-- C1. For each of the five policies, every heap of requests, every head
position, every direction flag (part of the scheduler object) and every pending
set of distinct requests: `get_next_request` returns `NULL` exactly when the
pending set is empty (for FLOOK: `queue1` and `queue2` together), and when it
returns a request `r`, then `r` was pending, the pending set after the call is
the one before with the single occurrence of `r` erased and the others in their
order, and `r` is no longer pending.  No assumption on the tracks is needed. -/
theorem get_next_request_removes_the_returned (heap : Heap) (curr_head_location : Int)
    (sched : Scheduler) (hdistinct : sched.pending.Nodup) :
    ((sched.get_next_request heap curr_head_location).1 = none ↔ sched.pending = []) ∧
    ∀ r, (sched.get_next_request heap curr_head_location).1 = some r →
      r ∈ sched.pending ∧
      (sched.get_next_request heap curr_head_location).2.pending = sched.pending.erase r ∧
      r ∉ (sched.get_next_request heap curr_head_location).2.pending ∧
      (sched.get_next_request heap curr_head_location).2.pending.length + 1
        = sched.pending.length := by
  refine ⟨get_next_request_none_iff heap curr_head_location sched, ?_⟩
  intro r hr
  obtain ⟨hmem, hpend⟩ := get_next_request_some heap curr_head_location sched hdistinct r hr
  refine ⟨hmem, hpend, ?_, ?_⟩
  · rw [hpend]
    exact fun hc => (List.Nodup.mem_erase_iff hdistinct).mp hc |>.1 rfl
  · rw [hpend, List.length_erase_of_mem hmem]
    have : 0 < sched.pending.length := List.length_pos_of_mem hmem
    omega

/-- C1, at an FLOOK scheduler whose active generation holds the requests of
tracks 30 and 10 and whose incoming generation holds the request of track 20,
head at 15, ascending. -/
theorem get_next_request_removes_the_returned_witness :
    (Scheduler.FLOOK { queue1 := [0, 1], queue2 := [2], forward_direction := true }).pending.Nodup ∧
    ((Scheduler.FLOOK { queue1 := [0, 1], queue2 := [2], forward_direction := true }).get_next_request
        (example_heap [(0, 30), (0, 10), (0, 20)]) 15).1 = some 0 ∧
    ((Scheduler.FLOOK { queue1 := [0, 1], queue2 := [2], forward_direction := true }).get_next_request
        (example_heap [(0, 30), (0, 10), (0, 20)]) 15).2.pending = [1, 2] := by
  have h := get_next_request_removes_the_returned (example_heap [(0, 30), (0, 10), (0, 20)]) 15
    (Scheduler.FLOOK { queue1 := [0, 1], queue2 := [2], forward_direction := true })
    (by decide)
  have h0 : ((Scheduler.FLOOK
      { queue1 := [0, 1], queue2 := [2], forward_direction := true }).get_next_request
        (example_heap [(0, 30), (0, 10), (0, 20)]) 15).1 = some 0 := by decide
  refine ⟨by decide, h0, ?_⟩
  rw [(h.2 0 h0).2.1]
  decide

/-- C4. FIFO: after any run of `add_request` calls (on a queue that may already
hold requests) the results of any run of `get_next_request` calls, whatever the
head position is at each call, are the requests in the order they were added,
followed by `NULL` once the queue is exhausted; what was not returned stays
queued in the same order. -/
theorem fifo_returns_in_order_added (heap : Heap) (queue added : List Nat) (heads : List Int) :
    Scheduler.get_next_requests heap heads
        ((Scheduler.FIFO { queue := queue }).add_requests added)
      = (((queue ++ added).take heads.length).map some
            ++ List.replicate (heads.length - (queue ++ added).length) none,
          Scheduler.FIFO { queue := (queue ++ added).drop heads.length }) := by
  rw [fifo_add_requests, fifo_get_next_requests]

/-- C8. FLOOK isolation: take an FLOOK scheduler in any state, a request `p`
that is not itself in the active generation `queue1`, and any sequence of
`add_request` and `get_next_request` calls (with any head positions) made
after `add_request(p)`.  Whenever a `get_next_request` of that sequence returns
`p`, every request that was in `queue1` at the moment `p` was added has been
returned by an earlier call of the sequence. -/
theorem flook_added_request_waits_for_active_generation (heap : Heap) (s : FLookScheduler)
    (p : Nat) (calls : List Call) (hnew : p ∉ s.queue1) :
    ∀ before after,
      FLookScheduler.run_calls heap (Call.add p :: calls) s = before ++ some p :: after →
      ∀ x ∈ s.queue1, some x ∈ before := by
  intro before after hrun
  simp only [FLookScheduler.run_calls] at hrun
  exact flook_isolation_aux heap p calls (s.add_request p) hnew before after hrun
/-- C8, at an active generation holding the requests of tracks 10 and 20 when
the request of track 5 is added, head at 0: the added request is the nearest
one and still comes out last. -/
theorem flook_added_request_waits_for_active_generation_witness :
    2 ∉ ([0, 1] : List Nat) ∧
    FLookScheduler.run_calls (example_heap [(0, 10), (0, 20), (0, 5)])
        [Call.add 2, Call.next 0, Call.next 0, Call.next 0]
        { queue1 := [0, 1], queue2 := [], forward_direction := true }
      = [some 0, some 1] ++ some 2 :: [] ∧
    ∀ x ∈ ([0, 1] : List Nat), some x ∈ [some 0, some 1] :=
  ⟨by decide, by decide,
    flook_added_request_waits_for_active_generation
      (example_heap [(0, 10), (0, 20), (0, 5)])
      { queue1 := [0, 1], queue2 := [], forward_direction := true } 2
      [Call.next 0, Call.next 0, Call.next 0] (by decide) [some 0, some 1] [] (by decide)⟩

theorem seek_of_eq_abs (heap : Heap) (h : Int) :
    seek_of heap h = fun it => |h - (heap it).track_required| := by
  funext it
  exact get_seek_time_eq_abs h (heap it)

/-- C5. SSTF: for every heap, head position and non-empty queue,
`get_next_request` returns a request `r` of the queue whose seek distance
`|head - track|` is least over the whole queue and which is the first-added
such request (every request added before it is strictly farther); the queue
loses `r`.  With pending tracks 10, 40, 25 in that order and the head at 20 it
returns the track-25 request. -/
theorem sstf_returns_first_nearest (heap : Heap) (curr_head_location : Int)
    (s : SSTFScheduler) (hne : s.queue ≠ []) :
    (∃ r, (s.get_next_request heap curr_head_location).1 = some r ∧
      (s.get_next_request heap curr_head_location).2.queue = list_remove s.queue r ∧
      FirstMin (fun it => |curr_head_location - (heap it).track_required|) (fun _ => True)
        s.queue r) ∧
    (SSTFScheduler.get_next_request (example_heap [(0, 10), (0, 40), (0, 25)]) 20
        { queue := [0, 1, 2] }).1 = some 2 := by
  obtain ⟨p, hp, hget⟩ := sstf_get_next_request_spec heap curr_head_location s hne
  rw [seek_of_eq_abs] at hp
  refine ⟨⟨p, ?_, ?_, hp⟩, by decide⟩
  · rw [hget]
  · rw [hget]

/-- C5, at pending tracks 7, 3, 7 with the head at 5: all three are at distance
2 and the first-added request is returned. -/
theorem sstf_returns_first_nearest_witness :
    ({ queue := [0, 1, 2] } : SSTFScheduler).queue ≠ [] ∧
    (SSTFScheduler.get_next_request (example_heap [(0, 7), (0, 3), (0, 7)]) 5
      { queue := [0, 1, 2] }).1 = some 0 ∧
    ∃ r, (SSTFScheduler.get_next_request (example_heap [(0, 7), (0, 3), (0, 7)]) 5
        { queue := [0, 1, 2] }).1 = some r ∧
      (SSTFScheduler.get_next_request (example_heap [(0, 7), (0, 3), (0, 7)]) 5
        { queue := [0, 1, 2] }).2.queue = list_remove [0, 1, 2] r ∧
      FirstMin (fun it => |5 - ((example_heap [(0, 7), (0, 3), (0, 7)]) it).track_required|)
        (fun _ => True) [0, 1, 2] r :=
  ⟨by decide, by decide,
    (sstf_returns_first_nearest (example_heap [(0, 7), (0, 3), (0, 7)]) 5
      { queue := [0, 1, 2] } (by decide)).1⟩

/-- C6. LOOK: for every heap, head position, direction flag and non-empty
queue: if some pending request lies on the side the flag points to (track at
or above the head when ascending, at or below when descending),
`get_next_request` returns the first-added request of least seek distance
among those and leaves the flag as it was; otherwise it flips the flag and
returns the first-added request of least seek distance among the requests on
the new side.  With the head at 50, ascending, and pending tracks 20 and 30,
the first call flips the flag and returns the track-30 request, and the next
call (head still at 50, or moved to 30) returns the track-20 request. -/
theorem look_selects_on_side_else_reverses (heap : Heap) (curr_head_location : Int)
    (s : LookScheduler) (hne : s.queue ≠ []) :
    ((∃ q ∈ s.queue, on_side heap curr_head_location s.forward_direction q) →
      ∃ r, (s.get_next_request heap curr_head_location).1 = some r ∧
        (s.get_next_request heap curr_head_location).2.forward_direction
          = s.forward_direction ∧
        FirstMin (fun it => |curr_head_location - (heap it).track_required|)
          (on_side heap curr_head_location s.forward_direction) s.queue r) ∧
    ((¬ ∃ q ∈ s.queue, on_side heap curr_head_location s.forward_direction q) →
      ∃ r, (s.get_next_request heap curr_head_location).1 = some r ∧
        (s.get_next_request heap curr_head_location).2.forward_direction
          = (!s.forward_direction) ∧
        FirstMin (fun it => |curr_head_location - (heap it).track_required|)
          (on_side heap curr_head_location (!s.forward_direction)) s.queue r) ∧
    (LookScheduler.get_next_request (example_heap [(0, 20), (0, 30)]) 50
        { queue := [0, 1], forward_direction := true }
      = (some 1, { queue := [0], forward_direction := false }) ∧
     LookScheduler.get_next_request (example_heap [(0, 20), (0, 30)]) 50
        { queue := [0], forward_direction := false }
      = (some 0, { queue := [], forward_direction := false }) ∧
     LookScheduler.get_next_request (example_heap [(0, 20), (0, 30)]) 30
        { queue := [0], forward_direction := false }
      = (some 0, { queue := [], forward_direction := false })) := by
  obtain ⟨hyes, hno⟩ := look_get_next_request_spec heap curr_head_location s hne
  rw [seek_of_eq_abs] at hyes hno
  refine ⟨?_, ?_, by decide, by decide, by decide⟩
  · intro hex
    obtain ⟨p, hp, hget⟩ := hyes hex
    exact ⟨p, by rw [hget], by rw [hget], hp⟩
  · intro hex
    obtain ⟨p, hp, hget⟩ := hno hex
    exact ⟨p, by rw [hget], by rw [hget], hp⟩

/-- C6, at the head on track 50, descending, pending tracks 60, 50, 40, 50: the
requests at or below the head are those of tracks 50, 40, 50, and the first of
the two at distance zero is returned with the flag unchanged. -/
theorem look_selects_on_side_else_reverses_witness :
    ({ queue := [0, 1, 2, 3], forward_direction := false } : LookScheduler).queue ≠ [] ∧
    (∃ q ∈ ([0, 1, 2, 3] : List Nat),
      on_side (example_heap [(0, 60), (0, 50), (0, 40), (0, 50)]) 50 false q) ∧
    LookScheduler.get_next_request (example_heap [(0, 60), (0, 50), (0, 40), (0, 50)]) 50
        { queue := [0, 1, 2, 3], forward_direction := false }
      = (some 1, { queue := [0, 2, 3], forward_direction := false }) ∧
    ∃ r, (LookScheduler.get_next_request (example_heap [(0, 60), (0, 50), (0, 40), (0, 50)]) 50
        { queue := [0, 1, 2, 3], forward_direction := false }).1 = some r ∧
      (LookScheduler.get_next_request (example_heap [(0, 60), (0, 50), (0, 40), (0, 50)]) 50
        { queue := [0, 1, 2, 3], forward_direction := false }).2.forward_direction = false ∧
      FirstMin
        (fun it => |50 - ((example_heap [(0, 60), (0, 50), (0, 40), (0, 50)]) it).track_required|)
        (on_side (example_heap [(0, 60), (0, 50), (0, 40), (0, 50)]) 50 false) [0, 1, 2, 3] r :=
  ⟨by decide, ⟨1, by decide, by decide⟩, by decide,
    (look_selects_on_side_else_reverses (example_heap [(0, 60), (0, 50), (0, 40), (0, 50)]) 50
      { queue := [0, 1, 2, 3], forward_direction := false } (by decide)).1
      ⟨1, by decide, by decide⟩⟩

/-- C7. CLOOK: for every heap, head position and non-empty queue of requests
with non-negative tracks: if some pending request has its track at or above
the head, `get_next_request` returns the first-added request of least seek
distance among those; otherwise it returns the first-added request of least
track number among all pending requests.  With the head at 90 and pending
tracks 10 and 95, the first call returns the track-95 request and the second
call (head still at 90, or moved to 95) returns the track-10 request. -/
theorem clook_selects_ahead_else_lowest_track (heap : Heap) (curr_head_location : Int)
    (s : CLookScheduler) (hne : s.queue ≠ [])
    (htracks : ∀ q ∈ s.queue, 0 ≤ (heap q).track_required) :
    ((∃ q ∈ s.queue, curr_head_location ≤ (heap q).track_required) →
      ∃ r, (s.get_next_request heap curr_head_location).1 = some r ∧
        (s.get_next_request heap curr_head_location).2.queue = list_remove s.queue r ∧
        FirstMin (fun it => |curr_head_location - (heap it).track_required|)
          (fun it => curr_head_location ≤ (heap it).track_required) s.queue r) ∧
    ((¬ ∃ q ∈ s.queue, curr_head_location ≤ (heap q).track_required) →
      ∃ r, (s.get_next_request heap curr_head_location).1 = some r ∧
        (s.get_next_request heap curr_head_location).2.queue = list_remove s.queue r ∧
        FirstMin (fun it => (heap it).track_required) (fun _ => True) s.queue r) ∧
    (CLookScheduler.get_next_request (example_heap [(0, 10), (0, 95)]) 90 { queue := [0, 1] }
      = (some 1, { queue := [0] }) ∧
     CLookScheduler.get_next_request (example_heap [(0, 10), (0, 95)]) 90 { queue := [0] }
      = (some 0, { queue := [] }) ∧
     CLookScheduler.get_next_request (example_heap [(0, 10), (0, 95)]) 95 { queue := [0] }
      = (some 0, { queue := [] })) := by
  have hside : on_side heap curr_head_location true
      = fun it => curr_head_location ≤ (heap it).track_required := by
    funext it
    simp [on_side]
  refine ⟨?_, ?_, by decide, by decide, by decide⟩
  · intro hex
    have hex2 : ∃ q ∈ s.queue, on_side heap curr_head_location true q := by
      rw [hside]; exact hex
    obtain ⟨p, hp, hget⟩ := clook_get_next_request_forward heap curr_head_location s hex2
    rw [seek_of_eq_abs, hside] at hp
    exact ⟨p, by rw [hget], by rw [hget], hp⟩
  · intro hex
    have hex2 : ¬ ∃ q ∈ s.queue, on_side heap curr_head_location true q := by
      rw [hside]; exact hex
    have hneg : ∀ q ∈ s.queue, (heap q).track_required ≠ -1 := by
      intro q hq
      have := htracks q hq
      omega
    obtain ⟨p, hp, hget⟩ := clook_get_next_request_wrap heap curr_head_location s hne hneg hex2
    exact ⟨p, by rw [hget], by rw [hget], hp⟩

/-- C7, at the head on track 90 with pending tracks 40, 10, 10, 70, none at or
above the head: the first-added request of track 10 is returned. -/
theorem clook_selects_ahead_else_lowest_track_witness :
    ({ queue := [0, 1, 2, 3] } : CLookScheduler).queue ≠ [] ∧
    (∀ q ∈ ([0, 1, 2, 3] : List Nat),
      0 ≤ ((example_heap [(0, 40), (0, 10), (0, 10), (0, 70)]) q).track_required) ∧
    (¬ ∃ q ∈ ([0, 1, 2, 3] : List Nat),
      (90 : Int) ≤ ((example_heap [(0, 40), (0, 10), (0, 10), (0, 70)]) q).track_required) ∧
    CLookScheduler.get_next_request (example_heap [(0, 40), (0, 10), (0, 10), (0, 70)]) 90
        { queue := [0, 1, 2, 3] }
      = (some 1, { queue := [0, 2, 3] }) ∧
    ∃ r, (CLookScheduler.get_next_request (example_heap [(0, 40), (0, 10), (0, 10), (0, 70)]) 90
        { queue := [0, 1, 2, 3] }).1 = some r ∧
      (CLookScheduler.get_next_request (example_heap [(0, 40), (0, 10), (0, 10), (0, 70)]) 90
        { queue := [0, 1, 2, 3] }).2.queue = list_remove [0, 1, 2, 3] r ∧
      FirstMin (fun it => ((example_heap [(0, 40), (0, 10), (0, 10), (0, 70)]) it).track_required)
        (fun _ => True) [0, 1, 2, 3] r :=
  ⟨by decide, by decide, by decide, by decide,
    (clook_selects_ahead_else_lowest_track (example_heap [(0, 40), (0, 10), (0, 10), (0, 70)]) 90
      { queue := [0, 1, 2, 3] } (by decide) (by decide)).2.1 (by decide)⟩
/-! ## The simulation: statements of the specification -/

/-- C2 (the code departs from it). Input `0 5`, `0 7`: both requests have
arrival time 0.  At tick 0 `new_request_arrived` returns the first one only;
after the first turn of the loop the second request is still `CREATED`, and
under each of the five policies, after any number of turns, it is still
`CREATED`, it is not among the pending requests of the scheduler and it is not
the request in service: it is never marked `READY` nor added. -/
theorem simultaneous_arrival_is_never_added (policy : Policy) (n : Nat) :
    new_request_arrived (example_heap [(0, 5), (0, 7)]) 0 (example_requests [(0, 5), (0, 7)])
      = some 0 ∧
    (run_ticks 1 (Sim.start (select_scheduler policy.letter)
        (example_requests [(0, 5), (0, 7)]) (example_heap [(0, 5), (0, 7)]))).report
      = some
        [{ request_id := 0, arrival_time := 0, start_time := 0, end_time := 0,
           track_required := 5, wait_time := 0, turn_around_time := 0, state := State.READY },
         { request_id := 1, arrival_time := 0, start_time := 0, end_time := 0,
           track_required := 7, wait_time := 0, turn_around_time := 0,
           state := State.CREATED }] ∧
    ∃ s sched, run_ticks n (Sim.start (select_scheduler policy.letter)
        (example_requests [(0, 5), (0, 7)]) (example_heap [(0, 5), (0, 7)])) = Outcome.ok s ∧
      (s.heap 1).state = State.CREATED ∧ (s.heap 1).arrival_time = 0 ∧
      s.sched = some sched ∧ 1 ∉ sched.pending ∧ s.curr_request ≠ some 1 := by
  refine ⟨by decide, by cases policy <;> decide, ?_⟩
  obtain ⟨sched0, hsel, hempty⟩ := select_scheduler_letter policy
  rw [hsel]
  have hinv0 : Inv (Sim.start (some sched0) (example_requests [(0, 5), (0, 7)])
      (example_heap [(0, 5), (0, 7)])) :=
    start_inv sched0 _ _ hempty (by decide)
  have hmem : 1 ∈ example_requests [(0, 5), (0, 7)] := by decide
  have hst0 : ((example_heap [(0, 5), (0, 7)]) 1).state = State.CREATED := by decide
  have harr0 : ((example_heap [(0, 5), (0, 7)]) 1).arrival_time = 0 := by decide
  obtain ⟨-, s, hrun, hq, sched, hinv, -⟩ :=
    never_arriving_request_blocks n _ 1 hinv0 hmem hst0
      (fun t => shadowed_request_never_arrives (example_heap [(0, 5), (0, 7)]) 0 1 t
        (by decide) (by decide) [] [1] (by decide))
  have hq2 : s.heap 1 = (example_heap [(0, 5), (0, 7)]) 1 := hq
  have hst : (s.heap 1).state = State.CREATED := by
    rw [hq2]
    exact hst0
  refine ⟨s, sched, hrun, hst, by rw [hq2]; exact harr0, hinv.sched_eq, ?_, ?_⟩
  · intro hc
    have := (hinv.pending_ready 1 hc).2
    rw [hst] at this
    exact State.noConfusion this
  · intro hc
    have := (hinv.current_ready 1 hc).2.1
    rw [hst] at this
    exact State.noConfusion this

/-- C3 (the code departs from it). Input `0 5`, `0 5`, head starting at 0,
under each of the five policies: the loop of `simulate` exits within no number
of turns; after any number of turns the second request is still `CREATED`;
and after six turns the first request is `COMPLETE` with start time 0, end
time 5 and turnaround time 5 while the second has not been touched. -/
theorem two_requests_at_tick_zero_never_finish (policy : Policy) (n : Nat) :
    simulate n policy.letter (example_requests [(0, 5), (0, 5)]) (example_heap [(0, 5), (0, 5)])
      = Outcome.out_of_fuel ∧
    (∃ s, run_ticks n (Sim.start (select_scheduler policy.letter)
        (example_requests [(0, 5), (0, 5)]) (example_heap [(0, 5), (0, 5)])) = Outcome.ok s ∧
      (s.heap 1).state = State.CREATED) ∧
    (run_ticks 6 (Sim.start (select_scheduler policy.letter)
        (example_requests [(0, 5), (0, 5)]) (example_heap [(0, 5), (0, 5)]))).report
      = some
        [{ request_id := 0, arrival_time := 0, start_time := 0, end_time := 5,
           track_required := 5, wait_time := 0, turn_around_time := 5,
           state := State.COMPLETE },
         { request_id := 1, arrival_time := 0, start_time := 0, end_time := 0,
           track_required := 5, wait_time := 0, turn_around_time := 0,
           state := State.CREATED }] := by
  refine ⟨?_, ?_, by cases policy <;> decide⟩
  · obtain ⟨sched0, hsel, hempty⟩ := select_scheduler_letter policy
    unfold simulate
    rw [hsel]
    have hinv0 : Inv (Sim.start (some sched0) (example_requests [(0, 5), (0, 5)])
        (example_heap [(0, 5), (0, 5)])) :=
      start_inv sched0 _ _ hempty (by decide)
    have hmem : 1 ∈ example_requests [(0, 5), (0, 5)] := by decide
    have hst0 : ((example_heap [(0, 5), (0, 5)]) 1).state = State.CREATED := by decide
    exact (never_arriving_request_blocks n _ 1 hinv0 hmem hst0
      (fun t => shadowed_request_never_arrives (example_heap [(0, 5), (0, 5)]) 0 1 t
        (by decide) (by decide) [] [1] (by decide))).1
  · obtain ⟨sched0, hsel, hempty⟩ := select_scheduler_letter policy
    rw [hsel]
    have hinv0 : Inv (Sim.start (some sched0) (example_requests [(0, 5), (0, 5)])
        (example_heap [(0, 5), (0, 5)])) :=
      start_inv sched0 _ _ hempty (by decide)
    have hmem : 1 ∈ example_requests [(0, 5), (0, 5)] := by decide
    have hst0 : ((example_heap [(0, 5), (0, 5)]) 1).state = State.CREATED := by decide
    obtain ⟨-, s, hrun, hq, -⟩ :=
      never_arriving_request_blocks n _ 1 hinv0 hmem hst0
        (fun t => shadowed_request_never_arrives (example_heap [(0, 5), (0, 5)]) 0 1 t
          (by decide) (by decide) [] [1] (by decide))
    have hq2 : s.heap 1 = (example_heap [(0, 5), (0, 5)]) 1 := hq
    exact ⟨s, hrun, by rw [hq2]; exact hst0⟩

/-- C9. Under each of the five policies, for every list of requests that are
all `CREATED` before the loop (whatever their arrival times, tracks and
unassigned fields): every turn of the loop succeeds, and at every loop head,
after any number of turns, each request that is `COMPLETE` has
`end_time >= start_time` and `start_time >= arrival_time`. -/
theorem completed_request_times_are_ordered (policy : Policy) (requests : List Nat)
    (heap : Heap) (hcreated : ∀ p ∈ requests, (heap p).state = State.CREATED) (n : Nat) :
    ∃ s, run_ticks n (Sim.start (select_scheduler policy.letter) requests heap)
        = Outcome.ok s ∧
      ∀ p ∈ s.requests, (s.heap p).state = State.COMPLETE →
        (s.heap p).end_time ≥ (s.heap p).start_time ∧
        (s.heap p).start_time ≥ (s.heap p).arrival_time := by
  obtain ⟨sched0, hsel, hempty⟩ := select_scheduler_letter policy
  rw [hsel]
  obtain ⟨s, hrun, ⟨sched, hinv, -⟩, -⟩ :=
    run_ticks_inv n _ (start_inv sched0 requests heap hempty hcreated)
  refine ⟨s, hrun, ?_⟩
  intro p hp hst
  obtain ⟨h1, h2, -⟩ := hinv.complete_accounted p hp hst
  exact ⟨h2, h1⟩

/-- C9, on the input `0 5`, `1 5`, `3 2`, `4 9` under SSTF after 30 turns of
the loop: the four requests are complete, one of them in the zero-seek loop. -/
theorem completed_request_times_are_ordered_witness :
    (∀ p ∈ example_requests [(0, 5), (1, 5), (3, 2), (4, 9)],
      ((example_heap [(0, 5), (1, 5), (3, 2), (4, 9)]) p).state = State.CREATED) ∧
    (run_ticks 30 (Sim.start (select_scheduler Policy.SSTF.letter)
        (example_requests [(0, 5), (1, 5), (3, 2), (4, 9)])
        (example_heap [(0, 5), (1, 5), (3, 2), (4, 9)]))).report
      = some
        [{ request_id := 0, arrival_time := 0, start_time := 0, end_time := 5,
           track_required := 5, wait_time := 0, turn_around_time := 5,
           state := State.COMPLETE },
         { request_id := 1, arrival_time := 1, start_time := 5, end_time := 5,
           track_required := 5, wait_time := 4, turn_around_time := 4,
           state := State.COMPLETE },
         { request_id := 2, arrival_time := 3, start_time := 5, end_time := 8,
           track_required := 2, wait_time := 2, turn_around_time := 5,
           state := State.COMPLETE },
         { request_id := 3, arrival_time := 4, start_time := 8, end_time := 15,
           track_required := 9, wait_time := 4, turn_around_time := 11,
           state := State.COMPLETE }] ∧
    ∃ s, run_ticks 30 (Sim.start (select_scheduler Policy.SSTF.letter)
        (example_requests [(0, 5), (1, 5), (3, 2), (4, 9)])
        (example_heap [(0, 5), (1, 5), (3, 2), (4, 9)])) = Outcome.ok s ∧
      ∀ p ∈ s.requests, (s.heap p).state = State.COMPLETE →
        (s.heap p).end_time ≥ (s.heap p).start_time ∧
        (s.heap p).start_time ≥ (s.heap p).arrival_time :=
  ⟨by decide, by decide,
    completed_request_times_are_ordered Policy.SSTF
      (example_requests [(0, 5), (1, 5), (3, 2), (4, 9)])
      (example_heap [(0, 5), (1, 5), (3, 2), (4, 9)]) (by decide) 30⟩
/-- C10. Whenever the loop of `simulate` exits (within some number of turns,
without a fault), started on requests that are all `CREATED`, with any policy
letter: every request of the list is `COMPLETE` and has
`wait_time = start_time - arrival_time` and
`turn_around_time = end_time - arrival_time`, whether it was finished after
head movement or in the zero-seek loop. -/
theorem finished_run_accounts_every_request (fuel : Nat) (algo : Char) (requests : List Nat)
    (heap : Heap) (hcreated : ∀ p ∈ requests, (heap p).state = State.CREATED)
    (hfinished : (simulate fuel algo requests heap).finished = true) :
    ∃ s, simulate fuel algo requests heap = Outcome.ok s ∧ s.requests = requests ∧
      ∀ p ∈ s.requests, (s.heap p).state = State.COMPLETE ∧
        (s.heap p).wait_time = (s.heap p).start_time - (s.heap p).arrival_time ∧
        (s.heap p).turn_around_time = (s.heap p).end_time - (s.heap p).arrival_time := by
  cases hsim : simulate fuel algo requests heap with
  | ok s =>
    obtain ⟨hreq, hall, hacc⟩ := simulate_ok_inv fuel algo requests heap hcreated s hsim
    refine ⟨s, rfl, hreq, ?_⟩
    intro p hp
    obtain ⟨-, -, -, hw, ht⟩ := hacc p hp
    exact ⟨hall p hp, hw, ht⟩
  | fault =>
    rw [hsim] at hfinished
    simp [Outcome.finished] at hfinished
  | out_of_fuel =>
    rw [hsim] at hfinished
    simp [Outcome.finished] at hfinished

/-- C10, on the input `0 5`, `1 5`, `3 2`, `4 9` under FLOOK: the loop exits
within 30 turns; the second request is finished in the zero-seek loop (start
time equal to end time), the others after head movement. -/
theorem finished_run_accounts_every_request_witness :
    (∀ p ∈ example_requests [(0, 5), (1, 5), (3, 2), (4, 9)],
      ((example_heap [(0, 5), (1, 5), (3, 2), (4, 9)]) p).state = State.CREATED) ∧
    (simulate 30 'f' (example_requests [(0, 5), (1, 5), (3, 2), (4, 9)])
      (example_heap [(0, 5), (1, 5), (3, 2), (4, 9)])).finished = true ∧
    (simulate 30 'f' (example_requests [(0, 5), (1, 5), (3, 2), (4, 9)])
      (example_heap [(0, 5), (1, 5), (3, 2), (4, 9)])).report
      = some
        [{ request_id := 0, arrival_time := 0, start_time := 0, end_time := 5,
           track_required := 5, wait_time := 0, turn_around_time := 5,
           state := State.COMPLETE },
         { request_id := 1, arrival_time := 1, start_time := 5, end_time := 5,
           track_required := 5, wait_time := 4, turn_around_time := 4,
           state := State.COMPLETE },
         { request_id := 2, arrival_time := 3, start_time := 9, end_time := 16,
           track_required := 2, wait_time := 6, turn_around_time := 13,
           state := State.COMPLETE },
         { request_id := 3, arrival_time := 4, start_time := 5, end_time := 9,
           track_required := 9, wait_time := 1, turn_around_time := 5,
           state := State.COMPLETE }] ∧
    ∃ s, simulate 30 'f' (example_requests [(0, 5), (1, 5), (3, 2), (4, 9)])
        (example_heap [(0, 5), (1, 5), (3, 2), (4, 9)]) = Outcome.ok s ∧
      s.requests = example_requests [(0, 5), (1, 5), (3, 2), (4, 9)] ∧
      ∀ p ∈ s.requests, (s.heap p).state = State.COMPLETE ∧
        (s.heap p).wait_time = (s.heap p).start_time - (s.heap p).arrival_time ∧
        (s.heap p).turn_around_time = (s.heap p).end_time - (s.heap p).arrival_time :=
  ⟨by decide, by decide, by decide,
    finished_run_accounts_every_request 30 'f'
      (example_requests [(0, 5), (1, 5), (3, 2), (4, 9)])
      (example_heap [(0, 5), (1, 5), (3, 2), (4, 9)]) (by decide) (by decide)⟩
/-! ## Unknown selector, empty list, and the metrics -/

theorem select_scheduler_unknown (algo : Char) (hi : algo ≠ 'i') (hj : algo ≠ 'j')
    (hs : algo ≠ 's') (hc : algo ≠ 'c') (hf : algo ≠ 'f') : select_scheduler algo = none := by
  unfold select_scheduler
  simp [hi, hj, hs, hc, hf]

theorem simulate_empty (fuel : Nat) (algo : Char) (heap : Heap) :
    simulate fuel algo [] heap = Outcome.ok (Sim.start (select_scheduler algo) [] heap) := by
  unfold simulate
  cases fuel <;> simp [loop, Sim.start, is_request_active]

/-- The loop of `get_max_wait_time` from any starting value: the result is at
least the starting value and every wait time, and it is the starting value or
one of the wait times. -/
theorem max_wait_fold (heap : Heap) :
    ∀ (requests : List Nat) (m : Int),
      m ≤ requests.foldl
          (fun max_wait_time it =>
            if (heap it).wait_time > max_wait_time then (heap it).wait_time
            else max_wait_time) m ∧
      (∀ p ∈ requests, (heap p).wait_time ≤ requests.foldl
          (fun max_wait_time it =>
            if (heap it).wait_time > max_wait_time then (heap it).wait_time
            else max_wait_time) m) ∧
      (requests.foldl
          (fun max_wait_time it =>
            if (heap it).wait_time > max_wait_time then (heap it).wait_time
            else max_wait_time) m = m ∨
        ∃ p ∈ requests, (heap p).wait_time = requests.foldl
          (fun max_wait_time it =>
            if (heap it).wait_time > max_wait_time then (heap it).wait_time
            else max_wait_time) m) := by
  intro requests
  induction requests with
  | nil => intro m; simp
  | cons x xs ih =>
    intro m
    simp only [List.foldl_cons]
    by_cases hx : (heap x).wait_time > m
    · rw [if_pos hx]
      obtain ⟨h1, h2, h3⟩ := ih (heap x).wait_time
      refine ⟨by omega, ?_, ?_⟩
      · intro p hp
        simp only [List.mem_cons] at hp
        rcases hp with rfl | hp
        · exact h1
        · exact h2 p hp
      · right
        rcases h3 with h3 | ⟨p, hp, h3⟩
        · exact ⟨x, by simp, h3.symm⟩
        · exact ⟨p, List.mem_cons_of_mem _ hp, h3⟩
    · rw [if_neg hx]
      obtain ⟨h1, h2, h3⟩ := ih m
      refine ⟨h1, ?_, ?_⟩
      · intro p hp
        simp only [List.mem_cons] at hp
        rcases hp with rfl | hp
        · omega
        · exact h2 p hp
      · rcases h3 with h3 | ⟨p, hp, h3⟩
        · exact Or.inl h3
        · exact Or.inr ⟨p, List.mem_cons_of_mem _ hp, h3⟩

theorem get_max_wait_time_spec (heap : Heap) (requests : List Nat) :
    0 ≤ get_max_wait_time heap requests ∧
    (∀ p ∈ requests, (heap p).wait_time ≤ get_max_wait_time heap requests) ∧
    (get_max_wait_time heap requests = 0 ∨
      ∃ p ∈ requests, (heap p).wait_time = get_max_wait_time heap requests) :=
  max_wait_fold heap requests 0

/-! ## The printed trace -/

theorem outcome_bind_fst {α β : Type} (x : Outcome (α × β)) (f : α × β → β) :
    ((x.bind fun a => Outcome.ok (a.1, f a)).bind fun b => Outcome.ok b.1)
      = x.bind fun a => Outcome.ok a.1 := by
  cases x <;> rfl

theorem arrive_traced_fst (s : Sim) : (arrive_traced s).map Prod.fst = arrive s := by
  unfold arrive_traced arrive Outcome.map
  cases new_request_arrived s.heap s.curr_time s.requests with
  | none => rfl
  | some p =>
    cases s.sched with
    | none => rfl
    | some sched => rfl

theorem service_traced_fst (s : Sim) : (service_traced s).1 = service s := by
  unfold service_traced service
  cases s.curr_request with
  | none => rfl
  | some cur =>
    dsimp only
    split_ifs <;> rfl

theorem drain_traced_fst :
    ∀ (fuel : Nat) (s : Sim), (drain_traced fuel s).map Prod.fst = drain fuel s := by
  intro fuel
  induction fuel with
  | zero => intro s; rfl
  | succ fuel ih =>
    intro s
    unfold drain_traced drain
    cases s.curr_request with
    | none => rfl
    | some cur =>
      dsimp only
      split
      · cases (finish s cur).sched with
        | none => rfl
        | some sched =>
          dsimp only
          cases hr : (sched.get_next_request (finish s cur).heap
              (finish s cur).curr_head_location).1 with
          | none => rfl
          | some next =>
            dsimp only
            rw [← ih]
            unfold Outcome.map
            exact outcome_bind_fst _ _
      · rfl

theorem dispatch_traced_fst (s : Sim) : (dispatch_traced s).map Prod.fst = dispatch s := by
  unfold dispatch_traced dispatch
  cases s.curr_request with
  | some c => rfl
  | none =>
    dsimp only
    cases s.sched with
    | none => rfl
    | some sched =>
      dsimp only
      cases hr : (sched.get_next_request s.heap s.curr_head_location).1 with
      | none => rfl
      | some request =>
        dsimp only
        rw [← drain_traced_fst]
        unfold Outcome.map
        exact outcome_bind_fst _ _

/-- Dropping the output of `tick_traced` gives `tick`. -/
theorem tick_traced_fst (s : Sim) : (tick_traced s).map Prod.fst = tick s := by
  unfold tick_traced tick
  rw [← arrive_traced_fst]
  unfold Outcome.map
  cases arrive_traced s with
  | fault => rfl
  | out_of_fuel => rfl
  | ok x1 =>
    simp only [Outcome.bind]
    rw [← dispatch_traced_fst, service_traced_fst]
    unfold Outcome.map
    cases dispatch_traced (service x1.1) <;> rfl

/-- Dropping the output of `run_traced` gives `run_ticks`. -/
theorem run_traced_fst :
    ∀ (n : Nat) (s : Sim), (run_traced n s).map Prod.fst = run_ticks n s := by
  intro n
  induction n with
  | zero => intro s; rfl
  | succ n ih =>
    intro s
    unfold run_traced run_ticks
    split
    · rw [← tick_traced_fst]
      unfold Outcome.map
      cases tick_traced s with
      | fault => rfl
      | out_of_fuel => rfl
      | ok x =>
        simp only [Outcome.bind]
        rw [← ih]
        unfold Outcome.map
        cases run_traced n x.1 <;> rfl
    · rfl

/-! ## Bookkeeping of the trace -/

theorem issue_seeks_append (track : Nat → Int) (l1 l2 : List Event) :
    issue_seeks track (l1 ++ l2) = issue_seeks track l1 ++ issue_seeks track l2 := by
  unfold issue_seeks
  exact List.filterMap_append _ _ _

theorem issued_append (l1 l2 : List Event) : issued (l1 ++ l2) = issued l1 ++ issued l2 := by
  unfold issued
  exact List.filterMap_append _ _ _

theorem mem_issued (log : List Event) (p : Nat) :
    p ∈ issued log ↔ ∃ t h, Event.issue t p h ∈ log := by
  unfold issued
  rw [List.mem_filterMap]
  constructor
  · rintro ⟨e, he, hp⟩
    cases e with
    | add t r => simp at hp
    | finish t r => simp at hp
    | queue d => simp at hp
    | issue t r h =>
      simp only [Option.some.injEq] at hp
      subst hp
      exact ⟨t, h, he⟩
  · rintro ⟨t, h, he⟩
    exact ⟨Event.issue t p h, he, rfl⟩

theorem plain_issue_seeks (track : Nat → Int) (events : List Event) (hplain : Plain events) :
    issue_seeks track events = [] := by
  unfold issue_seeks
  rw [List.filterMap_eq_nil_iff]
  intro e he
  cases e with
  | add t r => rfl
  | finish t r => rfl
  | queue d => rfl
  | issue t r h => exact absurd he (hplain t r h)

theorem plain_issued (events : List Event) (hplain : Plain events) : issued events = [] := by
  unfold issued
  rw [List.filterMap_eq_nil_iff]
  intro e he
  cases e with
  | add t r => rfl
  | finish t r => rfl
  | queue d => rfl
  | issue t r h => exact absurd he (hplain t r h)

theorem adjacent_append {log : List Event} {t : Int} {p : Nat} {h : Int}
    (hadj : Adjacent log t p h) (extra : List Event) : Adjacent (log ++ extra) t p h := by
  obtain ⟨pre, post, hlog⟩ := hadj
  exact ⟨pre, post ++ extra, by rw [hlog]; simp⟩

/-- Printing lines other than `issue` lines, with the state as it is, keeps the
bookkeeping. -/
theorem ledger_append_plain {track : Nat → Int} {b : Int} {s : Sim} {log : List Event}
    (h : Ledger track b s log) (extra : List Event) (hplain : Plain extra) :
    Ledger track b s (log ++ extra) :=
  { track_eq := h.track_eq
    moved := by
      rw [issue_seeks_append, plain_issue_seeks track extra hplain, List.append_nil]
      exact h.moved
    issued_nodup := by
      rw [issued_append, plain_issued extra hplain, List.append_nil]
      exact h.issued_nodup
    issued_held := by
      rw [issued_append, plain_issued extra hplain, List.append_nil]
      exact h.issued_held
    held_issued := by
      rw [issued_append, plain_issued extra hplain, List.append_nil]
      exact h.held_issued
    event_ok := by
      intro t p hd he
      rw [List.mem_append] at he
      rcases he with he | he
      · obtain ⟨h1, h2, h3⟩ := h.event_ok t p hd he
        refine ⟨h1, h2, ?_⟩
        rcases h3 with ⟨c1, c2, c3⟩ | h3
        · exact Or.inl ⟨c1, c2, fun e => adjacent_append (c3 e) extra⟩
        · exact Or.inr h3
      · exact absurd he (hplain t p hd) }

/-- The bookkeeping only reads the heap, the request list, the request in
service, the head position and the movement counter. -/
theorem ledger_congr {track : Nat → Int} {b : Int} {s s2 : Sim} {log : List Event}
    (h : Ledger track b s log) (hreq : s2.requests = s.requests) (hheap : s2.heap = s.heap)
    (hcur : s2.curr_request = s.curr_request)
    (hhead : s2.curr_head_location = s.curr_head_location)
    (htot : s2.tot_movement = s.tot_movement) : Ledger track b s2 log := by
  obtain ⟨t1, m1, c1, sc1, hd1, r1, hp1⟩ := s
  obtain ⟨t2, m2, c2, sc2, hd2, r2, hp2⟩ := s2
  simp only at hreq hheap hcur hhead htot
  subst hreq hheap hcur hhead htot
  exact
    { track_eq := h.track_eq
      moved := h.moved
      issued_nodup := h.issued_nodup
      issued_held := h.issued_held
      held_issued := h.held_issued
      event_ok := h.event_ok }

/-- While no request is in service the tick of the last head step may be
moved forward. -/
theorem ledger_idle_mono {track : Nat → Int} {b b2 : Int} {s : Sim} {log : List Event}
    (h : Ledger track b s log) (hidle : s.curr_request = none) (hb : b ≤ b2) :
    Ledger track b2 s log :=
  { track_eq := h.track_eq
    moved := h.moved
    issued_nodup := h.issued_nodup
    issued_held := h.issued_held
    held_issued := h.held_issued
    event_ok := by
      intro t p hd he
      obtain ⟨h1, h2, h3⟩ := h.event_ok t p hd he
      refine ⟨h1, le_trans h2 hb, ?_⟩
      rcases h3 with h3 | ⟨c1, -⟩
      · exact Or.inl h3
      · rw [hidle] at c1
        simp at c1 }

/-- Marking a `CREATED` request `READY` keeps the bookkeeping. -/
theorem ledger_arrive {track : Nat → Int} {b : Int} {s : Sim} {log : List Event} (s2 : Sim)
    (p : Nat) (h : Ledger track b s log) (hcreated : (s.heap p).state = State.CREATED)
    (hnotcur : s.curr_request ≠ some p)
    (hreq : s2.requests = s.requests)
    (hheap : s2.heap = s.heap.set p { s.heap p with state := State.READY })
    (hcur : s2.curr_request = s.curr_request)
    (hhead : s2.curr_head_location = s.curr_head_location)
    (htot : s2.tot_movement = s.tot_movement) : Ledger track b s2 log := by
  have hother : ∀ q, q ≠ p → s2.heap q = s.heap q := by
    intro q hq
    rw [hheap, heap_set_other _ _ _ _ hq]
  have hself : s2.heap p = { s.heap p with state := State.READY } := by
    rw [hheap, heap_set_same]
  have hnot : p ∉ issued log := by
    intro hc
    rcases (h.issued_held p hc).2 with h1 | h1
    · rw [hcreated] at h1
      exact State.noConfusion h1
    · exact hnotcur h1
  refine
    { track_eq := ?_
      moved := ?_
      issued_nodup := h.issued_nodup
      issued_held := ?_
      held_issued := ?_
      event_ok := ?_ }
  · intro q
    by_cases hq : q = p
    · subst hq
      rw [hself]
      exact h.track_eq q
    · rw [hother q hq]
      exact h.track_eq q
  · have : remaining track s2 = remaining track s := by
      unfold remaining
      rw [hcur, hhead]
    rw [htot, this]
    exact h.moved
  · intro q hq
    have hqp : q ≠ p := fun e => hnot (e ▸ hq)
    rw [hreq, hother q hqp, hcur]
    exact h.issued_held q hq
  · intro q hq hst
    rw [hreq] at hq
    by_cases hqp : q = p
    · subst hqp
      rw [hself, hcur] at hst
      rcases hst with h1 | h1
      · exact State.noConfusion h1
      · exact absurd h1 hnotcur
    · rw [hother q hqp, hcur] at hst
      exact h.held_issued q hq hst
  · intro t q hd he
    have hq : q ∈ issued log := (mem_issued log q).mpr ⟨t, hd, he⟩
    have hqp : q ≠ p := fun e => hnot (e ▸ hq)
    rw [hother q hqp, hcur, hhead]
    exact h.event_ok t q hd he

/-- One step of the head towards the track of the request in service keeps
the bookkeeping, the tick of the last head step becoming the next one. -/
theorem ledger_move {track : Nat → Int} {b : Int} {s : Sim} {log : List Event} (s2 : Sim)
    (c : Nat) (h : Ledger track b s log) (hc : s.curr_request = some c)
    (hreq : s2.requests = s.requests) (hheap : s2.heap = s.heap)
    (hcur : s2.curr_request = s.curr_request)
    (htot : s2.tot_movement = s.tot_movement + 1)
    (hdist : |track c - s2.curr_head_location| = |track c - s.curr_head_location| - 1) :
    Ledger track (b + 1) s2 log := by
  refine
    { track_eq := by intro q; rw [hheap]; exact h.track_eq q
      moved := ?_
      issued_nodup := h.issued_nodup
      issued_held := by
        intro q hq
        rw [hreq, hheap, hcur]
        exact h.issued_held q hq
      held_issued := by
        intro q hq hst
        rw [hreq] at hq
        rw [hheap, hcur] at hst
        exact h.held_issued q hq hst
      event_ok := ?_ }
  · have h1 : remaining track s2 = |track c - s2.curr_head_location| := by
      unfold remaining
      rw [hcur, hc]
    have h2 : remaining track s = |track c - s.curr_head_location| := by
      unfold remaining
      rw [hc]
    have := h.moved
    rw [h2] at this
    rw [htot, h1, hdist]
    omega
  · intro t q hd he
    obtain ⟨h1, h2, h3⟩ := h.event_ok t q hd he
    rw [hheap, hcur]
    refine ⟨h1, by omega, ?_⟩
    rcases h3 with h3 | ⟨c1, c2⟩
    · exact Or.inl h3
    · right
      refine ⟨c1, ?_⟩
      have hqc : q = c := by
        rw [hc] at c1
        simp only [Option.some.injEq] at c1
        exact c1.symm
      subst hqc
      rw [hdist]
      omega

/-- Finishing the request in service, with the head on its track, keeps the
bookkeeping. -/
theorem ledger_finish {track : Nat → Int} {b : Int} {s : Sim} {log : List Event} (s2 : Sim)
    (c : Nat) (r2 : Request) (h : Ledger track b s log) (hc : s.curr_request = some c)
    (hcmem : c ∈ s.requests) (hready : (s.heap c).state = State.READY)
    (hon : s.curr_head_location = track c)
    (hadj : ∀ t0 h0, Event.issue t0 c h0 ∈ log → h0 = track c →
      ∃ pre, log = pre ++ [Event.issue t0 c h0] ∧ t0 = b)
    (hreq : s2.requests = s.requests) (hheap : s2.heap = s.heap.set c r2)
    (hstate : r2.state = State.COMPLETE) (hend : r2.end_time = b)
    (hstart : r2.start_time = (s.heap c).start_time)
    (htrack : r2.track_required = (s.heap c).track_required)
    (hcur : s2.curr_request = none)
    (htot : s2.tot_movement = s.tot_movement) :
    Ledger track b s2 (log ++ [Event.finish b c]) := by
  have hother : ∀ q, q ≠ c → s2.heap q = s.heap q := by
    intro q hq
    rw [hheap, heap_set_other _ _ _ _ hq]
  have hself : s2.heap c = r2 := by
    rw [hheap, heap_set_same]
  have hplain : Plain [Event.finish b c] := by
    intro t p hd he
    simp at he
  have hissued : issued (log ++ [Event.finish b c]) = issued log := by
    rw [issued_append, plain_issued _ hplain, List.append_nil]
  have hcur_of : ∀ q, s.curr_request = some q → q = c := by
    intro q hq
    rw [hc] at hq
    simp only [Option.some.injEq] at hq
    exact hq.symm
  refine
    { track_eq := ?_
      moved := ?_
      issued_nodup := by rw [hissued]; exact h.issued_nodup
      issued_held := ?_
      held_issued := ?_
      event_ok := ?_ }
  · intro q
    by_cases hq : q = c
    · subst hq
      rw [hself, htrack]
      exact h.track_eq q
    · rw [hother q hq]
      exact h.track_eq q
  · rw [issue_seeks_append, plain_issue_seeks track _ hplain, List.append_nil]
    have h1 : remaining track s2 = 0 := by
      unfold remaining
      rw [hcur]
    have h2 : remaining track s = 0 := by
      unfold remaining
      rw [hc, hon]
      simp
    have := h.moved
    rw [h2] at this
    rw [htot, h1]
    exact this
  · intro q hq
    rw [hissued] at hq
    obtain ⟨hm, hst⟩ := h.issued_held q hq
    rw [hreq]
    refine ⟨hm, Or.inl ?_⟩
    by_cases hqc : q = c
    · subst hqc
      rw [hself]
      exact hstate
    · rw [hother q hqc]
      rcases hst with hst | hst
      · exact hst
      · exact absurd (hcur_of q hst) hqc
  · intro q hq hst
    rw [hreq] at hq
    rw [hissued]
    by_cases hqc : q = c
    · subst hqc
      exact h.held_issued q hq (Or.inr hc)
    · rw [hother q hqc, hcur] at hst
      rcases hst with hst | hst
      · exact h.held_issued q hq (Or.inl hst)
      · simp at hst
  · intro t q hd he
    rw [List.mem_append] at he
    rcases he with he | he
    · obtain ⟨h1, h2, h3⟩ := h.event_ok t q hd he
      by_cases hqc : q = c
      · subst hqc
        rw [hself, hstart]
        refine ⟨h1, h2, Or.inl ⟨hstate, ?_, ?_⟩⟩
        · rcases h3 with ⟨c1, -, -⟩ | ⟨-, c2⟩
          · rw [hready] at c1
            exact State.noConfusion c1
          · rw [hon] at c2
            simp only [sub_self, abs_zero, add_zero] at c2
            rw [hend]
            exact c2
        · intro hh
          obtain ⟨pre, hlog, htb⟩ := hadj t hd he hh
          subst htb
          exact ⟨pre, [], by rw [hlog]; simp⟩
      · rw [hother q hqc]
        refine ⟨h1, h2, ?_⟩
        rcases h3 with ⟨c1, c2, c3⟩ | ⟨c1, -⟩
        · exact Or.inl ⟨c1, c2, fun e => adjacent_append (c3 e) _⟩
        · exact absurd (hcur_of q c1) hqc
    · simp at he

/-- Issuing a `READY` request while no request is in service keeps the
bookkeeping. -/
theorem ledger_issue {track : Nat → Int} {b : Int} {s : Sim} {log : List Event} (s2 : Sim)
    (p : Nat) (r2 : Request) (h : Ledger track b s log) (hidle : s.curr_request = none)
    (hpmem : p ∈ s.requests) (hready : (s.heap p).state = State.READY)
    (hreq : s2.requests = s.requests) (hheap : s2.heap = s.heap.set p r2)
    (hstart : r2.start_time = b)
    (htrack : r2.track_required = (s.heap p).track_required)
    (hcur : s2.curr_request = some p)
    (hhead : s2.curr_head_location = s.curr_head_location)
    (htot : s2.tot_movement = s.tot_movement) :
    Ledger track b s2 (log ++ [Event.issue b p s.curr_head_location]) := by
  have hother : ∀ q, q ≠ p → s2.heap q = s.heap q := by
    intro q hq
    rw [hheap, heap_set_other _ _ _ _ hq]
  have hself : s2.heap p = r2 := by
    rw [hheap, heap_set_same]
  have hnot : p ∉ issued log := by
    intro hc
    rcases (h.issued_held p hc).2 with h1 | h1
    · rw [hready] at h1
      exact State.noConfusion h1
    · rw [hidle] at h1
      simp at h1
  have hissued : issued (log ++ [Event.issue b p s.curr_head_location]) = issued log ++ [p] := by
    rw [issued_append]
    rfl
  have hcomplete : ∀ q, q ∈ issued log → (s.heap q).state = State.COMPLETE ∧ q ≠ p := by
    intro q hq
    have hqp : q ≠ p := fun e => hnot (e ▸ hq)
    rcases (h.issued_held q hq).2 with h1 | h1
    · exact ⟨h1, hqp⟩
    · rw [hidle] at h1
      simp at h1
  refine
    { track_eq := ?_
      moved := ?_
      issued_nodup := ?_
      issued_held := ?_
      held_issued := ?_
      event_ok := ?_ }
  · intro q
    by_cases hq : q = p
    · subst hq
      rw [hself, htrack]
      exact h.track_eq q
    · rw [hother q hq]
      exact h.track_eq q
  · have h1 : remaining track s2 = |track p - s.curr_head_location| := by
      unfold remaining
      rw [hcur, hhead]
    have h2 : remaining track s = 0 := by
      unfold remaining
      rw [hidle]
    have h3 : issue_seeks track (log ++ [Event.issue b p s.curr_head_location])
        = issue_seeks track log ++ [|track p - s.curr_head_location|] := by
      rw [issue_seeks_append]
      rfl
    have := h.moved
    rw [h2] at this
    rw [htot, h1, h3, List.sum_append]
    simp only [List.sum_cons, List.sum_nil, add_zero]
    omega
  · rw [hissued]
    exact List.Nodup.append h.issued_nodup (List.nodup_singleton p) (by simpa using hnot)
  · intro q hq
    rw [hissued] at hq
    simp only [List.mem_append, List.mem_singleton] at hq
    rw [hreq]
    rcases hq with hq | rfl
    · obtain ⟨hst, hqp⟩ := hcomplete q hq
      refine ⟨(h.issued_held q hq).1, Or.inl ?_⟩
      rw [hother q hqp]
      exact hst
    · exact ⟨hpmem, Or.inr hcur⟩
  · intro q hq hst
    rw [hreq] at hq
    rw [hissued]
    by_cases hqp : q = p
    · subst hqp
      simp
    · rw [hother q hqp, hcur] at hst
      rcases hst with hst | hst
      · exact List.mem_append_left _ (h.held_issued q hq (Or.inl hst))
      · simp only [Option.some.injEq] at hst
        exact absurd hst.symm hqp
  · intro t q hd he
    rw [List.mem_append] at he
    rcases he with he | he
    · have hq : q ∈ issued log := (mem_issued log q).mpr ⟨t, hd, he⟩
      obtain ⟨hst, hqp⟩ := hcomplete q hq
      obtain ⟨h1, h2, h3⟩ := h.event_ok t q hd he
      rw [hother q hqp]
      refine ⟨h1, h2, ?_⟩
      rcases h3 with ⟨c1, c2, c3⟩ | ⟨c1, -⟩
      · exact Or.inl ⟨c1, c2, fun e => adjacent_append (c3 e) _⟩
      · rw [hidle] at c1
        simp at c1
    · simp only [List.mem_singleton, Event.issue.injEq] at he
      obtain ⟨rfl, rfl, rfl⟩ := he
      rw [hself]
      refine ⟨hstart, le_refl _, Or.inr ⟨hcur, ?_⟩⟩
      rw [hhead]
      simp

/-! ## What a step does to the state of a request -/

theorem advance_of_heap_eq (t : Int) (s s2 : Sim) (h : s2.heap = s.heap) :
    AdvanceAt t s s2 := by
  intro q
  rw [h]
  exact ⟨fun _ => rfl, Or.inl rfl⟩

theorem advance_trans {t : Int} {s s2 s3 : Sim} (h1 : AdvanceAt t s s2)
    (h2 : AdvanceAt t s2 s3) : AdvanceAt t s s3 := by
  intro q
  obtain ⟨a1, a2⟩ := h1 q
  obtain ⟨b1, b2⟩ := h2 q
  constructor
  · intro hq
    have e1 := a1 hq
    rw [b1 (by rw [e1]; exact hq), e1]
  · rcases a2 with a2 | ⟨a2, a3, a4⟩
    · rcases b2 with b2 | ⟨b2, b3, b4⟩
      · exact Or.inl (by rw [b2, a2])
      · exact Or.inr ⟨by rw [← a2]; exact b2, b3, b4⟩
    · have e2 := b1 a3
      exact Or.inr ⟨a2, by rw [e2]; exact a3, by rw [e2]; exact a4⟩

theorem advance_finish (t : Int) (s s2 : Sim) (c : Nat) (r2 : Request)
    (hready : (s.heap c).state = State.READY) (hheap : s2.heap = s.heap.set c r2)
    (hstate : r2.state = State.COMPLETE) (hend : r2.end_time = t) : AdvanceAt t s s2 := by
  intro q
  by_cases hq : q = c
  · subst hq
    rw [hheap, heap_set_same]
    constructor
    · intro hc
      rw [hready] at hc
      exact State.noConfusion hc
    · exact Or.inr ⟨hready, hstate, hend⟩
  · rw [hheap, heap_set_other _ _ _ _ hq]
    exact ⟨fun _ => rfl, Or.inl rfl⟩

theorem advance_issue (t : Int) (s s2 : Sim) (p : Nat) (r2 : Request)
    (hready : (s.heap p).state = State.READY) (hheap : s2.heap = s.heap.set p r2)
    (hstate : r2.state = State.READY) : AdvanceAt t s s2 := by
  intro q
  by_cases hq : q = p
  · subst hq
    rw [hheap, heap_set_same]
    constructor
    · intro hc
      rw [hready] at hc
      exact State.noConfusion hc
    · exact Or.inl (by rw [hstate, hready])
  · rw [hheap, heap_set_other _ _ _ _ hq]
    exact ⟨fun _ => rfl, Or.inl rfl⟩

/-! ## The loop body with its trace -/

/-- The inner loop with its trace: it ends within its budget and keeps the
invariant and the bookkeeping; it prints no queue dump and moves neither the
head nor the movement counter. -/
theorem drain_traced_good (track : Nat → Int) :
    ∀ (fuel : Nat) (s : Sim) (sched : Scheduler) (log : List Event),
      InvAt s.curr_time s sched → Ledger track s.curr_time s log →
      (∀ c, s.curr_request = some c →
        ∃ pre, log = pre ++ [Event.issue s.curr_time c s.curr_head_location]) →
      s.curr_request ≠ none → sched.pending.length < fuel →
      ∃ s2 sched2 out, drain_traced fuel s = Outcome.ok (s2, out) ∧
        InvAt s.curr_time s2 sched2 ∧ Ledger track s.curr_time s2 (log ++ out) ∧
        OffTrack track s2 ∧ Same s s2 ∧ AdvanceAt s.curr_time s s2 ∧
        (s2.curr_request = none → sched2.pending = []) ∧ NoQueue out ∧
        s2.curr_head_location = s.curr_head_location ∧
        s2.tot_movement = s.tot_movement := by
  intro fuel
  induction fuel with
  | zero => intro s sched log _ _ _ _ hlen; omega
  | succ fuel ih =>
    intro s sched log h hl hfresh hbusy hlen
    cases hc : s.curr_request with
    | none => exact absurd hc hbusy
    | some cur =>
      obtain ⟨hcmem, hcready, -⟩ := h.current_ready cur hc
      unfold drain_traced
      simp only [hc]
      by_cases hhead : s.curr_head_location = (s.heap cur).track_required
      · rw [if_pos hhead]
        have hs1 : (finish s cur).sched = some sched := h.sched_eq
        simp only [hs1]
        obtain ⟨hinv0, harr0, htrack0, hcreated0⟩ :=
          invAt_finish s { finish s cur with curr_request := none } h hc rfl rfl rfl rfl
        have hsame0 : Same s { finish s cur with curr_request := none } :=
          { time_eq := rfl, requests_eq := rfl, arrival_eq := harr0,
            track_eq := htrack0, created_eq := hcreated0 }
        have hon : s.curr_head_location = track cur := by
          rw [hhead]
          exact hl.track_eq cur
        have hadj : ∀ t0 h0, Event.issue t0 cur h0 ∈ log → h0 = track cur →
            ∃ pre, log = pre ++ [Event.issue t0 cur h0] ∧ t0 = s.curr_time := by
          intro t0 h0 he hh
          obtain ⟨pre, hpre⟩ := hfresh cur hc
          have hlast : Event.issue s.curr_time cur s.curr_head_location ∈ log := by
            rw [hpre]
            simp
          have e1 := (hl.event_ok t0 cur h0 he).1
          have e2 := (hl.event_ok _ cur _ hlast).1
          have ht : t0 = s.curr_time := by rw [← e1, e2]
          refine ⟨pre, ?_, ht⟩
          rw [ht, hh, ← hon]
          exact hpre
        have hl0 : Ledger track s.curr_time { finish s cur with curr_request := none }
            (log ++ [Event.finish s.curr_time cur]) :=
          ledger_finish { finish s cur with curr_request := none } cur _ hl hc hcmem hcready
            hon hadj rfl rfl rfl rfl rfl rfl rfl rfl
        have hadv0 : AdvanceAt s.curr_time s { finish s cur with curr_request := none } :=
          advance_finish _ _ _ cur _ hcready rfl rfl rfl
        cases hr : (sched.get_next_request (finish s cur).heap
            (finish s cur).curr_head_location).1 with
        | none =>
          have hsched2 := get_next_request_none_same _ _ sched hr
          have hempty := (get_next_request_none_iff _ _ sched).mp hr
          refine ⟨_, sched, _, rfl, ?_, ?_, ?_, ?_, ?_, fun _ => hempty, ?_, rfl, rfl⟩
          · exact invAt_congr hinv0 (by show some _ = s.sched; rw [hsched2, h.sched_eq])
              rfl rfl rfl
          · exact ledger_congr hl0 rfl rfl rfl rfl rfl
          · intro c hcc
            simp at hcc
          · exact
              { time_eq := rfl, requests_eq := rfl, arrival_eq := harr0,
                track_eq := htrack0, created_eq := hcreated0 }
          · exact advance_trans hadv0 (advance_of_heap_eq _ _ _ rfl)
          · intro d hd
            simp at hd
        | some next =>
          obtain ⟨hmem, hpend⟩ := get_next_request_some _ _ sched h.nodup next hr
          obtain ⟨hnmem, hnready⟩ := hinv0.pending_ready next hmem
          obtain ⟨hinv1, harr1, htrack1, hcreated1⟩ :=
            invAt_issue
              { finish s cur with curr_request := none }
              (issue { finish s cur with
                  sched := some (sched.get_next_request (finish s cur).heap
                    (finish s cur).curr_head_location).2 } next)
              hinv0 rfl hmem hpend rfl rfl rfl rfl
          have hsame1 : Same { finish s cur with curr_request := none }
              (issue { finish s cur with
                  sched := some (sched.get_next_request (finish s cur).heap
                    (finish s cur).curr_head_location).2 } next) :=
            { time_eq := rfl, requests_eq := rfl, arrival_eq := harr1,
              track_eq := htrack1, created_eq := hcreated1 }
          have hl1 : Ledger track s.curr_time
              (issue { finish s cur with
                  sched := some (sched.get_next_request (finish s cur).heap
                    (finish s cur).curr_head_location).2 } next)
              ((log ++ [Event.finish s.curr_time cur])
                ++ [Event.issue s.curr_time next s.curr_head_location]) :=
            ledger_issue (s := { finish s cur with curr_request := none }) _ next _ hl0 rfl
              hnmem hnready rfl rfl rfl rfl rfl rfl rfl
          have hadv1 : AdvanceAt s.curr_time { finish s cur with curr_request := none }
              (issue { finish s cur with
                  sched := some (sched.get_next_request (finish s cur).heap
                    (finish s cur).curr_head_location).2 } next) :=
            advance_issue _ _ _ next _ hnready rfl hnready
          have hlen2 : (sched.get_next_request (finish s cur).heap
              (finish s cur).curr_head_location).2.pending.length < fuel := by
            rw [hpend, List.length_erase_of_mem hmem]
            have : 0 < sched.pending.length := List.length_pos_of_mem hmem
            omega
          obtain ⟨s2, sched2, out, hdrain, hinv2, hl2, hoff2, hsame2, hadv2, hidle2, hnq2,
              hhead2, htot2⟩ :=
            ih (issue { finish s cur with
                  sched := some (sched.get_next_request (finish s cur).heap
                    (finish s cur).curr_head_location).2 } next) _
              ((log ++ [Event.finish s.curr_time cur])
                ++ [Event.issue s.curr_time next s.curr_head_location])
              hinv1 hl1
              (by
                intro c hcc
                have hcn : c = next := by
                  simp only [issue, Option.some.injEq] at hcc
                  exact hcc.symm
                subst hcn
                exact ⟨log ++ [Event.finish s.curr_time cur], rfl⟩)
              (by simp [issue]) hlen2
          refine ⟨s2, sched2,
            Event.finish s.curr_time cur
              :: Event.issue s.curr_time next s.curr_head_location :: out,
            ?_, hinv2, ?_, hoff2, same_trans (same_trans hsame0 hsame1) hsame2,
            advance_trans (advance_trans hadv0 hadv1) hadv2, hidle2, ?_, hhead2, htot2⟩
          · exact congrArg
              (fun o => Outcome.bind o fun x =>
                Outcome.ok (x.1,
                  Event.finish s.curr_time cur
                    :: Event.issue s.curr_time next s.curr_head_location :: x.2)) hdrain
          · have e : log ++ (Event.finish s.curr_time cur
                :: Event.issue s.curr_time next s.curr_head_location :: out)
                = ((log ++ [Event.finish s.curr_time cur])
                  ++ [Event.issue s.curr_time next s.curr_head_location]) ++ out := by
              simp
            rw [e]
            exact hl2
          · intro d hd
            simp only [List.mem_cons] at hd
            rcases hd with hd | hd | hd
            · exact Event.noConfusion hd
            · exact Event.noConfusion hd
            · exact hnq2 d hd
      · rw [if_neg hhead]
        refine ⟨s, sched, [], rfl, h, by simpa using hl, ?_, same_refl s,
          advance_of_heap_eq _ _ _ rfl, ?_, ?_, rfl, rfl⟩
        · intro c hcc
          rw [hc] at hcc
          simp only [Option.some.injEq] at hcc
          subst hcc
          rw [← hl.track_eq]
          exact hhead
        · intro hnone
          rw [hc] at hnone
          simp at hnone
        · intro d hd
          simp at hd

/-- The dispatch step with its trace: it never fails on a scheduler object and
keeps the invariant and the bookkeeping.  When it takes a request it prints
one queue dump, the queue as it is after `get_next_request`, then the `issue`
line, and no other dump. -/
theorem dispatch_traced_good (track : Nat → Int) (s : Sim) (sched : Scheduler)
    (log : List Event) (h : InvAt s.curr_time s sched)
    (hl : Ledger track s.curr_time s log) (hoff : OffTrack track s) :
    ∃ s2 sched2 out, dispatch_traced s = Outcome.ok (s2, out) ∧
      InvAt s.curr_time s2 sched2 ∧ Ledger track s.curr_time s2 (log ++ out) ∧
      OffTrack track s2 ∧ Same s s2 ∧ AdvanceAt s.curr_time s s2 ∧
      (s2.curr_request = none → sched2.pending = []) ∧
      s2.curr_head_location = s.curr_head_location ∧
      s2.tot_movement = s.tot_movement ∧
      (s.curr_request ≠ none → out = []) ∧
      (s.curr_request = none →
        (sched.get_next_request s.heap s.curr_head_location).1 = none → out = []) ∧
      (s.curr_request = none →
        ∀ r, (sched.get_next_request s.heap s.curr_head_location).1 = some r →
          ∃ rest, out = Event.queue
              (sched.get_next_request s.heap s.curr_head_location).2.print_queue
            :: Event.issue s.curr_time r s.curr_head_location :: rest ∧ NoQueue rest) := by
  unfold dispatch_traced
  cases hc : s.curr_request with
  | some cur =>
    refine ⟨s, sched, [], rfl, h, by simpa using hl, hoff, same_refl s,
      advance_of_heap_eq _ _ _ rfl, ?_, rfl, rfl, fun _ => rfl, ?_, ?_⟩
    · intro hnone
      rw [hc] at hnone
      simp at hnone
    · intro hnone
      simp at hnone
    · intro hnone
      simp at hnone
  | none =>
    simp only [h.sched_eq]
    cases hr : (sched.get_next_request s.heap s.curr_head_location).1 with
    | none =>
      have hsched2 := get_next_request_none_same _ _ sched hr
      have hempty := (get_next_request_none_iff _ _ sched).mp hr
      refine ⟨_, sched, [], rfl, ?_, ?_, ?_, ?_, advance_of_heap_eq _ _ _ rfl,
        fun _ => hempty, rfl, rfl, fun _ => rfl, fun _ _ => rfl, ?_⟩
      · exact invAt_congr h (by show some _ = s.sched; rw [hsched2, h.sched_eq]) rfl rfl
          hc.symm
      · have hl2 : Ledger track s.curr_time s (log ++ []) := by simpa using hl
        exact ledger_congr hl2 rfl rfl hc.symm rfl rfl
      · intro c hcc
        simp at hcc
      · exact
          { time_eq := rfl, requests_eq := rfl, arrival_eq := fun _ => rfl,
            track_eq := fun _ => rfl, created_eq := fun _ _ => rfl }
      · intro _ r hsome
        simp at hsome
    | some request =>
      obtain ⟨hmem, hpend⟩ := get_next_request_some _ _ sched h.nodup request hr
      obtain ⟨hrmem, hrready⟩ := h.pending_ready request hmem
      obtain ⟨hinv1, harr1, htrack1, hcreated1⟩ :=
        invAt_issue s
          (issue { s with
              sched := some (sched.get_next_request s.heap s.curr_head_location).2 } request)
          h hc hmem hpend rfl rfl rfl rfl
      have hsame1 : Same s
          (issue { s with
              sched := some (sched.get_next_request s.heap s.curr_head_location).2 } request) :=
        { time_eq := rfl, requests_eq := rfl, arrival_eq := harr1,
          track_eq := htrack1, created_eq := hcreated1 }
      have hplain : Plain [Event.queue
          (sched.get_next_request s.heap s.curr_head_location).2.print_queue] := by
        intro t p hd he
        simp at he
      have hl0 := ledger_append_plain hl _ hplain
      have hl1 : Ledger track s.curr_time
          (issue { s with
              sched := some (sched.get_next_request s.heap s.curr_head_location).2 } request)
          ((log ++ [Event.queue
              (sched.get_next_request s.heap s.curr_head_location).2.print_queue])
            ++ [Event.issue s.curr_time request s.curr_head_location]) :=
        ledger_issue (s := s) _ request _ hl0 hc hrmem hrready rfl rfl rfl rfl rfl rfl rfl
      have hadv1 : AdvanceAt s.curr_time s
          (issue { s with
              sched := some (sched.get_next_request s.heap s.curr_head_location).2 } request) :=
        advance_issue _ _ _ request _ hrready rfl hrready
      obtain ⟨s2, sched2, out, hdrain, hinv2, hl2, hoff2, hsame2, hadv2, hidle2, hnq2,
          hhead2, htot2⟩ :=
        drain_traced_good track _
          (issue { s with
              sched := some (sched.get_next_request s.heap s.curr_head_location).2 } request)
          _
          ((log ++ [Event.queue
              (sched.get_next_request s.heap s.curr_head_location).2.print_queue])
            ++ [Event.issue s.curr_time request s.curr_head_location])
          hinv1 hl1
          (by
            intro c hcc
            have hcn : c = request := by
              simp only [issue, Option.some.injEq] at hcc
              exact hcc.symm
            subst hcn
            exact ⟨_, rfl⟩)
          (by simp [issue]) (Nat.lt_succ_self _)
      refine ⟨s2, sched2,
        Event.queue (sched.get_next_request s.heap s.curr_head_location).2.print_queue
          :: Event.issue s.curr_time request s.curr_head_location :: out,
        ?_, hinv2, ?_, hoff2, same_trans hsame1 hsame2, advance_trans hadv1 hadv2, hidle2,
        hhead2, htot2, ?_, ?_, ?_⟩
      · exact congrArg
          (fun o => Outcome.bind o fun x =>
            Outcome.ok (x.1,
              Event.queue (sched.get_next_request s.heap s.curr_head_location).2.print_queue
                :: Event.issue s.curr_time request s.curr_head_location :: x.2)) hdrain
      · have e : log ++ (Event.queue
              (sched.get_next_request s.heap s.curr_head_location).2.print_queue
            :: Event.issue s.curr_time request s.curr_head_location :: out)
            = ((log ++ [Event.queue
                (sched.get_next_request s.heap s.curr_head_location).2.print_queue])
              ++ [Event.issue s.curr_time request s.curr_head_location]) ++ out := by
          simp
        rw [e]
        exact hl2
      · intro hne
        exact absurd rfl hne
      · intro _ hnone
        simp at hnone
      · intro _ r hsome
        simp only [Option.some.injEq] at hsome
        subst hsome
        exact ⟨out, rfl, hnq2⟩

theorem service_traced_aux (track : Nat → Int) (s s1 : Sim) (sched : Scheduler)
    (log : List Event) (cur : Nat) (h : InvAt s.curr_time s sched)
    (hl : Ledger track (s.curr_time - 1) s log) (hc : s.curr_request = some cur)
    (hoff : s.curr_head_location ≠ track cur)
    (e1 : s1.sched = s.sched) (e2 : s1.requests = s.requests) (e3 : s1.heap = s.heap)
    (e4 : s1.curr_request = s.curr_request) (e5 : s1.curr_time = s.curr_time)
    (e6 : s1.tot_movement = s.tot_movement + 1)
    (e7 : |track cur - s1.curr_head_location| = |track cur - s.curr_head_location| - 1) :
    InvAt s.curr_time
        (if s1.curr_head_location = (s1.heap cur).track_required then
          (({ finish s1 cur with curr_request := none } : Sim), [Event.finish s1.curr_time cur])
        else (s1, [])).1 sched ∧
      Ledger track s.curr_time
        (if s1.curr_head_location = (s1.heap cur).track_required then
          (({ finish s1 cur with curr_request := none } : Sim), [Event.finish s1.curr_time cur])
        else (s1, [])).1
        (log ++ (if s1.curr_head_location = (s1.heap cur).track_required then
          (({ finish s1 cur with curr_request := none } : Sim), [Event.finish s1.curr_time cur])
        else (s1, [])).2) ∧
      OffTrack track
        (if s1.curr_head_location = (s1.heap cur).track_required then
          (({ finish s1 cur with curr_request := none } : Sim), [Event.finish s1.curr_time cur])
        else (s1, [])).1 ∧
      Same s
        (if s1.curr_head_location = (s1.heap cur).track_required then
          (({ finish s1 cur with curr_request := none } : Sim), [Event.finish s1.curr_time cur])
        else (s1, [])).1 ∧
      AdvanceAt s.curr_time s
        (if s1.curr_head_location = (s1.heap cur).track_required then
          (({ finish s1 cur with curr_request := none } : Sim), [Event.finish s1.curr_time cur])
        else (s1, [])).1 ∧
      NoQueue
        (if s1.curr_head_location = (s1.heap cur).track_required then
          (({ finish s1 cur with curr_request := none } : Sim), [Event.finish s1.curr_time cur])
        else (s1, [])).2 := by
  obtain ⟨hcmem, hcready, -⟩ := h.current_ready cur hc
  have hl1 : Ledger track s.curr_time s1 log := by
    have := ledger_move s1 cur hl hc e2 e3 e4 e6 e7
    have e : s.curr_time - 1 + 1 = s.curr_time := by omega
    rw [e] at this
    exact this
  by_cases hhead : s1.curr_head_location = (s1.heap cur).track_required
  · simp only [if_pos hhead]
    obtain ⟨hinv, harr, htrack, hcreated⟩ :=
      invAt_finish s { finish s1 cur with curr_request := none } h hc
        (by show s1.sched = s.sched; exact e1)
        (by show s1.requests = s.requests; exact e2)
        rfl
        (by
          show s1.heap.set cur _ = _
          rw [e3, e5])
    have hadj : ∀ t0 h0, Event.issue t0 cur h0 ∈ log → h0 = track cur →
        ∃ pre, log = pre ++ [Event.issue t0 cur h0] ∧ t0 = s.curr_time := by
      intro t0 h0 he hh
      exfalso
      obtain ⟨-, hle, halt⟩ := hl.event_ok t0 cur h0 he
      rcases halt with ⟨c1, -, -⟩ | ⟨-, c2⟩
      · rw [hcready] at c1
        exact State.noConfusion c1
      · have hpos : 0 < |track cur - s.curr_head_location| := by
          apply abs_pos.mpr
          intro hz
          apply hoff
          omega
        rw [hh] at c2
        simp only [sub_self, abs_zero] at c2
        omega
    have hl2 : Ledger track s.curr_time { finish s1 cur with curr_request := none }
        (log ++ [Event.finish s.curr_time cur]) :=
      ledger_finish (s := s1) { finish s1 cur with curr_request := none } cur _ hl1
        (by rw [e4]; exact hc) (by rw [e2]; exact hcmem) (by rw [e3]; exact hcready)
        (by rw [hhead, e3]; exact hl.track_eq cur) hadj rfl rfl rfl
        (by show s1.curr_time = s.curr_time; exact e5) rfl rfl rfl rfl
    refine ⟨hinv, ?_, ?_, ?_, ?_, ?_⟩
    · show Ledger track s.curr_time _ (log ++ [Event.finish s1.curr_time cur])
      rw [e5]
      exact hl2
    · intro c hcc
      simp at hcc
    · exact
        { time_eq := by show s1.curr_time = s.curr_time; exact e5
          requests_eq := by show s1.requests = s.requests; exact e2
          arrival_eq := harr
          track_eq := htrack
          created_eq := hcreated }
    · exact advance_finish _ s _ cur _ hcready
        (by
          show s1.heap.set cur _ = _
          rw [e3]) rfl (by show s1.curr_time = s.curr_time; exact e5)
    · intro d hd
      simp at hd
  · simp only [if_neg hhead]
    refine ⟨invAt_congr h e1 e2 e3 e4, by simpa using hl1, ?_,
      { time_eq := e5, requests_eq := e2, arrival_eq := fun q => by rw [e3],
        track_eq := fun q => by rw [e3], created_eq := fun q _ => by rw [e3] },
      advance_of_heap_eq _ _ _ e3, ?_⟩
    · intro c hcc
      rw [e4, hc] at hcc
      simp only [Option.some.injEq] at hcc
      subst hcc
      rw [← hl.track_eq, ← e3]
      exact hhead
    · intro d hd
      simp at hd

/-- The service step with its trace keeps the invariant and the bookkeeping,
the tick of the last head step becoming the current one. -/
theorem service_traced_good (track : Nat → Int) (s : Sim) (sched : Scheduler)
    (log : List Event) (h : InvAt s.curr_time s sched)
    (hl : Ledger track (s.curr_time - 1) s log) (hoff : OffTrack track s) :
    InvAt s.curr_time (service_traced s).1 sched ∧
      Ledger track s.curr_time (service_traced s).1 (log ++ (service_traced s).2) ∧
      OffTrack track (service_traced s).1 ∧ Same s (service_traced s).1 ∧
      AdvanceAt s.curr_time s (service_traced s).1 ∧ NoQueue (service_traced s).2 := by
  unfold service_traced
  cases hc : s.curr_request with
  | none =>
    refine ⟨h, ?_, hoff, same_refl s, advance_of_heap_eq _ _ _ rfl, ?_⟩
    · have := ledger_idle_mono hl hc (show s.curr_time - 1 ≤ s.curr_time by omega)
      simpa using this
    · intro d hd
      simp at hd
  | some cur =>
    have hne := hoff cur hc
    have htr := hl.track_eq cur
    dsimp only
    rcases lt_or_gt_of_ne hne with hlt | hgt
    · have c1 : s.curr_head_location < (s.heap cur).track_required := by rw [htr]; exact hlt
      simp only [if_pos c1]
      refine service_traced_aux track s
        { s with curr_head_location := s.curr_head_location + 1
                 tot_movement := s.tot_movement + 1
                 curr_request := some cur }
        sched log cur h hl hc hne rfl rfl rfl hc.symm rfl rfl ?_
      show |track cur - (s.curr_head_location + 1)| = |track cur - s.curr_head_location| - 1
      rw [abs_of_pos (show 0 < track cur - s.curr_head_location by omega),
        abs_of_nonneg (show 0 ≤ track cur - (s.curr_head_location + 1) by omega)]
      omega
    · have c1 : ¬ s.curr_head_location < (s.heap cur).track_required := by
        rw [htr]; omega
      have c2 : s.curr_head_location > (s.heap cur).track_required := by rw [htr]; exact hgt
      simp only [if_neg c1, if_pos c2]
      refine service_traced_aux track s
        { s with curr_head_location := s.curr_head_location - 1
                 tot_movement := s.tot_movement + 1
                 curr_request := some cur }
        sched log cur h hl hc hne rfl rfl rfl hc.symm rfl rfl ?_
      show |track cur - (s.curr_head_location - 1)| = |track cur - s.curr_head_location| - 1
      rw [abs_of_neg (show track cur - s.curr_head_location < 0 by omega),
        abs_of_nonpos (show track cur - (s.curr_head_location - 1) ≤ 0 by omega)]
      omega

/-- The arrival step with its trace keeps the invariant and the bookkeeping;
it touches no request but the one it returns, which goes from `CREATED` to
`READY` at the tick equal to its arrival time. -/
theorem arrive_traced_good (track : Nat → Int) (s : Sim) (sched : Scheduler)
    (log : List Event) (h : InvAt (s.curr_time - 1) s sched)
    (hl : Ledger track (s.curr_time - 1) s log) (hoff : OffTrack track s) :
    ∃ s1 sched1 out, arrive_traced s = Outcome.ok (s1, out) ∧
      InvAt s.curr_time s1 sched1 ∧ Ledger track (s.curr_time - 1) s1 (log ++ out) ∧
      OffTrack track s1 ∧ s1.curr_time = s.curr_time ∧ s1.requests = s.requests ∧
      NoQueue out ∧
      (∀ q, (s1.heap q).arrival_time = (s.heap q).arrival_time) ∧
      (∀ q, (s1.heap q).track_required = (s.heap q).track_required) ∧
      (∀ q, s1.heap q = s.heap q ∨
        ((s.heap q).state = State.CREATED ∧ (s1.heap q).state = State.READY ∧
          (s.heap q).arrival_time = s.curr_time)) := by
  obtain ⟨s1, sched1, harrive, hinv1, ht1, hreq1, hcur1, harr1, htrack1, hframe1, hnew1, -⟩ :=
    arrive_inv s sched h
  cases harr : new_request_arrived s.heap s.curr_time s.requests with
  | none =>
    have hs1 : s1 = s := by
      unfold arrive at harrive
      rw [harr] at harrive
      simp only [Outcome.ok.injEq] at harrive
      exact harrive.symm
    subst hs1
    refine ⟨s1, sched1, [], ?_, hinv1, by simpa using hl, hoff, rfl, rfl, ?_,
      fun _ => rfl, fun _ => rfl, fun _ => Or.inl rfl⟩
    · unfold arrive_traced
      rw [harr]
    · intro d hd
      simp at hd
  | some p =>
    obtain ⟨hpmem, hparr⟩ := new_request_arrived_some s.heap s.curr_time s.requests p harr
    obtain ⟨hcreated, hready1, -⟩ := hnew1 p harr
    have hs1 : s1 = { s with
        sched := some (sched.add_request p)
        heap := s.heap.set p { s.heap p with state := State.READY } } := by
      unfold arrive at harrive
      rw [harr, h.sched_eq] at harrive
      simp only [Outcome.ok.injEq] at harrive
      exact harrive.symm
    have hnotcur : s.curr_request ≠ some p := by
      intro hc
      have := (h.current_ready p hc).2.1
      rw [hcreated] at this
      exact State.noConfusion this
    have hplain : Plain [Event.add s.curr_time p] := by
      intro t q hd he
      simp at he
    have hl1 : Ledger track (s.curr_time - 1) s1 (log ++ [Event.add s.curr_time p]) := by
      apply ledger_arrive s1 p (ledger_append_plain hl _ hplain) hcreated hnotcur
      · rw [hs1]
      · rw [hs1]
      · rw [hs1]
      · rw [hs1]
      · rw [hs1]
    refine ⟨s1, sched1, [Event.add s.curr_time p], ?_, hinv1, hl1, ?_, ht1, hreq1, ?_,
      harr1, htrack1, ?_⟩
    · unfold arrive_traced
      rw [harr, h.sched_eq, hs1]
    · intro c hc
      rw [hs1] at hc ⊢
      exact hoff c hc
    · intro d hd
      simp at hd
    · intro q
      by_cases hq : q = p
      · subst hq
        exact Or.inr ⟨hcreated, hready1, hparr⟩
      · left
        apply hframe1
        rw [harr]
        intro e
        simp only [Option.some.injEq] at e
        exact hq e.symm

theorem outcome_map_ok {α β : Type} (f : α → β) (x : Outcome α) (a : α)
    (h : x = Outcome.ok a) : x.map f = Outcome.ok (f a) := by
  rw [h]
  rfl

/-- One turn of the loop body with its trace, on a state that satisfies the
invariant and the bookkeeping. -/
theorem tick_traced_good (track : Nat → Int) (s : Sim) (log : List Event)
    (h : Good track s log) :
    ∃ s2 out, tick_traced s = Outcome.ok (s2, out) ∧ tick s = Outcome.ok s2 ∧
      Good track s2 (log ++ out) ∧ s2.curr_time = s.curr_time + 1 ∧
      s2.requests = s.requests ∧ TickRel s s2 ∧
      (∀ q, (s2.heap q).arrival_time = (s.heap q).arrival_time) ∧
      (∀ q, (s2.heap q).track_required = (s.heap q).track_required) := by
  obtain ⟨sched, hinv, -, hl, hoff⟩ := h
  obtain ⟨s1, sched1, out1, harrive, hinv1, hl1, hoff1, ht1, hreq1, -, harr1, htrack1,
    hrel1⟩ := arrive_traced_good track s sched log hinv hl hoff
  rw [← ht1] at hinv1 hl1
  obtain ⟨hinv2, hl2, hoff2, hsame2, hadv2, -⟩ :=
    service_traced_good track s1 sched1 (log ++ out1) hinv1 hl1 hoff1
  rw [← hsame2.time_eq] at hinv2 hl2
  obtain ⟨s3, sched3, out3, hdispatch, hinv3, hl3, hoff3, hsame3, hadv3, hidle3, -⟩ :=
    dispatch_traced_good track (service_traced s1).1 sched1
      ((log ++ out1) ++ (service_traced s1).2) hinv2 hl2 hoff2
  have hsame : Same s1 s3 := same_trans hsame2 hsame3
  have hadv : AdvanceAt s.curr_time s1 s3 := by
    have a2 : AdvanceAt s.curr_time s1 (service_traced s1).1 := by
      rw [← ht1]; exact hadv2
    have a3 : AdvanceAt s.curr_time (service_traced s1).1 s3 := by
      rw [← ht1, ← hsame2.time_eq]; exact hadv3
    exact advance_trans a2 a3
  have htick : tick_traced s
      = Outcome.ok ({ s3 with curr_time := s3.curr_time + 1 },
          out1 ++ (service_traced s1).2 ++ out3) := by
    unfold tick_traced
    rw [harrive]
    simp only [Outcome.bind, hdispatch]
  refine ⟨{ s3 with curr_time := s3.curr_time + 1 },
    out1 ++ (service_traced s1).2 ++ out3, htick, ?_, ?_, ?_, ?_, ?_, ?_, ?_⟩
  · rw [← tick_traced_fst]
    exact outcome_map_ok _ _ _ htick
  · refine ⟨sched3, ?_, hidle3, ?_, ?_⟩
    · have h3 : InvAt s3.curr_time s3 sched3 := by
        rw [hsame3.time_eq]
        exact hinv3
      have h4 : InvAt s3.curr_time { s3 with curr_time := s3.curr_time + 1 } sched3 :=
        invAt_congr h3 rfl rfl rfl rfl
      have hb : ({ s3 with curr_time := s3.curr_time + 1 } : Sim).curr_time - 1
          = s3.curr_time := by
        show s3.curr_time + 1 - 1 = s3.curr_time
        omega
      rw [hb]
      exact h4
    · have h3 : Ledger track s3.curr_time s3
          (((log ++ out1) ++ (service_traced s1).2) ++ out3) := by
        rw [hsame3.time_eq]
        exact hl3
      have h4 : Ledger track s3.curr_time { s3 with curr_time := s3.curr_time + 1 }
          (((log ++ out1) ++ (service_traced s1).2) ++ out3) :=
        ledger_congr h3 rfl rfl rfl rfl rfl
      have hb : ({ s3 with curr_time := s3.curr_time + 1 } : Sim).curr_time - 1
          = s3.curr_time := by
        show s3.curr_time + 1 - 1 = s3.curr_time
        omega
      have e : log ++ (out1 ++ (service_traced s1).2 ++ out3)
          = ((log ++ out1) ++ (service_traced s1).2) ++ out3 := by simp
      rw [hb, e]
      exact h4
    · intro c hc
      exact hoff3 c hc
  · show s3.curr_time + 1 = s.curr_time + 1
    rw [hsame.time_eq, ht1]
  · show s3.requests = s.requests
    rw [hsame.requests_eq, hreq1]
  · intro q
    obtain ⟨a1, a2⟩ := hadv q
    show ((s.heap q).state = State.COMPLETE → s3.heap q = s.heap q) ∧
      ((s.heap q).state = State.CREATED → (s3.heap q).state ≠ State.CREATED →
        (s.heap q).arrival_time = s.curr_time) ∧
      ((s.heap q).state ≠ State.COMPLETE → (s3.heap q).state = State.COMPLETE →
        (s3.heap q).end_time = s.curr_time) ∧
      (s.heap q).state.rank ≤ (s3.heap q).state.rank
    rcases hrel1 q with e1 | ⟨c1, c2, c3⟩
    · rw [e1] at a1 a2
      refine ⟨a1, ?_, ?_, ?_⟩
      · intro hcr hne
        rcases a2 with a2 | ⟨a2, -, -⟩
        · exact absurd (by rw [a2]; exact hcr) hne
        · rw [hcr] at a2
          exact State.noConfusion a2
      · intro hne hco
        rcases a2 with a2 | ⟨-, -, a4⟩
        · exact absurd (by rw [← a2]; exact hco) hne
        · exact a4
      · rcases a2 with a2 | ⟨a2, a3, -⟩
        · rw [a2]
        · rw [a2, a3]
          decide
    · refine ⟨?_, fun _ _ => c3, ?_, ?_⟩
      · intro hco
        rw [c1] at hco
        exact State.noConfusion hco
      · intro _ hco
        rcases a2 with a2 | ⟨-, -, a4⟩
        · rw [a2, c2] at hco
          exact State.noConfusion hco
        · exact a4
      · rw [c1]
        exact Nat.zero_le _
  · intro q
    show (s3.heap q).arrival_time = _
    rw [hsame.arrival_eq, harr1]
  · intro q
    show (s3.heap q).track_required = _
    rw [hsame.track_eq, htrack1]

/-! ## Runs of the loop with their trace -/

/-- Before the first tick the invariant and the bookkeeping hold, with the
empty trace. -/
theorem good_start (sched : Scheduler) (requests : List Nat) (heap : Heap)
    (hempty : sched.pending = [])
    (hcreated : ∀ p ∈ requests, (heap p).state = State.CREATED) :
    Good (fun q => (heap q).track_required) (Sim.start (some sched) requests heap) [] := by
  obtain ⟨sched2, hinv, hidle⟩ := start_inv sched requests heap hempty hcreated
  refine ⟨sched2, hinv, hidle, ?_, ?_⟩
  · refine
      { track_eq := fun _ => rfl
        moved := rfl
        issued_nodup := List.nodup_nil
        issued_held := by intro p hp; simp [issued] at hp
        held_issued := ?_
        event_ok := by intro t p h he; simp at he }
    intro p hp hst
    rcases hst with hst | hst
    · have := hcreated p hp
      simp only [Sim.start] at hst
      rw [this] at hst
      exact State.noConfusion hst
    · simp [Sim.start] at hst
  · intro c hc
    simp [Sim.start] at hc

/-- Every turn of the loop succeeds, and the invariant and the bookkeeping
hold at every loop head for the trace printed so far. -/
theorem run_traced_good (track : Nat → Int) :
    ∀ (n : Nat) (s : Sim) (log : List Event), Good track s log →
      ∃ s2 out, run_traced n s = Outcome.ok (s2, out) ∧ run_ticks n s = Outcome.ok s2 ∧
        Good track s2 (log ++ out) ∧ s2.requests = s.requests := by
  intro n
  induction n with
  | zero =>
    intro s log h
    exact ⟨s, [], rfl, rfl, by simpa using h, rfl⟩
  | succ n ih =>
    intro s log h
    unfold run_traced run_ticks
    by_cases hact : is_request_active s.heap s.requests = true
    · simp only [if_pos hact]
      obtain ⟨s1, out1, htick, htick2, hgood1, -, hreq1, -, -, -⟩ :=
        tick_traced_good track s log h
      obtain ⟨s2, out2, hrun, hrun2, hgood2, hreq2⟩ := ih s1 (log ++ out1) hgood1
      refine ⟨s2, out1 ++ out2, ?_, ?_, ?_, by rw [hreq2, hreq1]⟩
      · rw [htick]
        simp only [Outcome.bind, hrun]
      · rw [htick2]
        exact hrun2
      · rw [← List.append_assoc]
        exact hgood2
    · simp only [if_neg hact]
      exact ⟨s, [], rfl, rfl, by simpa using h, rfl⟩

theorem ticks_succ_last : ∀ (n : Nat) (s : Sim), ticks (n + 1) s = (ticks n s).bind tick := by
  intro n
  induction n with
  | zero =>
    intro s
    simp only [ticks, Outcome.bind]
    cases tick s <;> rfl
  | succ n ih =>
    intro s
    show (tick s).bind (ticks (n + 1)) = ((tick s).bind (ticks n)).bind tick
    cases tick s with
    | ok s1 => exact ih s1
    | fault => rfl
    | out_of_fuel => rfl

/-- The state at the exit of the loop is the state after a number `N` of turns
of the body: no request is active in it, and some request is active in the
state after every smaller number of turns. -/
theorem loop_ticks :
    ∀ (fuel : Nat) (s s2 : Sim), loop fuel s = Outcome.ok s2 →
      ∃ N, N ≤ fuel ∧ ticks N s = Outcome.ok s2 ∧
        is_request_active s2.heap s2.requests = false ∧
        ∀ k, k < N → ∃ sk, ticks k s = Outcome.ok sk ∧
          is_request_active sk.heap sk.requests = true := by
  intro fuel
  induction fuel with
  | zero =>
    intro s s2 h
    unfold loop at h
    split at h
    · exact Outcome.noConfusion h
    · rename_i hact
      simp only [Outcome.ok.injEq] at h
      subst h
      exact ⟨0, le_refl _, rfl, by simpa using hact, fun k hk => absurd hk (Nat.not_lt_zero k)⟩
  | succ fuel ih =>
    intro s s2 h
    unfold loop at h
    split at h
    · rename_i hact
      cases ht : tick s with
      | ok s1 =>
        rw [ht] at h
        obtain ⟨N, hN, hticks, hinact, hbefore⟩ := ih s1 s2 h
        refine ⟨N + 1, by omega, ?_, hinact, ?_⟩
        · show (tick s).bind (ticks N) = _
          rw [ht]
          exact hticks
        · intro k hk
          cases k with
          | zero => exact ⟨s, rfl, hact⟩
          | succ k =>
            obtain ⟨sk, hsk, hactk⟩ := hbefore k (by omega)
            refine ⟨sk, ?_, hactk⟩
            show (tick s).bind (ticks k) = _
            rw [ht]
            exact hsk
      | fault => rw [ht] at h; exact Outcome.noConfusion h
      | out_of_fuel => rw [ht] at h; exact Outcome.noConfusion h
    · rename_i hact
      simp only [Outcome.ok.injEq] at h
      subst h
      exact ⟨0, Nat.zero_le _, rfl, by simpa using hact,
        fun k hk => absurd hk (Nat.not_lt_zero k)⟩

/-- Any number of turns of the body succeeds from a state that satisfies the
invariant, and the clock counts them. -/
theorem ticks_good (track : Nat → Int) :
    ∀ (n : Nat) (s : Sim) (log : List Event), Good track s log →
      ∃ s2 log2, ticks n s = Outcome.ok s2 ∧ Good track s2 log2 ∧
        s2.curr_time = s.curr_time + n ∧ s2.requests = s.requests := by
  intro n
  induction n with
  | zero =>
    intro s log h
    exact ⟨s, log, rfl, h, by simp, rfl⟩
  | succ n ih =>
    intro s log h
    obtain ⟨s1, out1, -, htick, hgood1, ht1, hreq1, -, -, -⟩ := tick_traced_good track s log h
    obtain ⟨s2, log2, hticks, hgood2, ht2, hreq2⟩ := ih s1 (log ++ out1) hgood1
    refine ⟨s2, log2, ?_, hgood2, ?_, by rw [hreq2, hreq1]⟩
    · show (tick s).bind (ticks n) = _
      rw [htick]
      exact hticks
    · rw [ht2, ht1]
      push_cast
      omega

theorem is_request_active_true (heap : Heap) :
    ∀ requests : List Nat, is_request_active heap requests = true →
      ∃ p ∈ requests, (heap p).state ≠ State.COMPLETE := by
  intro requests
  induction requests with
  | nil => intro h; simp [is_request_active] at h
  | cons x xs ih =>
    intro h
    unfold is_request_active at h
    split at h
    · rename_i hx
      refine ⟨x, by simp, ?_⟩
      intro hc
      rw [hc] at hx
      simp at hx
    · obtain ⟨p, hp, hst⟩ := ih h
      exact ⟨p, List.mem_cons_of_mem _ hp, hst⟩

theorem issue_seeks_eq_map (track : Nat → Int) (f : Nat → Int) :
    ∀ log : List Event, (∀ t p h, Event.issue t p h ∈ log → |track p - h| = f p) →
      issue_seeks track log = (issued log).map f := by
  intro log
  induction log with
  | nil => intro _; rfl
  | cons e es ih =>
    intro hall
    have ih2 := ih (fun t p h he => hall t p h (List.mem_cons_of_mem _ he))
    cases e with
    | add t r => exact ih2
    | finish t r => exact ih2
    | queue d => exact ih2
    | issue t r h =>
      have e1 : issue_seeks track (Event.issue t r h :: es)
          = |track r - h| :: issue_seeks track es := rfl
      have e2 : issued (Event.issue t r h :: es) = r :: issued es := rfl
      rw [e1, e2, List.map_cons, ih2, hall t r h (by simp)]

/-- A run that ends without fault either had no request at all, or had a
scheduler object. -/
theorem simulate_ok_cases (fuel : Nat) (algo : Char) (requests : List Nat) (heap : Heap)
    (hcreated : ∀ p ∈ requests, (heap p).state = State.CREATED) (s : Sim)
    (hsim : simulate fuel algo requests heap = Outcome.ok s) :
    requests = [] ∨ ∃ sched, select_scheduler algo = some sched := by
  cases hsel : select_scheduler algo with
  | some sched => exact Or.inr ⟨sched, rfl⟩
  | none =>
    left
    unfold simulate at hsim
    obtain ⟨hrun, hinactive⟩ := loop_ok fuel _ s hsim
    have hall := is_request_active_false s.heap s.requests hinactive
    rw [hsel] at hsim hrun
    have hstart : s = Sim.start none requests heap := by
      cases fuel with
      | zero =>
        simp only [run_ticks, Outcome.ok.injEq] at hrun
        exact hrun.symm
      | succ n =>
        unfold loop at hsim
        split at hsim
        · rw [tick_null_scheduler _ rfl rfl] at hsim
          exact Outcome.noConfusion hsim
        · simp only [Outcome.ok.injEq] at hsim
          exact hsim.symm
    subst hstart
    cases requests with
    | nil => rfl
    | cons x xs =>
      have h1 := hall x (by simp [Sim.start])
      have h2 := hcreated x (by simp)
      simp only [Sim.start] at h1
      rw [h2] at h1
      exact State.noConfusion h1

/-- The inner loop ends within its budget whenever the pending requests are
distinct, and it prints no queue dump. -/
theorem drain_traced_total :
    ∀ (fuel : Nat) (s : Sim) (sched : Scheduler), s.sched = some sched →
      sched.pending.Nodup → sched.pending.length < fuel →
      ∃ x, drain_traced fuel s = Outcome.ok x ∧ NoQueue x.2 := by
  intro fuel
  induction fuel with
  | zero => intro s sched _ _ hlen; omega
  | succ fuel ih =>
    intro s sched hsched hnd hlen
    unfold drain_traced
    cases hc : s.curr_request with
    | none => exact ⟨(s, []), rfl, by intro d hd; simp at hd⟩
    | some cur =>
      dsimp only
      by_cases hhead : s.curr_head_location = (s.heap cur).track_required
      · rw [if_pos hhead]
        have hs1 : (finish s cur).sched = some sched := hsched
        simp only [hs1]
        cases hr : (sched.get_next_request (finish s cur).heap
            (finish s cur).curr_head_location).1 with
        | none =>
          exact ⟨_, rfl, by intro d hd; simp at hd⟩
        | some next =>
          obtain ⟨hmem, hpend⟩ := get_next_request_some _ _ sched hnd next hr
          have hlen2 : (sched.get_next_request (finish s cur).heap
              (finish s cur).curr_head_location).2.pending.length < fuel := by
            rw [hpend, List.length_erase_of_mem hmem]
            have : 0 < sched.pending.length := List.length_pos_of_mem hmem
            omega
          obtain ⟨x, hx, hnq⟩ :=
            ih (issue { finish s cur with
                  sched := some (sched.get_next_request (finish s cur).heap
                    (finish s cur).curr_head_location).2 } next) _ rfl
              (by rw [hpend]; exact List.Nodup.erase next hnd) hlen2
          refine ⟨(x.1, Event.finish s.curr_time cur
              :: Event.issue s.curr_time next s.curr_head_location :: x.2), ?_, ?_⟩
          · exact congrArg
              (fun o => Outcome.bind o fun x =>
                Outcome.ok (x.1,
                  Event.finish s.curr_time cur
                    :: Event.issue s.curr_time next s.curr_head_location :: x.2)) hx
          · intro d hd
            simp only [List.mem_cons] at hd
            rcases hd with hd | hd | hd
            · exact Event.noConfusion hd
            · exact Event.noConfusion hd
            · exact hnq d hd
      · rw [if_neg hhead]
        exact ⟨(s, []), rfl, by intro d hd; simp at hd⟩

theorem print_queue_subset (sched : Scheduler) : ∀ x ∈ sched.print_queue, x ∈ sched.pending := by
  intro x hx
  cases sched with
  | FIFO s => exact hx
  | SSTF s => exact hx
  | LOOK s => exact hx
  | CLOOK s => exact hx
  | FLOOK s => exact List.mem_append_left _ hx

theorem get_next_request_kind (heap : Heap) (h : Int) (sched : Scheduler)
    (hkind : ∀ f, sched ≠ Scheduler.FLOOK f) :
    (sched.get_next_request heap h).2.print_queue
      = (sched.get_next_request heap h).2.pending := by
  cases sched with
  | FIFO s => rfl
  | SSTF s => rfl
  | LOOK s => rfl
  | CLOOK s => rfl
  | FLOOK s => exact absurd rfl (hkind s)

/-- What FLOOK leaves in its two queues when it returns a request: the request
comes from `queue1` when that is not empty and `queue2` is left alone; otherwise
it comes from `queue2`, whose other requests become `queue1`. -/
theorem flook_queues_after_selection (heap : Heap) (h : Int) (f : FLookScheduler) (p : Nat)
    (hnd : (f.queue1 ++ f.queue2).Nodup)
    (hnext : (f.get_next_request heap h).1 = some p) :
    (f.queue1 ≠ [] → p ∈ f.queue1 ∧
      (f.get_next_request heap h).2.queue1 = f.queue1.erase p ∧
      (f.get_next_request heap h).2.queue2 = f.queue2) ∧
    (f.queue1 = [] → p ∈ f.queue2 ∧
      (f.get_next_request heap h).2.queue1 = f.queue2.erase p ∧
      (f.get_next_request heap h).2.queue2 = []) := by
  obtain ⟨hnd1, hnd2, -⟩ := List.nodup_append.mp hnd
  rcases flook_get_next_request_cases heap h f with ⟨-, -, hn⟩ | ⟨q, d, hm, heq⟩
  · rw [hn] at hnext
    exact Option.noConfusion hnext
  · rw [heq] at hnext ⊢
    have hq : q = p := Option.some.inj hnext
    subst hq
    constructor
    · intro hne
      rw [flook_switch_of_ne f hne] at hm ⊢
      exact ⟨hm, list_remove_eq_erase _ _ hnd1, rfl⟩
    · intro he
      have hsw : f.switch_queues = { f with queue1 := f.queue2, queue2 := [] } := by
        unfold FLookScheduler.switch_queues
        rw [he]
        rfl
      rw [hsw] at hm ⊢
      exact ⟨hm, list_remove_eq_erase _ _ hnd2, rfl⟩

theorem run_traced_inactive (n : Nat) (s : Sim)
    (h : is_request_active s.heap s.requests = false) :
    run_traced n s = Outcome.ok (s, []) := by
  cases n with
  | zero => rfl
  | succ n =>
    unfold run_traced
    rw [h]
    rfl

theorem sum_fold_eq (f : Nat → Int) :
    ∀ (l : List Nat) (acc : Int),
      l.foldl (fun a it => a + f it) acc = acc + (l.map f).sum := by
  intro l
  induction l with
  | nil => intro acc; simp
  | cons x xs ih =>
    intro acc
    rw [List.foldl_cons, ih, List.map_cons, List.sum_cons]
    omega

theorem sum_wait_time_eq (heap : Heap) (requests : List Nat) :
    sum_wait_time heap requests = (requests.map fun p => (heap p).wait_time).sum := by
  unfold sum_wait_time
  rw [sum_fold_eq (fun p => (heap p).wait_time)]
  simp

theorem sum_turn_around_time_eq (heap : Heap) (requests : List Nat) :
    sum_turn_around_time heap requests
      = (requests.map fun p => (heap p).turn_around_time).sum := by
  unfold sum_turn_around_time
  rw [sum_fold_eq (fun p => (heap p).turn_around_time)]
  simp

theorem avg_bounds (f : Nat → Int) (requests : List Nat) (m : Int)
    (hne : requests ≠ []) (hlow : ∀ p ∈ requests, 0 ≤ f p) (hup : ∀ p ∈ requests, f p ≤ m) :
    0 ≤ (((requests.map f).sum : Int) : ℚ) / (requests.length : ℚ) ∧
      (((requests.map f).sum : Int) : ℚ) / (requests.length : ℚ) ≤ (m : ℚ) := by
  have hlen : 0 < requests.length := List.length_pos.mpr hne
  have hlenq : (0 : ℚ) < (requests.length : ℚ) := by exact_mod_cast hlen
  have hsum : 0 ≤ (requests.map f).sum := by
    apply List.sum_nonneg
    intro x hx
    obtain ⟨p, hp, rfl⟩ := List.mem_map.mp hx
    exact hlow p hp
  have hle : (requests.map f).sum ≤ (requests.map f).length • m := by
    apply List.sum_le_card_nsmul
    intro x hx
    obtain ⟨p, hp, rfl⟩ := List.mem_map.mp hx
    exact hup p hp
  rw [List.length_map, nsmul_eq_mul] at hle
  constructor
  · apply div_nonneg
    · exact_mod_cast hsum
    · exact le_of_lt hlenq
  · rw [div_le_iff₀ hlenq]
    have : (((requests.map f).sum : Int) : ℚ) ≤ (((requests.length : Int) * m : Int) : ℚ) := by
      exact_mod_cast hle
    calc (((requests.map f).sum : Int) : ℚ) ≤ (((requests.length : Int) * m : Int) : ℚ) := this
      _ = (m : ℚ) * (requests.length : ℚ) := by push_cast; ring
/-! ## The metrics, the selector and the empty list: statements of the specification -/

/-- C12, as the code has it. When the selector is none of the letters `i`,
`j`, `s`, `c`, `f`, `simulate` builds no policy object and reports no error:
the scheduler pointer is left `NULL` and the loop is reached; with the empty
request list the run then ends at once, in the state it started in. -/
theorem unknown_selector_builds_no_policy (algo : Char) (hi : algo ≠ 'i') (hj : algo ≠ 'j')
    (hs : algo ≠ 's') (hc : algo ≠ 'c') (hf : algo ≠ 'f') :
    select_scheduler algo = none ∧
    ∀ (fuel : Nat) (heap : Heap),
      simulate fuel algo [] heap = Outcome.ok (Sim.start none [] heap) ∧
      (simulate fuel algo [] heap).finished = true := by
  have hsel := select_scheduler_unknown algo hi hj hs hc hf
  refine ⟨hsel, ?_⟩
  intro fuel heap
  rw [simulate_empty, hsel]
  exact ⟨rfl, rfl⟩

/-- C12 as the code has it, at the selector `x`. -/
theorem unknown_selector_builds_no_policy_witness :
    select_scheduler 'x' = none ∧
    ∀ (fuel : Nat) (heap : Heap),
      simulate fuel 'x' [] heap = Outcome.ok (Sim.start none [] heap) ∧
      (simulate fuel 'x' [] heap).finished = true :=
  unknown_selector_builds_no_policy 'x' (by decide) (by decide) (by decide) (by decide)
    (by decide)

/-- C12 fails as stated. With the selector `x` and the empty request list the
run does not fail: it ends without fault and with no policy object.  With the
selector `x` and the one-line input `0 5` no error is raised before the loop
either: the loop condition holds, the body is entered, and it is the first
turn of the body that dereferences the `NULL` scheduler pointer. -/
theorem unknown_selector_does_not_fail_before_loop :
    (simulate 0 'x' [] (fun _ => zero_request)).finished = true ∧
    (∃ s, simulate 0 'x' [] (fun _ => zero_request) = Outcome.ok s ∧ s.sched = none) ∧
    is_request_active (example_heap [(0, 5)]) (example_requests [(0, 5)]) = true ∧
    tick (Sim.start (select_scheduler 'x') (example_requests [(0, 5)])
      (example_heap [(0, 5)])) = Outcome.fault := by
  refine ⟨by decide, ⟨_, rfl, by decide⟩, by decide, ?_⟩
  exact tick_null_scheduler _ (by decide) rfl

/-- C13, as the code has it. For the empty request list, whatever the selector
letter: the loop ends at its first test, so the state at the exit is the state
before the loop and the body is never executed; the clock is 0, the total head
movement is 0, and the total time of the summary line, `curr_time - 1`,
is -1. -/
theorem empty_list_runs_no_tick (fuel : Nat) (algo : Char) (heap : Heap) :
    is_request_active heap [] = false ∧
    simulate fuel algo [] heap = Outcome.ok (Sim.start (select_scheduler algo) [] heap) ∧
    (Sim.start (select_scheduler algo) [] heap).curr_time = 0 ∧
    (Sim.start (select_scheduler algo) [] heap).summary.tot_movement = 0 ∧
    (Sim.start (select_scheduler algo) [] heap).summary.total_time = -1 :=
  ⟨rfl, simulate_empty fuel algo heap, rfl, rfl, rfl⟩

/-- C13 fails as stated. For the empty request list under FIFO the total time
of the summary line is -1, not 0. -/
theorem empty_list_reports_minus_one :
    ∃ s, simulate 0 'i' [] (fun _ => zero_request) = Outcome.ok s ∧
      s.summary.total_time = -1 ∧ s.summary.total_time ≠ 0 :=
  ⟨_, rfl, by decide, by decide⟩

/-- C15. The value of `get_max_wait_time` is 0 for the empty list; it is at
least the wait time of every request of the list; and as soon as one request
of the list has a non-negative wait time, it is the wait time of a request of
the list, hence the maximum.  Every run that finishes leaves such a list: all
its wait times are `start_time - arrival_time`, none negative, so for a
non-empty list the value is the maximum wait time. -/
theorem get_max_wait_time_is_maximum (heap : Heap) (requests : List Nat) :
    (requests = [] → get_max_wait_time heap requests = 0) ∧
    (∀ p ∈ requests, (heap p).wait_time ≤ get_max_wait_time heap requests) ∧
    ((∃ p ∈ requests, 0 ≤ (heap p).wait_time) →
      ∃ p ∈ requests, (heap p).wait_time = get_max_wait_time heap requests) ∧
    (∀ (fuel : Nat) (algo : Char) (s : Sim),
      (∀ p ∈ requests, (heap p).state = State.CREATED) →
      simulate fuel algo requests heap = Outcome.ok s → requests ≠ [] →
      (∀ p ∈ s.requests, (s.heap p).wait_time ≤ get_max_wait_time s.heap s.requests) ∧
      ∃ p ∈ s.requests, (s.heap p).wait_time = get_max_wait_time s.heap s.requests) := by
  have hattain : ∀ (hp : Heap) (l : List Nat), (∃ p ∈ l, 0 ≤ (hp p).wait_time) →
      ∃ p ∈ l, (hp p).wait_time = get_max_wait_time hp l := by
    intro hp l hex
    obtain ⟨p0, hp0, hnonneg⟩ := hex
    obtain ⟨-, hub, hor⟩ := get_max_wait_time_spec hp l
    rcases hor with h0 | hatt
    · refine ⟨p0, hp0, ?_⟩
      have := hub p0 hp0
      omega
    · exact hatt
  refine ⟨?_, (get_max_wait_time_spec heap requests).2.1, hattain heap requests, ?_⟩
  · intro hnil
    rw [hnil]
    rfl
  · intro fuel algo s hcreated hsim hne
    obtain ⟨hreq, -, hacc⟩ := simulate_ok_inv fuel algo requests heap hcreated s hsim
    refine ⟨(get_max_wait_time_spec s.heap s.requests).2.1, hattain s.heap s.requests ?_⟩
    obtain ⟨x, xs, hx⟩ := List.exists_cons_of_ne_nil hne
    have hxmem : x ∈ s.requests := by rw [hreq, hx]; simp
    obtain ⟨h1, -, -, h4, -⟩ := hacc x hxmem
    exact ⟨x, hxmem, by omega⟩

/-- C15, on the registry left by the run of the input `0 5`, `1 5`, `3 2`,
`4 9` under SSTF: the wait times are 0, 4, 2, 4 and the value is 4. -/
theorem get_max_wait_time_is_maximum_witness :
    (simulate 30 'j' (example_requests [(0, 5), (1, 5), (3, 2), (4, 9)])
      (example_heap [(0, 5), (1, 5), (3, 2), (4, 9)])).report.map
        (fun rs => rs.map (fun r => r.wait_time)) = some [0, 4, 2, 4] ∧
    ∃ s, simulate 30 'j' (example_requests [(0, 5), (1, 5), (3, 2), (4, 9)])
        (example_heap [(0, 5), (1, 5), (3, 2), (4, 9)]) = Outcome.ok s ∧
      (∀ p ∈ s.requests, (s.heap p).wait_time ≤ get_max_wait_time s.heap s.requests) ∧
      ∃ p ∈ s.requests, (s.heap p).wait_time = get_max_wait_time s.heap s.requests := by
  refine ⟨by decide, ?_⟩
  cases hsim : simulate 30 'j' (example_requests [(0, 5), (1, 5), (3, 2), (4, 9)])
      (example_heap [(0, 5), (1, 5), (3, 2), (4, 9)]) with
  | ok s =>
    exact ⟨s, rfl,
      (get_max_wait_time_is_maximum (example_heap [(0, 5), (1, 5), (3, 2), (4, 9)])
        (example_requests [(0, 5), (1, 5), (3, 2), (4, 9)])).2.2.2 30 'j' s (by decide) hsim
        (by decide)⟩
  | fault =>
    have hfin : (simulate 30 'j' (example_requests [(0, 5), (1, 5), (3, 2), (4, 9)])
      (example_heap [(0, 5), (1, 5), (3, 2), (4, 9)])).finished = true := by decide
    rw [hsim] at hfin
    exact absurd hfin (by decide)
  | out_of_fuel =>
    have hfin : (simulate 30 'j' (example_requests [(0, 5), (1, 5), (3, 2), (4, 9)])
      (example_heap [(0, 5), (1, 5), (3, 2), (4, 9)])).finished = true := by decide
    rw [hsim] at hfin
    exact absurd hfin (by decide)

/-- C16. FLOOK selects as LOOK does on the active generation.  With a
non-empty `queue1` (written `a :: active`), any `queue2`, any head position
and any direction flag, `FLookScheduler::get_next_request` returns what
`LookScheduler::get_next_request` returns on the queue `queue1` with the same
head and flag, leaves the direction flag and the rest of `queue1` that LOOK
leaves, and leaves `queue2` as it was.  With an empty `queue1` it does the
same on `queue2`, which becomes the active generation, and leaves the incoming
generation empty. -/
theorem flook_selects_as_look (heap : Heap) (curr_head_location : Int) (a : Nat)
    (active incoming : List Nat) (forward_direction : Bool) :
    FLookScheduler.get_next_request heap curr_head_location
        { queue1 := a :: active, queue2 := incoming, forward_direction := forward_direction }
      = ((LookScheduler.get_next_request heap curr_head_location
            { queue := a :: active, forward_direction := forward_direction }).1,
          { queue1 := (LookScheduler.get_next_request heap curr_head_location
              { queue := a :: active, forward_direction := forward_direction }).2.queue
            queue2 := incoming
            forward_direction := (LookScheduler.get_next_request heap curr_head_location
              { queue := a :: active,
                forward_direction := forward_direction }).2.forward_direction }) ∧
    FLookScheduler.get_next_request heap curr_head_location
        { queue1 := [], queue2 := incoming, forward_direction := forward_direction }
      = ((LookScheduler.get_next_request heap curr_head_location
            { queue := incoming, forward_direction := forward_direction }).1,
          { queue1 := (LookScheduler.get_next_request heap curr_head_location
              { queue := incoming, forward_direction := forward_direction }).2.queue
            queue2 := []
            forward_direction := (LookScheduler.get_next_request heap curr_head_location
              { queue := incoming,
                forward_direction := forward_direction }).2.forward_direction }) := by
  constructor
  · rw [flook_get_next_request_eq]
    rfl
  · rw [flook_get_next_request_eq]
    rfl

/-! ## The life of a request: statements of the specification -/

/-- C11. Under each of the five policies, for every list of requests that are
all `CREATED` before the loop, at every loop head reached (after any number
of turns) the next turn of the loop body succeeds and, for every request:
its state does not move backward in the order `CREATED`, `READY`, `RUNNING`,
`COMPLETE`; if it was `CREATED` and is no longer, the tick of that turn is
its arrival time; if it is `READY` after the turn, it was `READY` before or it
was `CREATED` and the tick is its arrival time; and if it was `COMPLETE`,
none of its fields has changed. -/
theorem lifecycle_state_only_advances (policy : Policy) (requests : List Nat) (heap : Heap)
    (hcreated : ∀ p ∈ requests, (heap p).state = State.CREATED) (n : Nat) :
    ∃ s s2, run_ticks n (Sim.start (select_scheduler policy.letter) requests heap)
        = Outcome.ok s ∧
      tick s = Outcome.ok s2 ∧
      ∀ p, (s.heap p).state.rank ≤ (s2.heap p).state.rank ∧
        ((s.heap p).state = State.CREATED → (s2.heap p).state ≠ State.CREATED →
          (s.heap p).arrival_time = s.curr_time) ∧
        ((s2.heap p).state = State.READY →
          (s.heap p).state = State.READY ∨
            ((s.heap p).state = State.CREATED ∧ (s.heap p).arrival_time = s.curr_time)) ∧
        ((s.heap p).state = State.COMPLETE → s2.heap p = s.heap p) := by
  obtain ⟨sched0, hsel, hempty⟩ := select_scheduler_letter policy
  rw [hsel]
  obtain ⟨s, out, -, hrun, hgood, -⟩ :=
    run_traced_good _ n _ [] (good_start sched0 requests heap hempty hcreated)
  obtain ⟨s2, out2, -, htick, -, -, -, hrel, -, -⟩ := tick_traced_good _ s _ hgood
  refine ⟨s, s2, hrun, htick, ?_⟩
  intro p
  obtain ⟨r1, r2, -, r4⟩ := hrel p
  refine ⟨r4, r2, ?_, r1⟩
  intro hready
  rw [hready] at r4
  cases hst : (s.heap p).state with
  | CREATED =>
    right
    refine ⟨rfl, r2 hst ?_⟩
    rw [hready]
    exact fun e => State.noConfusion e
  | READY => exact Or.inl rfl
  | RUNNING =>
    rw [hst] at r4
    exact absurd r4 (by decide)
  | COMPLETE =>
    rw [hst] at r4
    exact absurd r4 (by decide)

/-- C11, on the input `0 5`, `1 5`, `3 2`, `4 9` under LOOK, at the loop head
reached after five turns: in the next turn the first request goes from `READY`
to `COMPLETE`. -/
theorem lifecycle_state_only_advances_witness :
    (∀ p ∈ example_requests [(0, 5), (1, 5), (3, 2), (4, 9)],
      ((example_heap [(0, 5), (1, 5), (3, 2), (4, 9)]) p).state = State.CREATED) ∧
    (run_ticks 5 (Sim.start (select_scheduler Policy.LOOK.letter)
        (example_requests [(0, 5), (1, 5), (3, 2), (4, 9)])
        (example_heap [(0, 5), (1, 5), (3, 2), (4, 9)]))).report.map
          (fun rs => rs.map (fun r => r.state))
      = some [State.READY, State.READY, State.READY, State.READY] ∧
    (run_ticks 6 (Sim.start (select_scheduler Policy.LOOK.letter)
        (example_requests [(0, 5), (1, 5), (3, 2), (4, 9)])
        (example_heap [(0, 5), (1, 5), (3, 2), (4, 9)]))).report.map
          (fun rs => rs.map (fun r => r.state))
      = some [State.COMPLETE, State.COMPLETE, State.READY, State.READY] ∧
    ∃ s s2, run_ticks 5 (Sim.start (select_scheduler Policy.LOOK.letter)
        (example_requests [(0, 5), (1, 5), (3, 2), (4, 9)])
        (example_heap [(0, 5), (1, 5), (3, 2), (4, 9)])) = Outcome.ok s ∧
      tick s = Outcome.ok s2 ∧
      ∀ p, (s.heap p).state.rank ≤ (s2.heap p).state.rank ∧
        ((s.heap p).state = State.CREATED → (s2.heap p).state ≠ State.CREATED →
          (s.heap p).arrival_time = s.curr_time) ∧
        ((s2.heap p).state = State.READY →
          (s.heap p).state = State.READY ∨
            ((s.heap p).state = State.CREATED ∧ (s.heap p).arrival_time = s.curr_time)) ∧
        ((s.heap p).state = State.COMPLETE → s2.heap p = s.heap p) :=
  ⟨by decide, by decide, by decide,
    lifecycle_state_only_advances Policy.LOOK
      (example_requests [(0, 5), (1, 5), (3, 2), (4, 9)])
      (example_heap [(0, 5), (1, 5), (3, 2), (4, 9)]) (by decide) 5⟩

/-- C17. Under each of the five policies, for every list of requests that are
all `CREATED` before the loop, at every loop head reached: no request has two
`issue` lines in the trace, and every `COMPLETE` request has an `issue` line,
which gives the tick `t` and the head position `h` at its dispatch; then
`start_time = t` and `end_time - start_time = |track_required - h|`; and when
`h` is its track, `end_time = start_time`, `turn_around_time = wait_time`, and
its `finish` line follows its `issue` line directly, at the same tick, so that
no head step lies between the two. -/
theorem completed_request_took_its_seek_distance (policy : Policy) (requests : List Nat)
    (heap : Heap) (hcreated : ∀ p ∈ requests, (heap p).state = State.CREATED) (n : Nat) :
    ∃ s log, run_traced n (Sim.start (select_scheduler policy.letter) requests heap)
        = Outcome.ok (s, log) ∧
      run_ticks n (Sim.start (select_scheduler policy.letter) requests heap) = Outcome.ok s ∧
      (issued log).Nodup ∧
      ∀ p ∈ s.requests, (s.heap p).state = State.COMPLETE →
        (∃ t h, Event.issue t p h ∈ log) ∧
        ∀ t h, Event.issue t p h ∈ log →
          (s.heap p).start_time = t ∧
          (s.heap p).end_time - (s.heap p).start_time = |(s.heap p).track_required - h| ∧
          (h = (s.heap p).track_required →
            (s.heap p).end_time = (s.heap p).start_time ∧
            (s.heap p).turn_around_time = (s.heap p).wait_time ∧
            Adjacent log t p h) := by
  obtain ⟨sched0, hsel, hempty⟩ := select_scheduler_letter policy
  rw [hsel]
  obtain ⟨s, log, hrun, hrun2, ⟨sched, hinv, -, hl, -⟩, -⟩ :=
    run_traced_good _ n _ [] (good_start sched0 requests heap hempty hcreated)
  simp only [List.nil_append] at hl
  refine ⟨s, log, hrun, hrun2, hl.issued_nodup, ?_⟩
  intro p hp hst
  refine ⟨(mem_issued log p).mp (hl.held_issued p hp (Or.inl hst)), ?_⟩
  intro t h he
  obtain ⟨h1, -, h3⟩ := hl.event_ok t p h he
  obtain ⟨-, -, -, hw, hta⟩ := hinv.complete_accounted p hp hst
  subst h1
  rcases h3 with ⟨-, c2, c3⟩ | ⟨c1, -⟩
  · rw [hl.track_eq p]
    refine ⟨rfl, c2, ?_⟩
    intro hh
    have hz : (s.heap p).end_time - (s.heap p).start_time = 0 := by
      rw [c2, hh]
      simp
    have he2 : (s.heap p).end_time = (s.heap p).start_time := by omega
    refine ⟨he2, ?_, c3 hh⟩
    rw [hta, hw, he2]
  · have := (hinv.current_ready p c1).2.1
    rw [hst] at this
    exact State.noConfusion this

/-- C17, on the input `0 5`, `1 5`, `3 2`, `4 9` under SSTF after 30 turns:
the second request is issued at tick 5 with the head on its track 5 and is
finished in the same tick. -/
theorem completed_request_took_its_seek_distance_witness :
    (∀ p ∈ example_requests [(0, 5), (1, 5), (3, 2), (4, 9)],
      ((example_heap [(0, 5), (1, 5), (3, 2), (4, 9)]) p).state = State.CREATED) ∧
    (run_traced 30 (Sim.start (select_scheduler Policy.SSTF.letter)
        (example_requests [(0, 5), (1, 5), (3, 2), (4, 9)])
        (example_heap [(0, 5), (1, 5), (3, 2), (4, 9)]))).trace
      = some [Event.add 0 0, Event.queue [], Event.issue 0 0 0, Event.add 1 1, Event.add 3 2,
          Event.add 4 3, Event.finish 5 0, Event.queue [2, 3], Event.issue 5 1 5,
          Event.finish 5 1, Event.issue 5 2 5, Event.finish 8 2, Event.queue [],
          Event.issue 8 3 2, Event.finish 15 3] ∧
    ∃ s log, run_traced 30 (Sim.start (select_scheduler Policy.SSTF.letter)
        (example_requests [(0, 5), (1, 5), (3, 2), (4, 9)])
        (example_heap [(0, 5), (1, 5), (3, 2), (4, 9)])) = Outcome.ok (s, log) ∧
      run_ticks 30 (Sim.start (select_scheduler Policy.SSTF.letter)
        (example_requests [(0, 5), (1, 5), (3, 2), (4, 9)])
        (example_heap [(0, 5), (1, 5), (3, 2), (4, 9)])) = Outcome.ok s ∧
      (issued log).Nodup ∧
      ∀ p ∈ s.requests, (s.heap p).state = State.COMPLETE →
        (∃ t h, Event.issue t p h ∈ log) ∧
        ∀ t h, Event.issue t p h ∈ log →
          (s.heap p).start_time = t ∧
          (s.heap p).end_time - (s.heap p).start_time = |(s.heap p).track_required - h| ∧
          (h = (s.heap p).track_required →
            (s.heap p).end_time = (s.heap p).start_time ∧
            (s.heap p).turn_around_time = (s.heap p).wait_time ∧
            Adjacent log t p h) :=
  ⟨by decide, by decide,
    completed_request_took_its_seek_distance Policy.SSTF
      (example_requests [(0, 5), (1, 5), (3, 2), (4, 9)])
      (example_heap [(0, 5), (1, 5), (3, 2), (4, 9)]) (by decide) 30⟩

/-- C19. For every non-empty list of requests that are all `CREATED` before the
loop and every selector letter with which the loop of `simulate` exits without
fault: the state at the exit is the state after a positive number `N` of turns
of the body; no request is active in it, while some request is active after
every smaller number of turns, so the loop exits right after the first turn at
whose end no request is `CREATED`, `READY` or `RUNNING`; the clock is `N`; and
the total time of the summary line, `curr_time - 1`, is the largest `end_time`
of the requests. -/
theorem loop_exits_at_last_completion (fuel : Nat) (algo : Char) (requests : List Nat)
    (heap : Heap) (hcreated : ∀ p ∈ requests, (heap p).state = State.CREATED)
    (hne : requests ≠ [])
    (hfinished : (simulate fuel algo requests heap).finished = true) :
    ∃ s N, simulate fuel algo requests heap = Outcome.ok s ∧ 0 < N ∧
      ticks N (Sim.start (select_scheduler algo) requests heap) = Outcome.ok s ∧
      is_request_active s.heap s.requests = false ∧
      (∀ k, k < N → ∃ sk,
        ticks k (Sim.start (select_scheduler algo) requests heap) = Outcome.ok sk ∧
        is_request_active sk.heap sk.requests = true) ∧
      s.curr_time = N ∧ s.summary.total_time = (N : Int) - 1 ∧
      (∀ p ∈ requests, (s.heap p).end_time ≤ s.summary.total_time) ∧
      ∃ p ∈ requests, (s.heap p).end_time = s.summary.total_time := by
  cases hsim : simulate fuel algo requests heap with
  | fault => rw [hsim] at hfinished; simp [Outcome.finished] at hfinished
  | out_of_fuel => rw [hsim] at hfinished; simp [Outcome.finished] at hfinished
  | ok s =>
    obtain ⟨hreq, hall, hacc⟩ := simulate_ok_inv fuel algo requests heap hcreated s hsim
    rcases simulate_ok_cases fuel algo requests heap hcreated s hsim with hnil | ⟨sched0, hsel⟩
    · exact absurd hnil hne
    · have hempty := select_scheduler_pending algo sched0 hsel
      have hgood0 := good_start sched0 requests heap hempty hcreated
      unfold simulate at hsim
      rw [hsel] at hsim ⊢
      obtain ⟨N, -, hticks, hinact, hbefore⟩ := loop_ticks fuel _ s hsim
      obtain ⟨x, xs, hx⟩ := List.exists_cons_of_ne_nil hne
      have hstart_active : is_request_active heap requests = true :=
        is_request_active_of_created heap requests x (by rw [hx]; simp)
          (hcreated x (by rw [hx]; simp))
      cases N with
      | zero =>
        simp only [ticks, Outcome.ok.injEq] at hticks
        subst hticks
        simp only [Sim.start] at hinact
        rw [hstart_active] at hinact
        exact absurd hinact (by decide)
      | succ M =>
        obtain ⟨sM, hsM, hactM⟩ := hbefore M (Nat.lt_succ_self M)
        obtain ⟨sM2, logM, hsM2, hgoodM, htM, hreqM⟩ := ticks_good _ M _ [] hgood0
        rw [hsM] at hsM2
        simp only [Outcome.ok.injEq] at hsM2
        subst hsM2
        obtain ⟨s2, out2, -, htick, -, ht2, -, hrel, -, -⟩ := tick_traced_good _ sM logM hgoodM
        have hlast : tick sM = Outcome.ok s := by
          have := ticks_succ_last M (Sim.start (some sched0) requests heap)
          rw [hticks, hsM] at this
          exact this.symm
        rw [hlast] at htick
        simp only [Outcome.ok.injEq] at htick
        subst htick
        have htime : s.curr_time = ((M + 1 : Nat) : Int) := by
          rw [ht2, htM]
          simp [Sim.start]
        refine ⟨s, M + 1, rfl, Nat.succ_pos M, hticks, hinact, hbefore, htime, ?_, ?_, ?_⟩
        · show s.curr_time - 1 = _
          rw [htime]
        · intro p hp
          obtain ⟨-, -, h3, -, -⟩ := hacc p (by rw [hreq]; exact hp)
          exact h3
        · obtain ⟨p, hp, hst⟩ := is_request_active_true sM.heap sM.requests hactM
          rw [hreqM] at hp
          have hp2 : p ∈ requests := hp
          refine ⟨p, hp2, ?_⟩
          have hco := hall p (by rw [hreq]; exact hp2)
          obtain ⟨-, -, r3, -⟩ := hrel p
          have := r3 hst hco
          show (s.heap p).end_time = s.curr_time - 1
          rw [this, ht2]
          omega

/-- C19, on the input `0 5`, `1 5`, `3 2`, `4 9` under CLOOK: the loop exits
within 30 turns. -/
theorem loop_exits_at_last_completion_witness :
    (∀ p ∈ example_requests [(0, 5), (1, 5), (3, 2), (4, 9)],
      ((example_heap [(0, 5), (1, 5), (3, 2), (4, 9)]) p).state = State.CREATED) ∧
    example_requests [(0, 5), (1, 5), (3, 2), (4, 9)] ≠ [] ∧
    (simulate 30 'c' (example_requests [(0, 5), (1, 5), (3, 2), (4, 9)])
      (example_heap [(0, 5), (1, 5), (3, 2), (4, 9)])).finished = true ∧
    (simulate 30 'c' (example_requests [(0, 5), (1, 5), (3, 2), (4, 9)])
      (example_heap [(0, 5), (1, 5), (3, 2), (4, 9)])).report.map
        (fun rs => rs.map (fun r => r.end_time)) = some [5, 5, 16, 9] ∧
    ∃ s N, simulate 30 'c' (example_requests [(0, 5), (1, 5), (3, 2), (4, 9)])
        (example_heap [(0, 5), (1, 5), (3, 2), (4, 9)]) = Outcome.ok s ∧ 0 < N ∧
      ticks N (Sim.start (select_scheduler 'c')
        (example_requests [(0, 5), (1, 5), (3, 2), (4, 9)])
        (example_heap [(0, 5), (1, 5), (3, 2), (4, 9)])) = Outcome.ok s ∧
      is_request_active s.heap s.requests = false ∧
      (∀ k, k < N → ∃ sk,
        ticks k (Sim.start (select_scheduler 'c')
          (example_requests [(0, 5), (1, 5), (3, 2), (4, 9)])
          (example_heap [(0, 5), (1, 5), (3, 2), (4, 9)])) = Outcome.ok sk ∧
        is_request_active sk.heap sk.requests = true) ∧
      s.curr_time = N ∧ s.summary.total_time = (N : Int) - 1 ∧
      (∀ p ∈ example_requests [(0, 5), (1, 5), (3, 2), (4, 9)],
        (s.heap p).end_time ≤ s.summary.total_time) ∧
      ∃ p ∈ example_requests [(0, 5), (1, 5), (3, 2), (4, 9)],
        (s.heap p).end_time = s.summary.total_time :=
  ⟨by decide, by decide, by decide, by decide,
    loop_exits_at_last_completion 30 'c'
      (example_requests [(0, 5), (1, 5), (3, 2), (4, 9)])
      (example_heap [(0, 5), (1, 5), (3, 2), (4, 9)]) (by decide) (by decide) (by decide)⟩

/-- C18. For every list of distinct requests that are all `CREATED` before the
loop and every selector letter with which the loop of `simulate` exits without
fault: every request has been issued exactly once (the requests of the
`issue` lines of the trace are a rearrangement of the list), and the total
head movement of the summary line is the sum, over the `issue` lines in the
order printed, of `|track_required - head position at the issue|`, which is
also the sum over the requests of `end_time - start_time`. -/
theorem total_movement_is_sum_of_seek_distances (fuel : Nat) (algo : Char)
    (requests : List Nat) (heap : Heap)
    (hcreated : ∀ p ∈ requests, (heap p).state = State.CREATED)
    (hdistinct : requests.Nodup)
    (hfinished : (simulate fuel algo requests heap).finished = true) :
    ∃ s log, simulate fuel algo requests heap = Outcome.ok s ∧
      run_traced fuel (Sim.start (select_scheduler algo) requests heap)
        = Outcome.ok (s, log) ∧
      (issued log).Perm requests ∧
      s.summary.tot_movement
        = (issue_seeks (fun p => (s.heap p).track_required) log).sum ∧
      s.summary.tot_movement
        = (requests.map fun p => (s.heap p).end_time - (s.heap p).start_time).sum := by
  cases hsim : simulate fuel algo requests heap with
  | fault => rw [hsim] at hfinished; simp [Outcome.finished] at hfinished
  | out_of_fuel => rw [hsim] at hfinished; simp [Outcome.finished] at hfinished
  | ok s =>
    obtain ⟨hreq, hall, -⟩ := simulate_ok_inv fuel algo requests heap hcreated s hsim
    rcases simulate_ok_cases fuel algo requests heap hcreated s hsim with hnil | ⟨sched0, hsel⟩
    · subst hnil
      rw [simulate_empty] at hsim
      simp only [Outcome.ok.injEq] at hsim
      subst hsim
      exact ⟨_, [], rfl, run_traced_inactive _ _ rfl, List.Perm.refl _, rfl, rfl⟩
    · have hempty := select_scheduler_pending algo sched0 hsel
      unfold simulate at hsim
      rw [hsel] at hsim ⊢
      obtain ⟨hrun, -⟩ := loop_ok fuel _ s hsim
      obtain ⟨s2, log, htr, hrun2, ⟨sched, hinv, -, hl, -⟩, -⟩ :=
        run_traced_good _ fuel _ [] (good_start sched0 requests heap hempty hcreated)
      rw [hrun] at hrun2
      simp only [Outcome.ok.injEq] at hrun2
      subst hrun2
      simp only [List.nil_append] at hl
      have hidle : s.curr_request = none := by
        cases hc : s.curr_request with
        | none => rfl
        | some c =>
          obtain ⟨hcm, hcr, -⟩ := hinv.current_ready c hc
          have := hall c hcm
          rw [hcr] at this
          exact State.noConfusion this
      have htrack : (fun p => (s.heap p).track_required)
          = fun q => (heap q).track_required := by
        funext p
        exact hl.track_eq p
      have hperm : (issued log).Perm requests := by
        rw [List.perm_ext_iff_of_nodup hl.issued_nodup hdistinct]
        intro p
        constructor
        · intro hp
          rw [← hreq]
          exact (hl.issued_held p hp).1
        · intro hp
          rw [← hreq] at hp
          exact hl.held_issued p hp (Or.inl (hall p hp))
      have hmoved : s.tot_movement
          = (issue_seeks (fun q => (heap q).track_required) log).sum := by
        have := hl.moved
        unfold remaining at this
        rw [hidle] at this
        simpa using this
      have hmap : issue_seeks (fun q => (heap q).track_required) log
          = (issued log).map fun p => (s.heap p).end_time - (s.heap p).start_time := by
        apply issue_seeks_eq_map
        intro t p h he
        obtain ⟨h1, -, h3⟩ := hl.event_ok t p h he
        rcases h3 with ⟨-, c2, -⟩ | ⟨c1, -⟩
        · rw [h1, c2]
        · rw [hidle] at c1
          simp at c1
      refine ⟨s, log, rfl, htr, hperm, ?_, ?_⟩
      · show s.tot_movement = _
        rw [htrack]
        exact hmoved
      · show s.tot_movement = _
        rw [hmoved, hmap]
        exact (hperm.map _).sum_eq

/-- C18, on the input `0 5`, `1 5`, `3 2`, `4 9` under SSTF: the requests are
issued with the head at 0, 5, 5 and 2, the seek distances are 5, 0, 3 and 7,
and the total head movement is 15. -/
theorem total_movement_is_sum_of_seek_distances_witness :
    (∀ p ∈ example_requests [(0, 5), (1, 5), (3, 2), (4, 9)],
      ((example_heap [(0, 5), (1, 5), (3, 2), (4, 9)]) p).state = State.CREATED) ∧
    (example_requests [(0, 5), (1, 5), (3, 2), (4, 9)]).Nodup ∧
    (simulate 30 'j' (example_requests [(0, 5), (1, 5), (3, 2), (4, 9)])
      (example_heap [(0, 5), (1, 5), (3, 2), (4, 9)])).finished = true ∧
    (run_traced 30 (Sim.start (select_scheduler 'j')
        (example_requests [(0, 5), (1, 5), (3, 2), (4, 9)])
        (example_heap [(0, 5), (1, 5), (3, 2), (4, 9)]))).trace.map
          (issue_seeks (fun p => ((example_heap [(0, 5), (1, 5), (3, 2), (4, 9)]) p).track_required))
      = some [5, 0, 3, 7] ∧
    ∃ s log, simulate 30 'j' (example_requests [(0, 5), (1, 5), (3, 2), (4, 9)])
        (example_heap [(0, 5), (1, 5), (3, 2), (4, 9)]) = Outcome.ok s ∧
      run_traced 30 (Sim.start (select_scheduler 'j')
        (example_requests [(0, 5), (1, 5), (3, 2), (4, 9)])
        (example_heap [(0, 5), (1, 5), (3, 2), (4, 9)])) = Outcome.ok (s, log) ∧
      (issued log).Perm (example_requests [(0, 5), (1, 5), (3, 2), (4, 9)]) ∧
      s.summary.tot_movement
        = (issue_seeks (fun p => (s.heap p).track_required) log).sum ∧
      s.summary.tot_movement
        = ((example_requests [(0, 5), (1, 5), (3, 2), (4, 9)]).map
            fun p => (s.heap p).end_time - (s.heap p).start_time).sum :=
  ⟨by decide, by decide, by decide, by decide,
    total_movement_is_sum_of_seek_distances 30 'j'
      (example_requests [(0, 5), (1, 5), (3, 2), (4, 9)])
      (example_heap [(0, 5), (1, 5), (3, 2), (4, 9)]) (by decide) (by decide) (by decide)⟩

/-- C14 as amended. For every non-empty list of requests that are all
`CREATED` before the loop and every selector letter with which the loop of
`simulate` exits without fault: the two averages of the summary line are
numbers, namely the sum of the wait times, respectively of the turnaround
times, divided by the number of requests; both are non-negative; and the
average wait is at most the reported maximum wait. -/
theorem averages_are_non_negative_and_below_max_wait (fuel : Nat) (algo : Char)
    (requests : List Nat) (heap : Heap)
    (hcreated : ∀ p ∈ requests, (heap p).state = State.CREATED)
    (hne : requests ≠ [])
    (hfinished : (simulate fuel algo requests heap).finished = true) :
    ∃ s avg_wait avg_turnaround,
      simulate fuel algo requests heap = Outcome.ok s ∧
      s.summary.avg_wait = some avg_wait ∧
      s.summary.avg_turnaround = some avg_turnaround ∧
      avg_wait = (((requests.map fun p => (s.heap p).wait_time).sum : Int) : ℚ)
        / (requests.length : ℚ) ∧
      avg_turnaround = (((requests.map fun p => (s.heap p).turn_around_time).sum : Int) : ℚ)
        / (requests.length : ℚ) ∧
      0 ≤ avg_wait ∧ 0 ≤ avg_turnaround ∧ avg_wait ≤ (s.summary.max_wait : ℚ) := by
  cases hsim : simulate fuel algo requests heap with
  | fault => rw [hsim] at hfinished; simp [Outcome.finished] at hfinished
  | out_of_fuel => rw [hsim] at hfinished; simp [Outcome.finished] at hfinished
  | ok s =>
    obtain ⟨hreq, -, hacc⟩ := simulate_ok_inv fuel algo requests heap hcreated s hsim
    rw [hreq] at hacc
    have hlen : requests.length ≠ 0 := fun h => hne (List.length_eq_zero.mp h)
    obtain ⟨-, hmax, -⟩ := get_max_wait_time_spec s.heap requests
    have hwait := avg_bounds (fun p => (s.heap p).wait_time) requests
      (get_max_wait_time s.heap requests) hne
      (fun p hp => by
        obtain ⟨h1, -, -, h4, -⟩ := hacc p hp
        show 0 ≤ (s.heap p).wait_time
        omega)
      hmax
    have hturn := avg_bounds (fun p => (s.heap p).turn_around_time) requests
      ((requests.map fun p => (s.heap p).turn_around_time).sum) hne
      (fun p hp => by
        obtain ⟨h1, h2, -, -, h5⟩ := hacc p hp
        show 0 ≤ (s.heap p).turn_around_time
        omega)
      (fun p hp => by
        apply List.single_le_sum
        · intro x hx
          obtain ⟨q, hq, rfl⟩ := List.mem_map.mp hx
          obtain ⟨h1, h2, -, -, h5⟩ := hacc q hq
          show 0 ≤ (s.heap q).turn_around_time
          omega
        · exact List.mem_map.mpr ⟨p, hp, rfl⟩)
    refine ⟨s, _, _, rfl, ?_, ?_, rfl, rfl, hwait.1, hturn.1, ?_⟩
    · show get_avg_wait_time s.heap s.requests = _
      unfold get_avg_wait_time
      rw [hreq, if_neg hlen, sum_wait_time_eq]
    · show get_avg_turnaround_time s.heap s.requests = _
      unfold get_avg_turnaround_time
      rw [hreq, if_neg hlen, sum_turn_around_time_eq]
    · show _ ≤ ((get_max_wait_time s.heap s.requests : Int) : ℚ)
      rw [hreq]
      exact hwait.2

/-- C14 as amended, on the input `0 5`, `1 5`, `3 2`, `4 9` under FIFO: the
wait times are 0, 4, 2 and 4 and the turnaround times 5, 4, 5 and 11, so the
averages are 5/2 and 25/4, and the maximum wait is 4. -/
theorem averages_are_non_negative_and_below_max_wait_witness :
    (∀ p ∈ example_requests [(0, 5), (1, 5), (3, 2), (4, 9)],
      ((example_heap [(0, 5), (1, 5), (3, 2), (4, 9)]) p).state = State.CREATED) ∧
    example_requests [(0, 5), (1, 5), (3, 2), (4, 9)] ≠ [] ∧
    (simulate 30 'i' (example_requests [(0, 5), (1, 5), (3, 2), (4, 9)])
      (example_heap [(0, 5), (1, 5), (3, 2), (4, 9)])).finished = true ∧
    ∃ s avg_wait avg_turnaround,
      simulate 30 'i' (example_requests [(0, 5), (1, 5), (3, 2), (4, 9)])
        (example_heap [(0, 5), (1, 5), (3, 2), (4, 9)]) = Outcome.ok s ∧
      s.summary.avg_wait = some avg_wait ∧
      s.summary.avg_turnaround = some avg_turnaround ∧
      avg_wait = ((((example_requests [(0, 5), (1, 5), (3, 2), (4, 9)]).map
          fun p => (s.heap p).wait_time).sum : Int) : ℚ)
        / ((example_requests [(0, 5), (1, 5), (3, 2), (4, 9)]).length : ℚ) ∧
      avg_turnaround = ((((example_requests [(0, 5), (1, 5), (3, 2), (4, 9)]).map
          fun p => (s.heap p).turn_around_time).sum : Int) : ℚ)
        / ((example_requests [(0, 5), (1, 5), (3, 2), (4, 9)]).length : ℚ) ∧
      0 ≤ avg_wait ∧ 0 ≤ avg_turnaround ∧ avg_wait ≤ (s.summary.max_wait : ℚ) :=
  ⟨by decide, by decide, by decide,
    averages_are_non_negative_and_below_max_wait 30 'i'
      (example_requests [(0, 5), (1, 5), (3, 2), (4, 9)])
      (example_heap [(0, 5), (1, 5), (3, 2), (4, 9)]) (by decide) (by decide) (by decide)⟩

/-- C14 as stated fails on the empty request list under FIFO: the simulation
finishes, and both averages of the summary line are the quotient `0.0 / 0`,
which is no number, so neither is a non-negative number, while the maximum
wait is 0. -/
theorem empty_list_has_no_averages :
    (simulate 0 'i' [] (fun _ => zero_request)).finished = true ∧
    ∃ s, simulate 0 'i' [] (fun _ => zero_request) = Outcome.ok s ∧
      s.summary.avg_wait = none ∧ s.summary.avg_turnaround = none ∧
      s.summary.max_wait = 0 ∧
      ¬ (∃ avg_wait, s.summary.avg_wait = some avg_wait ∧ 0 ≤ avg_wait) ∧
      ¬ (∃ avg_turnaround,
          s.summary.avg_turnaround = some avg_turnaround ∧ 0 ≤ avg_turnaround) := by
  refine ⟨rfl, _, simulate_empty 0 'i' _, rfl, rfl, rfl, ?_, ?_⟩
  · rintro ⟨a, ha, -⟩
    exact Option.noConfusion ha
  · rintro ⟨a, ha, -⟩
    exact Option.noConfusion ha

/-- C20 as amended. With no request in service and a scheduler whose pending
requests are distinct, `dispatch` prints a queue dump exactly when its first
call of `get_next_request` returns a request.  When the call returns none,
nothing is printed.  When it returns the request `p`, what is printed is one
queue dump, then the `issue` line of `p`, then the lines of the zero-seek
drain, among which there is no further dump.  The dump is what `print_queue`
lists after the selection: it lists only requests that were pending before the
selection, `p` was pending before the selection, and `p` is not in the dump.
For every policy other than FLOOK the dump is exactly the pending set before
the selection without `p`.  For FLOOK the dump is exactly the active queue
without `p`: when `queue1` is not empty before the selection, `p` comes from
`queue1`, the dump is `queue1` without `p`, and the requests of `queue2` stay
pending and are not listed; when `queue1` is empty, `queue2` becomes the active
queue, `p` comes from it, and the dump is `queue2` without `p`. -/
theorem queue_dump_follows_selection (d : Sim) (sched : Scheduler)
    (hsched : d.sched = some sched) (hidle : d.curr_request = none)
    (hdistinct : sched.pending.Nodup) :
    ((sched.get_next_request d.heap d.curr_head_location).1 = none →
      dispatch_traced d = Outcome.ok
        ({ d with sched := some (sched.get_next_request d.heap d.curr_head_location).2 }, [])) ∧
    ∀ p, (sched.get_next_request d.heap d.curr_head_location).1 = some p →
      ∃ s3 rest,
        dispatch_traced d = Outcome.ok (s3,
          Event.queue (sched.get_next_request d.heap d.curr_head_location).2.print_queue
            :: Event.issue d.curr_time p d.curr_head_location :: rest) ∧
        NoQueue rest ∧
        p ∈ sched.pending ∧
        p ∉ (sched.get_next_request d.heap d.curr_head_location).2.print_queue ∧
        (∀ x ∈ (sched.get_next_request d.heap d.curr_head_location).2.print_queue,
          x ∈ sched.pending.erase p) ∧
        ((∀ f, sched ≠ Scheduler.FLOOK f) →
          (sched.get_next_request d.heap d.curr_head_location).2.print_queue
            = sched.pending.erase p) ∧
        (∀ f, sched = Scheduler.FLOOK f →
          (f.queue1 ≠ [] → p ∈ f.queue1 ∧
            (sched.get_next_request d.heap d.curr_head_location).2.print_queue
              = f.queue1.erase p ∧
            ∀ x ∈ f.queue2,
              x ∈ (sched.get_next_request d.heap d.curr_head_location).2.pending ∧
              x ∉ (sched.get_next_request d.heap d.curr_head_location).2.print_queue) ∧
          (f.queue1 = [] → p ∈ f.queue2 ∧
            (sched.get_next_request d.heap d.curr_head_location).2.print_queue
              = f.queue2.erase p)) := by
  constructor
  · intro hnone
    unfold dispatch_traced
    simp only [hidle, hsched, hnone]
  intro p hnext
  obtain ⟨hmem, herase⟩ :=
    get_next_request_some d.heap d.curr_head_location sched hdistinct p hnext
  have hnd2 : (sched.get_next_request d.heap d.curr_head_location).2.pending.Nodup := by
    rw [herase]
    exact hdistinct.erase p
  obtain ⟨x, hx, hnoq⟩ := drain_traced_total
    ((sched.get_next_request d.heap d.curr_head_location).2.pending.length + 1)
    (issue { d with sched := some (sched.get_next_request d.heap d.curr_head_location).2 } p)
    (sched.get_next_request d.heap d.curr_head_location).2 rfl hnd2 (Nat.lt_succ_self _)
  have hsub : ∀ y ∈ (sched.get_next_request d.heap d.curr_head_location).2.print_queue,
      y ∈ sched.pending.erase p := by
    intro y hy
    rw [← herase]
    exact print_queue_subset _ y hy
  refine ⟨x.1, x.2, ?_, hnoq, hmem, ?_, hsub, ?_, ?_⟩
  · unfold dispatch_traced
    simp only [hidle] at hx
    simp only [hidle, hsched, hnext]
    rw [hx]
    rfl
  · intro hp
    have := hsub p hp
    rw [hdistinct.mem_erase_iff] at this
    exact this.1 rfl
  · intro hkind
    rw [get_next_request_kind d.heap d.curr_head_location sched hkind, herase]
  · intro f hf
    subst hf
    have hnd : (f.queue1 ++ f.queue2).Nodup := hdistinct
    have hnext2 : (f.get_next_request d.heap d.curr_head_location).1 = some p := hnext
    obtain ⟨k1, k2⟩ :=
      flook_queues_after_selection d.heap d.curr_head_location f p hnd hnext2
    constructor
    · intro hne
      obtain ⟨m1, m2, m3⟩ := k1 hne
      refine ⟨m1, m2, ?_⟩
      intro y hy
      constructor
      · show y ∈ (f.get_next_request d.heap d.curr_head_location).2.queue1
          ++ (f.get_next_request d.heap d.curr_head_location).2.queue2
        rw [m3]
        exact List.mem_append_right _ hy
      · show y ∉ (f.get_next_request d.heap d.curr_head_location).2.queue1
        rw [m2]
        intro hin
        have hy1 : y ∈ f.queue1 := List.mem_of_mem_erase hin
        exact (List.nodup_append.mp hnd).2.2 hy1 hy
    · intro he
      obtain ⟨m1, m2, -⟩ := k2 he
      exact ⟨m1, m2⟩

/-- C20 as amended, at tick 7 of the input `0 5`, `1 9`, `2 7`, `3 8`, `7 6`
under FLOOK, with the requests 1 and 3 in `queue1`, the request 4 in `queue2`
and the head on track 7: request 3 is selected, and what is printed is the dump
of request 1 alone and the `issue` line of request 3; request 4 is pending and
is not listed.  The whole run prints the same dump at tick 7.  Under FIFO, at
tick 5 of the input `0 5`, `1 5`, `2 5`, `3 7`, the dump lists 2 and 3 and the
drain prints no further dump. -/
theorem queue_dump_follows_selection_witness :
    flook_dump_example.sched = some (Scheduler.FLOOK { queue1 := [1, 3], queue2 := [4], forward_direction := true }) ∧
    flook_dump_example.curr_request = none ∧
    (Scheduler.FLOOK { queue1 := [1, 3], queue2 := [4], forward_direction := true }).pending.Nodup ∧
    (run_traced 60 (Sim.start (select_scheduler Policy.FLOOK.letter)
        (example_requests [(0, 5), (1, 9), (2, 7), (3, 8), (7, 6)])
        (example_heap [(0, 5), (1, 9), (2, 7), (3, 8), (7, 6)]))).trace
      = some [Event.add 0 0, Event.queue [], Event.issue 0 0 0, Event.add 1 1,
          Event.add 2 2, Event.add 3 3, Event.finish 5 0, Event.queue [1, 3],
          Event.issue 5 2 5, Event.add 7 4, Event.finish 7 2, Event.queue [1],
          Event.issue 7 3 7, Event.finish 8 3, Event.queue [], Event.issue 8 1 8,
          Event.finish 9 1, Event.queue [], Event.issue 9 4 9, Event.finish 12 4] ∧
    (dispatch_traced flook_dump_example).trace
      = some [Event.queue [1], Event.issue 7 3 7] ∧
    (dispatch_traced dump_example).trace
      = some [Event.queue [2, 3], Event.issue 5 1 5, Event.finish 5 1, Event.issue 5 2 5,
          Event.finish 5 2, Event.issue 5 3 5] ∧
    ((Scheduler.FLOOK { queue1 := [1, 3], queue2 := [4], forward_direction := true }).get_next_request flook_dump_example.heap
          flook_dump_example.curr_head_location).1 = some 3 ∧
    ((((Scheduler.FLOOK { queue1 := [1, 3], queue2 := [4], forward_direction := true }).get_next_request flook_dump_example.heap
          flook_dump_example.curr_head_location).1 = none →
      dispatch_traced flook_dump_example = Outcome.ok
        ({ flook_dump_example with sched := some ((Scheduler.FLOOK { queue1 := [1, 3], queue2 := [4], forward_direction := true }).get_next_request flook_dump_example.heap
          flook_dump_example.curr_head_location).2 }, [])) ∧
    ∀ p, ((Scheduler.FLOOK { queue1 := [1, 3], queue2 := [4], forward_direction := true }).get_next_request flook_dump_example.heap
          flook_dump_example.curr_head_location).1 = some p →
      ∃ s3 rest,
        dispatch_traced flook_dump_example = Outcome.ok (s3,
          Event.queue ((Scheduler.FLOOK { queue1 := [1, 3], queue2 := [4], forward_direction := true }).get_next_request flook_dump_example.heap
          flook_dump_example.curr_head_location).2.print_queue
            :: Event.issue flook_dump_example.curr_time p
                flook_dump_example.curr_head_location :: rest) ∧
        NoQueue rest ∧
        p ∈ (Scheduler.FLOOK { queue1 := [1, 3], queue2 := [4], forward_direction := true }).pending ∧
        p ∉ ((Scheduler.FLOOK { queue1 := [1, 3], queue2 := [4], forward_direction := true }).get_next_request flook_dump_example.heap
          flook_dump_example.curr_head_location).2.print_queue ∧
        (∀ x ∈ ((Scheduler.FLOOK { queue1 := [1, 3], queue2 := [4], forward_direction := true }).get_next_request flook_dump_example.heap
          flook_dump_example.curr_head_location).2.print_queue,
          x ∈ (Scheduler.FLOOK { queue1 := [1, 3], queue2 := [4], forward_direction := true }).pending.erase p) ∧
        ((∀ f, (Scheduler.FLOOK { queue1 := [1, 3], queue2 := [4], forward_direction := true }) ≠ Scheduler.FLOOK f) →
          ((Scheduler.FLOOK { queue1 := [1, 3], queue2 := [4], forward_direction := true }).get_next_request flook_dump_example.heap
          flook_dump_example.curr_head_location).2.print_queue
            = (Scheduler.FLOOK { queue1 := [1, 3], queue2 := [4], forward_direction := true }).pending.erase p) ∧
        (∀ f, (Scheduler.FLOOK { queue1 := [1, 3], queue2 := [4], forward_direction := true }) = Scheduler.FLOOK f →
          (f.queue1 ≠ [] → p ∈ f.queue1 ∧
            ((Scheduler.FLOOK { queue1 := [1, 3], queue2 := [4], forward_direction := true }).get_next_request flook_dump_example.heap
          flook_dump_example.curr_head_location).2.print_queue
              = f.queue1.erase p ∧
            ∀ x ∈ f.queue2,
              x ∈ ((Scheduler.FLOOK { queue1 := [1, 3], queue2 := [4], forward_direction := true }).get_next_request flook_dump_example.heap
          flook_dump_example.curr_head_location).2.pending ∧
              x ∉ ((Scheduler.FLOOK { queue1 := [1, 3], queue2 := [4], forward_direction := true }).get_next_request flook_dump_example.heap
          flook_dump_example.curr_head_location).2.print_queue) ∧
          (f.queue1 = [] → p ∈ f.queue2 ∧
            ((Scheduler.FLOOK { queue1 := [1, 3], queue2 := [4], forward_direction := true }).get_next_request flook_dump_example.heap
          flook_dump_example.curr_head_location).2.print_queue
              = f.queue2.erase p))) :=
  ⟨rfl, rfl, by decide, by decide, by decide, by decide, by decide,
    queue_dump_follows_selection flook_dump_example
      (Scheduler.FLOOK { queue1 := [1, 3], queue2 := [4], forward_direction := true }) rfl rfl
      (by decide)⟩

/-- C20 as stated fails on the input `0 5`, `1 5`, `2 5`, `3 7` under FIFO.  At
tick 5 the requests 1, 2 and 3 are pending; the dump printed before the
`issue` line of request 1 lists 2 and 3 only, and the requests 2 and 3 are
issued by the zero-seek drain with no dump at all.  At tick 0 the dump before
the `issue` line of request 0 is empty. -/
theorem queue_dump_lacks_the_dispatched_request :
    (run_traced 30 (Sim.start (select_scheduler 'i')
        (example_requests [(0, 5), (1, 5), (2, 5), (3, 7)])
        (example_heap [(0, 5), (1, 5), (2, 5), (3, 7)]))).trace
      = some [Event.add 0 0, Event.queue [], Event.issue 0 0 0, Event.add 1 1,
          Event.add 2 2, Event.add 3 3, Event.finish 5 0, Event.queue [2, 3],
          Event.issue 5 1 5, Event.finish 5 1, Event.issue 5 2 5, Event.finish 5 2,
          Event.issue 5 3 5, Event.finish 7 3] ∧
    dumps_cover none [Event.add 0 0, Event.queue [], Event.issue 0 0 0, Event.add 1 1,
          Event.add 2 2, Event.add 3 3, Event.finish 5 0, Event.queue [2, 3],
          Event.issue 5 1 5, Event.finish 5 1, Event.issue 5 2 5, Event.finish 5 2,
          Event.issue 5 3 5, Event.finish 7 3] = false := by
  constructor
  · decide
  · decide

/-! ## What a turn of the loop body does to the head, and what it adds -/

theorem arrive_traced_frame (s : Sim) (x : Sim × List Event)
    (h : arrive_traced s = Outcome.ok x) :
    x.1.tot_movement = s.tot_movement ∧ x.1.curr_head_location = s.curr_head_location ∧
      x.1.curr_request = s.curr_request ∧ Plain x.2 ∧
      (∀ t p, Event.add t p ∈ x.2 ↔
        (t = s.curr_time ∧ new_request_arrived s.heap s.curr_time s.requests = some p)) ∧
      (∀ p, new_request_arrived s.heap s.curr_time s.requests = some p →
        (x.1.heap p).state = State.READY) ∧
      (∀ q, new_request_arrived s.heap s.curr_time s.requests ≠ some q →
        x.1.heap q = s.heap q) := by
  unfold arrive_traced at h
  cases hn : new_request_arrived s.heap s.curr_time s.requests with
  | none =>
    rw [hn] at h
    simp only [Outcome.ok.injEq] at h
    subst h
    refine ⟨rfl, rfl, rfl, ?_, ?_, ?_, ?_⟩
    · intro t p h hm
      simp at hm
    · intro t p
      simp
    · intro p hp
      exact Option.noConfusion hp
    · intro q _
      rfl
  | some r =>
    rw [hn] at h
    cases hs : s.sched with
    | none =>
      rw [hs] at h
      exact Outcome.noConfusion h
    | some sched =>
      rw [hs] at h
      simp only [Outcome.ok.injEq] at h
      subst h
      refine ⟨rfl, rfl, rfl, ?_, ?_, ?_, ?_⟩
      · intro t p h hm
        simp at hm
      · intro t p
        simp only [List.mem_singleton, Event.add.injEq, Option.some.injEq]
        constructor
        · rintro ⟨h1, h2⟩
          exact ⟨h1, h2.symm⟩
        · rintro ⟨h1, h2⟩
          exact ⟨h1, h2.symm⟩
      · intro p hp
        simp only [Option.some.injEq] at hp
        subst hp
        show ((s.heap.set r { s.heap r with state := State.READY }) r).state = State.READY
        rw [heap_set_same]
      · intro q hq
        have hne : q ≠ r := fun e => hq (by rw [e])
        show (s.heap.set r { s.heap r with state := State.READY }) q = s.heap q
        exact heap_set_other _ _ _ _ hne

theorem service_traced_frame (s : Sim) :
    NoAdd (service_traced s).2 ∧ Plain (service_traced s).2 ∧
      (s.curr_request = none → (service_traced s).1 = s) ∧
      (∀ c, s.curr_request = some c → s.curr_head_location ≠ (s.heap c).track_required →
        (service_traced s).1.tot_movement = s.tot_movement + 1 ∧
        ((s.curr_head_location < (s.heap c).track_required ∧
            (service_traced s).1.curr_head_location = s.curr_head_location + 1) ∨
          ((s.heap c).track_required < s.curr_head_location ∧
            (service_traced s).1.curr_head_location = s.curr_head_location - 1))) := by
  unfold service_traced
  cases hc : s.curr_request with
  | none =>
    refine ⟨?_, ?_, fun _ => rfl, ?_⟩
    · intro t p hm
      simp at hm
    · intro t p h hm
      simp at hm
    · intro c hc2
      exact Option.noConfusion hc2
  | some cur =>
    dsimp only
    refine ⟨?_, ?_, ?_, ?_⟩
    · intro t p hm
      split_ifs at hm <;> simp at hm
    · intro t p h hm
      split_ifs at hm <;> simp at hm
    · intro hn
      exact Option.noConfusion hn
    · intro c hc2 hoff
      simp only [Option.some.injEq] at hc2
      subst hc2
      by_cases hlt : s.curr_head_location < (s.heap cur).track_required
      · simp only [if_pos hlt]
        split_ifs
        · exact ⟨rfl, Or.inl ⟨hlt, rfl⟩⟩
        · exact ⟨rfl, Or.inl ⟨hlt, rfl⟩⟩
      · have hgt : s.curr_head_location > (s.heap cur).track_required := by
          have := lt_or_gt_of_ne hoff
          rcases this with h1 | h1
          · exact absurd h1 hlt
          · exact h1
        simp only [if_neg hlt, if_pos hgt]
        split_ifs
        · exact ⟨rfl, Or.inr ⟨hgt, rfl⟩⟩
        · exact ⟨rfl, Or.inr ⟨hgt, rfl⟩⟩

theorem outcome_bind_ok {α β : Type} (x : Outcome α) (f : α → Outcome β) (b : β)
    (h : x.bind f = Outcome.ok b) : ∃ a, x = Outcome.ok a ∧ f a = Outcome.ok b := by
  cases x with
  | ok a => exact ⟨a, rfl, h⟩
  | fault => exact Outcome.noConfusion h
  | out_of_fuel => exact Outcome.noConfusion h

theorem drain_traced_frame :
    ∀ (fuel : Nat) (s : Sim) (x : Sim × List Event), drain_traced fuel s = Outcome.ok x →
      NoAdd x.2 ∧ ∀ t p h, Event.issue t p h ∈ x.2 → h = s.curr_head_location := by
  intro fuel
  induction fuel with
  | zero =>
    intro s x h
    exact Outcome.noConfusion h
  | succ fuel ih =>
    intro s x h
    unfold drain_traced at h
    cases hc : s.curr_request with
    | none =>
      rw [hc] at h
      simp only [Outcome.ok.injEq] at h
      subst h
      exact ⟨fun t p hm => by simp at hm, fun t p h hm => by simp at hm⟩
    | some cur =>
      rw [hc] at h
      dsimp only at h
      by_cases hhead : s.curr_head_location = (s.heap cur).track_required
      · rw [if_pos hhead] at h
        cases hs : (finish s cur).sched with
        | none =>
          rw [hs] at h
          exact Outcome.noConfusion h
        | some sched =>
          rw [hs] at h
          dsimp only at h
          cases hr : (sched.get_next_request (finish s cur).heap
              (finish s cur).curr_head_location).1 with
          | none =>
            rw [hr] at h
            simp only [Outcome.ok.injEq] at h
            subst h
            exact ⟨fun t p hm => by simp at hm, fun t p h hm => by simp at hm⟩
          | some next =>
            rw [hr] at h
            dsimp only at h
            obtain ⟨y, hy, hxy⟩ := outcome_bind_ok _ _ _ h
            simp only [Outcome.ok.injEq] at hxy
            subst hxy
            obtain ⟨i1, i2⟩ := ih _ y hy
            constructor
            · intro t p hm
              simp only [List.mem_cons] at hm
              rcases hm with hm | hm | hm
              · exact Event.noConfusion hm
              · exact Event.noConfusion hm
              · exact i1 t p hm
            · intro t p h hm
              simp only [List.mem_cons] at hm
              rcases hm with hm | hm | hm
              · exact Event.noConfusion hm
              · simp only [Event.issue.injEq] at hm
                exact hm.2.2
              · exact i2 t p h hm
      · rw [if_neg hhead] at h
        simp only [Outcome.ok.injEq] at h
        subst h
        exact ⟨fun t p hm => by simp at hm, fun t p h hm => by simp at hm⟩

theorem dispatch_traced_frame (s : Sim) (x : Sim × List Event)
    (h : dispatch_traced s = Outcome.ok x) :
    NoAdd x.2 ∧ ∀ t p h, Event.issue t p h ∈ x.2 → h = s.curr_head_location := by
  unfold dispatch_traced at h
  cases hc : s.curr_request with
  | some c =>
    rw [hc] at h
    simp only [Outcome.ok.injEq] at h
    subst h
    exact ⟨fun t p hm => by simp at hm, fun t p h hm => by simp at hm⟩
  | none =>
    rw [hc] at h
    cases hs : s.sched with
    | none =>
      rw [hs] at h
      exact Outcome.noConfusion h
    | some sched =>
      rw [hs] at h
      dsimp only at h
      cases hr : (sched.get_next_request s.heap s.curr_head_location).1 with
      | none =>
        rw [hr] at h
        simp only [Outcome.ok.injEq] at h
        subst h
        exact ⟨fun t p hm => by simp at hm, fun t p h hm => by simp at hm⟩
      | some request =>
        rw [hr] at h
        dsimp only at h
        obtain ⟨y, hy, hxy⟩ := outcome_bind_ok _ _ _ h
        simp only [Outcome.ok.injEq] at hxy
        subst hxy
        obtain ⟨i1, i2⟩ := drain_traced_frame _ _ y hy
        constructor
        · intro t p hm
          simp only [List.mem_cons] at hm
          rcases hm with hm | hm | hm
          · exact Event.noConfusion hm
          · exact Event.noConfusion hm
          · exact i1 t p hm
        · intro t p h hm
          simp only [List.mem_cons] at hm
          rcases hm with hm | hm | hm
          · exact Event.noConfusion hm
          · simp only [Event.issue.injEq] at hm
            exact hm.2.2
          · exact i2 t p h hm

/-- One turn of the loop body from a loop head where the invariant holds: which
`add` lines it prints, which requests leave `CREATED`, what happens to the head
and to the movement counter, and where the head is at its `issue` lines. -/
theorem tick_traced_frame (track : Nat → Int) (s : Sim) (log : List Event)
    (h : Good track s log) (s2 : Sim) (out : List Event)
    (htick : tick_traced s = Outcome.ok (s2, out)) :
    (∀ t p, Event.add t p ∈ out ↔
      (t = s.curr_time ∧ new_request_arrived s.heap s.curr_time s.requests = some p)) ∧
    (∀ p, new_request_arrived s.heap s.curr_time s.requests = some p →
      (s2.heap p).state ≠ State.CREATED) ∧
    (∀ p, (s.heap p).state = State.CREATED → (s2.heap p).state ≠ State.CREATED →
      new_request_arrived s.heap s.curr_time s.requests = some p) ∧
    (s.curr_request = none → s2.tot_movement = s.tot_movement ∧
      s2.curr_head_location = s.curr_head_location) ∧
    (∀ c, s.curr_request = some c →
      s2.tot_movement = s.tot_movement + 1 ∧
      ((s.curr_head_location < track c ∧
          s2.curr_head_location = s.curr_head_location + 1) ∨
        (track c < s.curr_head_location ∧
          s2.curr_head_location = s.curr_head_location - 1))) ∧
    (∀ t p h, Event.issue t p h ∈ out → h = s2.curr_head_location) := by
  obtain ⟨sched, hinv, -, hl, hoff⟩ := h
  obtain ⟨s1, sched1, out1, harrive, hinv1, hl1, hoff1, ht1, hreq1, -, harr1, htrack1,
    hrel1⟩ := arrive_traced_good track s sched log hinv hl hoff
  obtain ⟨f1, f2, f3, f4, f5, f6, f7⟩ := arrive_traced_frame s (s1, out1) harrive
  rw [← ht1] at hinv1 hl1
  obtain ⟨hinv2, hl2, hoff2, hsame2, hadv2, -⟩ :=
    service_traced_good track s1 sched1 (log ++ out1) hinv1 hl1 hoff1
  obtain ⟨g1, g2, g3, g4⟩ := service_traced_frame s1
  rw [← hsame2.time_eq] at hinv2 hl2
  obtain ⟨s3, sched3, out3, hdispatch, hinv3, hl3, hoff3, hsame3, hadv3, hidle3, hhead3,
    htot3, -⟩ :=
    dispatch_traced_good track (service_traced s1).1 sched1
      ((log ++ out1) ++ (service_traced s1).2) hinv2 hl2 hoff2
  obtain ⟨d1, d2⟩ := dispatch_traced_frame _ (s3, out3) hdispatch
  have hadv : ∀ q, (s3.heap q).state = (s1.heap q).state ∨
      ((s1.heap q).state = State.READY ∧ (s3.heap q).state = State.COMPLETE) := by
    intro q
    rcases (hadv2 q).2 with a | ⟨a1, a2, -⟩
    · rcases (hadv3 q).2 with b | ⟨b1, b2, -⟩
      · left
        rw [b, a]
      · right
        rw [a] at b1
        exact ⟨b1, b2⟩
    · right
      refine ⟨a1, ?_⟩
      have := (hadv3 q).1 a2
      rw [this]
      exact a2
  have htick2 : tick_traced s
      = Outcome.ok ({ s3 with curr_time := s3.curr_time + 1 },
          out1 ++ (service_traced s1).2 ++ out3) := by
    unfold tick_traced
    rw [harrive]
    simp only [Outcome.bind, hdispatch]
  rw [htick2] at htick
  simp only [Outcome.ok.injEq, Prod.mk.injEq] at htick
  obtain ⟨e1, e2⟩ := htick
  subst e1
  subst e2
  refine ⟨?_, ?_, ?_, ?_, ?_, ?_⟩
  · intro t p
    rw [← f5 t p]
    simp only [List.mem_append]
    constructor
    · rintro ((hm | hm) | hm)
      · exact hm
      · exact absurd hm (g1 t p)
      · exact absurd hm (d1 t p)
    · intro hm
      exact Or.inl (Or.inl hm)
  · intro p hp
    have hr := f6 p hp
    show (s3.heap p).state ≠ State.CREATED
    rcases hadv p with a | ⟨-, a⟩
    · rw [a, hr]
      exact fun e => State.noConfusion e
    · rw [a]
      exact fun e => State.noConfusion e
  · intro p hcr hne
    by_contra hn
    have hsame := f7 p hn
    apply hne
    show (s3.heap p).state = State.CREATED
    rcases hadv p with a | ⟨a, -⟩
    · rw [a, hsame]
      exact hcr
    · rw [hsame, hcr] at a
      exact State.noConfusion a
  · intro hidle
    have hs1 : (service_traced s1).1 = s1 := g3 (by rw [f3]; exact hidle)
    constructor
    · show s3.tot_movement = s.tot_movement
      rw [htot3, hs1, f1]
    · show s3.curr_head_location = s.curr_head_location
      rw [hhead3, hs1, f2]
  · intro c hc
    have hc1 : s1.curr_request = some c := by rw [f3]; exact hc
    have htr : (s1.heap c).track_required = track c := by
      rw [htrack1]
      exact hl.track_eq c
    have hoffc : s1.curr_head_location ≠ (s1.heap c).track_required := by
      rw [htr, f2]
      exact hoff c hc
    obtain ⟨k1, k2⟩ := g4 c hc1 hoffc
    rw [htr, f2] at k2
    constructor
    · show s3.tot_movement = s.tot_movement + 1
      rw [htot3, k1, f1]
    · show (s.curr_head_location < track c ∧
          s3.curr_head_location = s.curr_head_location + 1) ∨
        (track c < s.curr_head_location ∧
          s3.curr_head_location = s.curr_head_location - 1)
      rw [hhead3]
      exact k2
  · intro t p h hm
    show h = s3.curr_head_location
    simp only [List.mem_append] at hm
    rcases hm with (hm | hm) | hm
    · exact absurd hm (f4 t p h)
    · exact absurd hm (g2 t p h)
    · rw [hhead3]
      exact d2 t p h hm

/-! ## The `add` lines and the requests still `CREATED` -/

theorem booked_tick (track : Nat → Int) (s : Sim) (log : List Event)
    (h : Good track s log) (hb : Booked s log) (s2 : Sim) (out : List Event)
    (htick : tick_traced s = Outcome.ok (s2, out)) (hreq : s2.requests = s.requests)
    (hrel : TickRel s s2) : Booked s2 (log ++ out) := by
  obtain ⟨a1, a2, a3, -, -, -⟩ := tick_traced_frame track s log h s2 out htick
  intro p hp
  rw [hreq] at hp
  have hold := hb p hp
  have hrank := (hrel p).2.2.2
  constructor
  · intro hcr ⟨t, hm⟩
    have hcr0 : (s.heap p).state = State.CREATED := by
      rw [hcr] at hrank
      cases hst : (s.heap p).state with
      | CREATED => rfl
      | READY => rw [hst] at hrank; exact absurd hrank (by decide)
      | RUNNING => rw [hst] at hrank; exact absurd hrank (by decide)
      | COMPLETE => rw [hst] at hrank; exact absurd hrank (by decide)
    rcases List.mem_append.mp hm with hm | hm
    · exact hold.mp hcr0 ⟨t, hm⟩
    · exact a2 p ((a1 t p).mp hm).2 hcr
  · intro hna
    by_contra hne
    have hna0 : ¬ Added log p := fun ⟨t, hm⟩ => hna ⟨t, List.mem_append_left _ hm⟩
    have hcr0 := hold.mpr hna0
    have harr := a3 p hcr0 hne
    exact hna ⟨s.curr_time, List.mem_append_right _ ((a1 s.curr_time p).mpr ⟨rfl, harr⟩)⟩

theorem booked_start (sched : Option Scheduler) (requests : List Nat) (heap : Heap)
    (hcreated : ∀ p ∈ requests, (heap p).state = State.CREATED) :
    Booked (Sim.start sched requests heap) [] := by
  intro p hp
  constructor
  · rintro - ⟨t, hm⟩
    simp at hm
  · intro _
    exact hcreated p hp

theorem run_traced_booked (track : Nat → Int) :
    ∀ (n : Nat) (s : Sim) (log : List Event), Good track s log → Booked s log →
      ∃ s2 out, run_traced n s = Outcome.ok (s2, out) ∧ run_ticks n s = Outcome.ok s2 ∧
        Good track s2 (log ++ out) ∧ Booked s2 (log ++ out) ∧ s2.requests = s.requests := by
  intro n
  induction n with
  | zero =>
    intro s log h hb
    exact ⟨s, [], rfl, rfl, by simpa using h, by simpa using hb, rfl⟩
  | succ n ih =>
    intro s log h hb
    unfold run_traced run_ticks
    by_cases hact : is_request_active s.heap s.requests = true
    · simp only [if_pos hact]
      obtain ⟨s1, out1, htick, htick2, hgood1, -, hreq1, hrel1, -, -⟩ :=
        tick_traced_good track s log h
      have hb1 := booked_tick track s log h hb s1 out1 htick hreq1 hrel1
      obtain ⟨s2, out2, hrun, hrun2, hgood2, hb2, hreq2⟩ := ih s1 (log ++ out1) hgood1 hb1
      refine ⟨s2, out1 ++ out2, ?_, ?_, ?_, ?_, by rw [hreq2, hreq1]⟩
      · rw [htick]
        simp only [Outcome.bind, hrun]
      · rw [htick2]
        exact hrun2
      · rw [← List.append_assoc]
        exact hgood2
      · rw [← List.append_assoc]
        exact hb2
    · simp only [if_neg hact]
      exact ⟨s, [], rfl, rfl, by simpa using h, by simpa using hb, rfl⟩

/-! ## Termination for arrival times that increase -/

theorem largest_nonneg (f : Nat → Int) : ∀ requests : List Nat, 0 ≤ largest f requests := by
  intro requests
  induction requests with
  | nil => exact le_refl _
  | cons x xs ih => exact le_trans ih (le_max_right _ _)

theorem le_largest (f : Nat → Int) :
    ∀ (requests : List Nat) (p : Nat), p ∈ requests → f p ≤ largest f requests := by
  intro requests
  induction requests with
  | nil => intro p hp; simp at hp
  | cons x xs ih =>
    intro p hp
    rcases List.mem_cons.mp hp with e | hm
    · rw [e]
      exact le_max_left _ _
    · exact le_trans (ih p hm) (le_max_right _ _)

/-- In a list whose arrival times strictly increase, `new_request_arrived` finds
every request at its arrival time. -/
theorem new_request_arrived_increasing (heap : Heap) :
    ∀ (requests : List Nat),
      requests.Pairwise (fun p q => (heap p).arrival_time < (heap q).arrival_time) →
      ∀ p ∈ requests,
        new_request_arrived heap (heap p).arrival_time requests = some p := by
  intro requests
  induction requests with
  | nil => intro _ p hp; simp at hp
  | cons x xs ih =>
    intro hpw p hp
    obtain ⟨hx, hxs⟩ := List.pairwise_cons.mp hpw
    unfold new_request_arrived
    rcases List.mem_cons.mp hp with e | hm
    · rw [e, if_pos rfl]
    · have hlt := hx p hm
      rw [if_neg (ne_of_lt hlt), if_neg (not_lt.mpr (le_of_lt hlt))]
      exact ih hxs p hm

theorem issue_seeks_sum_le (track : Nat → Int) (M : Int) :
    ∀ log : List Event, (∀ t p h, Event.issue t p h ∈ log → |track p - h| ≤ M) →
      (issue_seeks track log).sum ≤ ((issued log).length : Int) * M := by
  intro log
  induction log with
  | nil => intro _; simp [issue_seeks, issued]
  | cons e es ih =>
    intro hall
    have ih2 := ih (fun t p h hm => hall t p h (List.mem_cons_of_mem _ hm))
    unfold issue_seeks issued at ih2 ⊢
    cases e with
    | add t p => simpa [List.filterMap_cons] using ih2
    | finish t p => simpa [List.filterMap_cons] using ih2
    | queue d => simpa [List.filterMap_cons] using ih2
    | issue t p h =>
      have h1 := hall t p h (List.mem_cons_self _ _)
      simp only [List.filterMap_cons, List.sum_cons, List.length_cons]
      push_cast
      nlinarith

/-- At a loop head where a request is still active, the clock is at most the
last arrival time plus the largest track for every request. -/
theorem timed_active_bound (A M : Int) (track : Nat → Int) (s : Sim) (log : List Event)
    (h : Good track s log) (ht : Timed A M track s log)
    (hact : is_request_active s.heap s.requests = true) :
    s.curr_time ≤ A + (s.requests.length : Int) * M ∧
      (s.curr_request = none → s.curr_time ≤ A) := by
  obtain ⟨sched, hinv, hidle, hl, hoff⟩ := h
  have hM : 0 ≤ M := le_trans ht.head_range.1 ht.head_range.2
  have hnM : 0 ≤ (s.requests.length : Int) * M :=
    mul_nonneg (Int.ofNat_nonneg _) hM
  have hnone : s.curr_request = none → s.curr_time ≤ A := by
    intro hc
    obtain ⟨p, hp, hne⟩ := is_request_active_true s.heap s.requests hact
    have hcr : (s.heap p).state = State.CREATED := by
      cases hst : (s.heap p).state with
      | CREATED => rfl
      | READY =>
        rcases hinv.ready_held p hp hst with hm | hcur
        · rw [hidle hc] at hm
          simp at hm
        · rw [hc] at hcur
          exact Option.noConfusion hcur
      | RUNNING => exact absurd hst (hinv.not_running p hp)
      | COMPLETE => exact absurd hst hne
    exact le_trans (ht.created_later p hp hcr) (ht.arrival_le p hp)
  refine ⟨?_, hnone⟩
  cases hc : s.curr_request with
  | none =>
    have := hnone hc
    omega
  | some c =>
    have hrem : 1 ≤ remaining track s := by
      unfold remaining
      rw [hc]
      have hne : s.curr_head_location ≠ track c := hoff c hc
      have hne2 : track c - s.curr_head_location ≠ 0 := by
        intro e
        apply hne
        omega
      have := abs_pos.mpr hne2
      show 1 ≤ |track c - s.curr_head_location|
      omega
    have hsum : (issue_seeks track log).sum ≤ ((issued log).length : Int) * M := by
      apply issue_seeks_sum_le
      intro t p h hm
      have hp : p ∈ s.requests := (hl.issued_held p ((mem_issued log p).mpr ⟨t, h, hm⟩)).1
      obtain ⟨t1, t2⟩ := ht.track_range p hp
      obtain ⟨h1, h2⟩ := ht.issue_range t p h hm
      rw [abs_le]
      constructor <;> omega
    have hlen : (issued log).length ≤ s.requests.length := by
      apply List.Subperm.length_le
      apply hl.issued_nodup.subperm
      intro p hp
      exact (hl.issued_held p hp).1
    have hlen2 : ((issued log).length : Int) * M ≤ (s.requests.length : Int) * M := by
      apply mul_le_mul_of_nonneg_right _ hM
      exact_mod_cast hlen
    have hmoved := hl.moved
    have hclock := ht.clock
    omega

theorem timed_tick (A M : Int) (track : Nat → Int) (s : Sim) (log : List Event)
    (h : Good track s log) (ht : Timed A M track s log)
    (hact : is_request_active s.heap s.requests = true) (s2 : Sim) (out : List Event)
    (htick : tick_traced s = Outcome.ok (s2, out))
    (htime : s2.curr_time = s.curr_time + 1) (hreq : s2.requests = s.requests)
    (hrel : TickRel s s2)
    (harr : ∀ q, (s2.heap q).arrival_time = (s.heap q).arrival_time) :
    Timed A M track s2 (log ++ out) := by
  obtain ⟨-, a2, -, a4, a5, a6⟩ := tick_traced_frame track s log h s2 out htick
  obtain ⟨-, hidle_le⟩ := timed_active_bound A M track s log h ht hact
  obtain ⟨sched, hinv, -, hl, -⟩ := h
  have hhead : 0 ≤ s2.curr_head_location ∧ s2.curr_head_location ≤ M := by
    have hr := ht.head_range
    cases hc : s.curr_request with
    | none =>
      rw [(a4 hc).2]
      exact hr
    | some c =>
      obtain ⟨t1, t2⟩ := ht.track_range c (hinv.current_ready c hc).1
      rcases (a5 c hc).2 with ⟨k1, k2⟩ | ⟨k1, k2⟩
      · rw [k2]
        constructor <;> omega
      · rw [k2]
        constructor <;> omega
  have hmoved : 0 ≤ s2.tot_movement ∧ s2.curr_time ≤ s2.tot_movement + A + 1 := by
    have h0 := ht.moved_nonneg
    have hclock := ht.clock
    cases hc : s.curr_request with
    | none =>
      rw [(a4 hc).1, htime]
      have := hidle_le hc
      constructor <;> omega
    | some c =>
      rw [(a5 c hc).1, htime]
      constructor <;> omega
  refine ⟨?_, ?_, ?_, ?_, hhead, ?_, hmoved.1, hmoved.2⟩
  · intro p hp
    rw [hreq] at hp
    rw [harr]
    exact ht.arrival_le p hp
  · rw [hreq]
    refine ht.increasing.imp ?_
    intro a b hab
    rw [harr, harr]
    exact hab
  · intro p hp
    rw [hreq] at hp
    exact ht.track_range p hp
  · intro p hp hcr
    rw [hreq] at hp
    have hrank := (hrel p).2.2.2
    have hcr0 : (s.heap p).state = State.CREATED := by
      rw [hcr] at hrank
      cases hst : (s.heap p).state with
      | CREATED => rfl
      | READY => rw [hst] at hrank; exact absurd hrank (by decide)
      | RUNNING => rw [hst] at hrank; exact absurd hrank (by decide)
      | COMPLETE => rw [hst] at hrank; exact absurd hrank (by decide)
    have hle := ht.created_later p hp hcr0
    have hne : (s.heap p).arrival_time ≠ s.curr_time := by
      intro e
      have hfound := new_request_arrived_increasing s.heap s.requests ht.increasing p hp
      rw [e] at hfound
      exact a2 p hfound hcr
    rw [htime, harr]
    omega
  · intro t p h hm
    rcases List.mem_append.mp hm with hm | hm
    · exact ht.issue_range t p h hm
    · rw [a6 t p h hm]
      exact hhead

theorem timed_start (A M : Int) (sched : Option Scheduler) (requests : List Nat) (heap : Heap)
    (hA : 0 ≤ A) (hM : 0 ≤ M)
    (harrival : ∀ p ∈ requests, 0 ≤ (heap p).arrival_time ∧ (heap p).arrival_time ≤ A)
    (hincreasing : requests.Pairwise
      fun p q => (heap p).arrival_time < (heap q).arrival_time)
    (htrack : ∀ p ∈ requests, 0 ≤ (heap p).track_required ∧ (heap p).track_required ≤ M) :
    Timed A M (fun q => (heap q).track_required) (Sim.start sched requests heap) [] := by
  refine ⟨fun p hp => (harrival p hp).2, hincreasing, htrack,
    fun p hp _ => (harrival p hp).1, ⟨le_refl _, hM⟩, ?_, le_refl _, ?_⟩
  · intro t p h hm
    simp at hm
  · show (0 : Int) ≤ 0 + A + 1
    omega

theorem loop_inactive (fuel : Nat) (s : Sim)
    (h : is_request_active s.heap s.requests = false) : loop fuel s = Outcome.ok s := by
  cases fuel with
  | zero =>
    unfold loop
    rw [h]
    rfl
  | succ n =>
    unfold loop
    rw [h]
    rfl

/-- With arrival times that increase, the outer loop exits within the budget:
every turn either waits for an arrival not later than `A` or moves the head, and
the head moves at most `M` for every request. -/
theorem loop_timed (A M : Int) (track : Nat → Int) :
    ∀ (fuel : Nat) (s : Sim) (log : List Event), Good track s log →
      Timed A M track s log →
      A + (s.requests.length : Int) * M + 1 ≤ s.curr_time + fuel →
      ∃ s2, loop fuel s = Outcome.ok s2 ∧ s2.requests = s.requests := by
  intro fuel
  induction fuel with
  | zero =>
    intro s log h ht hfuel
    by_cases hact : is_request_active s.heap s.requests = true
    · have := (timed_active_bound A M track s log h ht hact).1
      simp only [Nat.cast_zero] at hfuel
      omega
    · exact ⟨s, loop_inactive 0 s (by simpa using hact), rfl⟩
  | succ fuel ih =>
    intro s log h ht hfuel
    by_cases hact : is_request_active s.heap s.requests = true
    · obtain ⟨s1, out1, htick, htick2, hgood1, htime1, hreq1, hrel1, harr1, -⟩ :=
        tick_traced_good track s log h
      have ht1 := timed_tick A M track s log h ht hact s1 out1 htick htime1 hreq1 hrel1 harr1
      have hfuel1 : A + (s1.requests.length : Int) * M + 1 ≤ s1.curr_time + fuel := by
        rw [hreq1, htime1]
        push_cast at hfuel
        omega
      obtain ⟨s2, hloop, hreq2⟩ := ih s1 (log ++ out1) hgood1 ht1 hfuel1
      refine ⟨s2, ?_, by rw [hreq2, hreq1]⟩
      unfold loop
      rw [if_pos hact, htick2]
      exact hloop
    · exact ⟨s, loop_inactive _ s (by simpa using hact), rfl⟩

theorem loop_fuel_mono :
    ∀ (fuel : Nat) (s s2 : Sim), loop fuel s = Outcome.ok s2 →
      ∀ k, loop (fuel + k) s = Outcome.ok s2 := by
  intro fuel
  induction fuel with
  | zero =>
    intro s s2 h k
    unfold loop at h
    by_cases hact : is_request_active s.heap s.requests = true
    · rw [if_pos hact] at h
      exact Outcome.noConfusion h
    · rw [if_neg hact] at h
      rw [← Outcome.ok.inj h]
      exact loop_inactive _ s (by simpa using hact)
  | succ fuel ih =>
    intro s s2 h k
    have e : fuel + 1 + k = (fuel + k) + 1 := by omega
    rw [e]
    unfold loop at h ⊢
    by_cases hact : is_request_active s.heap s.requests = true
    · rw [if_pos hact] at h ⊢
      obtain ⟨s1, hs1, hrest⟩ := outcome_bind_ok _ _ _ h
      rw [hs1]
      exact ih s1 s2 hrest k
    · rw [if_neg hact] at h ⊢
      exact h

/-! ## The partition by state, the idle disk and termination: statements of the specification -/

/-- C22. Under each of the five policies, for every list of requests that are
all `CREATED` before the loop, at every loop head reached, that is at the end
of every tick: a request of the list is `CREATED` exactly when no `add` line of
the trace names it (it has not been added to the policy); it is `READY`
exactly when it is in the pending set of the policy or is the request in
service, and not both; a `COMPLETE` request is in neither; the pending set and
the request in service hold requests of the list only; the pending set holds
no request twice; and no request has two `issue` lines in the trace. -/
theorem requests_are_partitioned_by_state (policy : Policy) (requests : List Nat)
    (heap : Heap) (hcreated : ∀ p ∈ requests, (heap p).state = State.CREATED) (n : Nat) :
    ∃ s log sched,
      run_traced n (Sim.start (select_scheduler policy.letter) requests heap)
        = Outcome.ok (s, log) ∧
      run_ticks n (Sim.start (select_scheduler policy.letter) requests heap) = Outcome.ok s ∧
      s.sched = some sched ∧ s.requests = requests ∧
      (∀ p ∈ requests,
        ((s.heap p).state = State.CREATED ↔ ¬ Added log p) ∧
        ((s.heap p).state = State.READY ↔ (p ∈ sched.pending ∨ s.curr_request = some p)) ∧
        ¬ (p ∈ sched.pending ∧ s.curr_request = some p) ∧
        ((s.heap p).state = State.COMPLETE → p ∉ sched.pending ∧ s.curr_request ≠ some p) ∧
        ((s.heap p).state = State.CREATED ∨ (s.heap p).state = State.READY ∨
          (s.heap p).state = State.COMPLETE)) ∧
      (∀ p ∈ sched.pending, p ∈ requests) ∧
      (∀ c, s.curr_request = some c → c ∈ requests) ∧
      sched.pending.Nodup ∧ (issued log).Nodup := by
  obtain ⟨sched0, hsel, hempty⟩ := select_scheduler_letter policy
  rw [hsel]
  obtain ⟨s, log, hrun, hrun2, ⟨sched, hinv, -, hl, -⟩, hb, hreq⟩ :=
    run_traced_booked _ n _ [] (good_start sched0 requests heap hempty hcreated)
      (booked_start _ requests heap hcreated)
  simp only [List.nil_append] at hl hb
  have hreq2 : s.requests = requests := hreq
  refine ⟨s, log, sched, hrun, hrun2, hinv.sched_eq, hreq2, ?_, ?_, ?_, hinv.nodup,
    hl.issued_nodup⟩
  · intro p hp
    rw [← hreq2] at hp
    refine ⟨hb p hp, ?_, ?_, ?_, ?_⟩
    · constructor
      · exact hinv.ready_held p hp
      · rintro (hm | hc)
        · exact (hinv.pending_ready p hm).2
        · exact (hinv.current_ready p hc).2.1
    · rintro ⟨hm, hc⟩
      exact hinv.current_not_pending p hc hm
    · intro hco
      constructor
      · intro hm
        have := (hinv.pending_ready p hm).2
        rw [hco] at this
        exact State.noConfusion this
      · intro hc
        have := (hinv.current_ready p hc).2.1
        rw [hco] at this
        exact State.noConfusion this
    · have hnr := hinv.not_running p hp
      cases hst : (s.heap p).state with
      | CREATED => exact Or.inl rfl
      | READY => exact Or.inr (Or.inl rfl)
      | RUNNING => exact absurd hst hnr
      | COMPLETE => exact Or.inr (Or.inr rfl)
  · intro p hm
    rw [← hreq2]
    exact (hinv.pending_ready p hm).1
  · intro c hc
    rw [← hreq2]
    exact (hinv.current_ready c hc).1

/-- C22, on the input `0 5`, `1 5`, `3 2`, `4 9`, `20 1` under SSTF at the loop
head after six turns: the first two requests are `COMPLETE`, the third is
`READY` and in service, the fourth is `READY` and pending, and the fifth, which
has no `add` line yet, is `CREATED`. -/
theorem requests_are_partitioned_by_state_witness :
    (∀ p ∈ example_requests [(0, 5), (1, 5), (3, 2), (4, 9), (20, 1)],
      ((example_heap [(0, 5), (1, 5), (3, 2), (4, 9), (20, 1)]) p).state = State.CREATED) ∧
    (run_ticks 6 (Sim.start (select_scheduler Policy.SSTF.letter)
        (example_requests [(0, 5), (1, 5), (3, 2), (4, 9), (20, 1)])
        (example_heap [(0, 5), (1, 5), (3, 2), (4, 9), (20, 1)]))).report.map
          (fun rs => rs.map fun r => r.state)
      = some [State.COMPLETE, State.COMPLETE, State.READY, State.READY, State.CREATED] ∧
    (run_ticks 6 (Sim.start (select_scheduler Policy.SSTF.letter)
        (example_requests [(0, 5), (1, 5), (3, 2), (4, 9), (20, 1)])
        (example_heap [(0, 5), (1, 5), (3, 2), (4, 9), (20, 1)]))).held = some (some 2, [3]) ∧
    (run_traced 6 (Sim.start (select_scheduler Policy.SSTF.letter)
        (example_requests [(0, 5), (1, 5), (3, 2), (4, 9), (20, 1)])
        (example_heap [(0, 5), (1, 5), (3, 2), (4, 9), (20, 1)]))).trace
      = some [Event.add 0 0, Event.queue [], Event.issue 0 0 0, Event.add 1 1,
          Event.add 3 2, Event.add 4 3, Event.finish 5 0, Event.queue [2, 3],
          Event.issue 5 1 5, Event.finish 5 1, Event.issue 5 2 5] ∧
    ∃ s log sched,
      run_traced 6 (Sim.start (select_scheduler Policy.SSTF.letter)
          (example_requests [(0, 5), (1, 5), (3, 2), (4, 9), (20, 1)])
          (example_heap [(0, 5), (1, 5), (3, 2), (4, 9), (20, 1)])) = Outcome.ok (s, log) ∧
      run_ticks 6 (Sim.start (select_scheduler Policy.SSTF.letter)
          (example_requests [(0, 5), (1, 5), (3, 2), (4, 9), (20, 1)])
          (example_heap [(0, 5), (1, 5), (3, 2), (4, 9), (20, 1)])) = Outcome.ok s ∧
      s.sched = some sched ∧
      s.requests = example_requests [(0, 5), (1, 5), (3, 2), (4, 9), (20, 1)] ∧
      (∀ p ∈ example_requests [(0, 5), (1, 5), (3, 2), (4, 9), (20, 1)],
        ((s.heap p).state = State.CREATED ↔ ¬ Added log p) ∧
        ((s.heap p).state = State.READY ↔ (p ∈ sched.pending ∨ s.curr_request = some p)) ∧
        ¬ (p ∈ sched.pending ∧ s.curr_request = some p) ∧
        ((s.heap p).state = State.COMPLETE → p ∉ sched.pending ∧ s.curr_request ≠ some p) ∧
        ((s.heap p).state = State.CREATED ∨ (s.heap p).state = State.READY ∨
          (s.heap p).state = State.COMPLETE)) ∧
      (∀ p ∈ sched.pending, p ∈ example_requests [(0, 5), (1, 5), (3, 2), (4, 9), (20, 1)]) ∧
      (∀ c, s.curr_request = some c →
        c ∈ example_requests [(0, 5), (1, 5), (3, 2), (4, 9), (20, 1)]) ∧
      sched.pending.Nodup ∧ (issued log).Nodup :=
  ⟨by decide, by decide, by decide, by decide,
    requests_are_partitioned_by_state Policy.SSTF
      (example_requests [(0, 5), (1, 5), (3, 2), (4, 9), (20, 1)])
      (example_heap [(0, 5), (1, 5), (3, 2), (4, 9), (20, 1)]) (by decide) 6⟩

/-- C23. Under each of the five policies, for every list of requests that are
all `CREATED` before the loop, at every loop head reached, that is at the end
of every tick: if no request is in service, the pending set of the policy is
empty, and for FLOOK both of its queues are empty. -/
theorem disk_is_never_idle_while_work_is_pending (policy : Policy) (requests : List Nat)
    (heap : Heap) (hcreated : ∀ p ∈ requests, (heap p).state = State.CREATED) (n : Nat) :
    ∃ s sched,
      run_ticks n (Sim.start (select_scheduler policy.letter) requests heap) = Outcome.ok s ∧
      s.sched = some sched ∧
      (s.curr_request = none →
        sched.pending = [] ∧
        ∀ f, sched = Scheduler.FLOOK f → f.queue1 = [] ∧ f.queue2 = []) := by
  obtain ⟨sched0, hsel, hempty⟩ := select_scheduler_letter policy
  rw [hsel]
  obtain ⟨s, log, -, hrun, ⟨sched, hinv, hidle, -, -⟩, -⟩ :=
    run_traced_good _ n _ [] (good_start sched0 requests heap hempty hcreated)
  refine ⟨s, sched, hrun, hinv.sched_eq, ?_⟩
  intro hnone
  have hp := hidle hnone
  refine ⟨hp, ?_⟩
  intro f hf
  rw [hf] at hp
  have hp2 : f.queue1 ++ f.queue2 = [] := hp
  exact List.append_eq_nil.mp hp2

/-- C23, on the input `0 5`, `1 5`, `3 2`, `4 9`, `20 1` under FLOOK: at the
loop head after eight turns a request is in service while another is pending,
and at the loop head after eighteen turns no request is in service and
nothing is pending, the last request not having arrived yet. -/
theorem disk_is_never_idle_while_work_is_pending_witness :
    (∀ p ∈ example_requests [(0, 5), (1, 5), (3, 2), (4, 9), (20, 1)],
      ((example_heap [(0, 5), (1, 5), (3, 2), (4, 9), (20, 1)]) p).state = State.CREATED) ∧
    (run_ticks 8 (Sim.start (select_scheduler Policy.FLOOK.letter)
        (example_requests [(0, 5), (1, 5), (3, 2), (4, 9), (20, 1)])
        (example_heap [(0, 5), (1, 5), (3, 2), (4, 9), (20, 1)]))).held = some (some 3, [2]) ∧
    (run_ticks 18 (Sim.start (select_scheduler Policy.FLOOK.letter)
        (example_requests [(0, 5), (1, 5), (3, 2), (4, 9), (20, 1)])
        (example_heap [(0, 5), (1, 5), (3, 2), (4, 9), (20, 1)]))).held = some (none, []) ∧
    ∃ s sched,
      run_ticks 18 (Sim.start (select_scheduler Policy.FLOOK.letter)
          (example_requests [(0, 5), (1, 5), (3, 2), (4, 9), (20, 1)])
          (example_heap [(0, 5), (1, 5), (3, 2), (4, 9), (20, 1)])) = Outcome.ok s ∧
      s.sched = some sched ∧
      (s.curr_request = none →
        sched.pending = [] ∧
        ∀ f, sched = Scheduler.FLOOK f → f.queue1 = [] ∧ f.queue2 = []) :=
  ⟨by decide, by decide, by decide,
    disk_is_never_idle_while_work_is_pending Policy.FLOOK
      (example_requests [(0, 5), (1, 5), (3, 2), (4, 9), (20, 1)])
      (example_heap [(0, 5), (1, 5), (3, 2), (4, 9), (20, 1)]) (by decide) 18⟩

/-- C21. Under each of the five policies, for every list of requests that are
all `CREATED` before the loop, whose arrival times are non-negative and
strictly increase in input order and whose tracks are non-negative: the loop
of `simulate` exits.  With every budget of at least `turn_budget` turns (the
last arrival time, plus the largest track for every request, plus one),
`simulate` reaches the exit of its loop, in one and the same state; in that
state the clock is at most `turn_budget`, `is_request_active` is false and
every request of the list is `COMPLETE`. -/
theorem loop_terminates_with_every_request_complete (policy : Policy) (requests : List Nat)
    (heap : Heap) (hcreated : ∀ p ∈ requests, (heap p).state = State.CREATED)
    (harrival : ∀ p ∈ requests, 0 ≤ (heap p).arrival_time)
    (hincreasing : requests.Pairwise
      fun p q => (heap p).arrival_time < (heap q).arrival_time)
    (htrack : ∀ p ∈ requests, 0 ≤ (heap p).track_required) :
    ∃ s,
      (∀ fuel, turn_budget heap requests ≤ fuel →
        simulate fuel policy.letter requests heap = Outcome.ok s) ∧
      s.requests = requests ∧
      0 ≤ s.curr_time ∧ s.curr_time ≤ (turn_budget heap requests : Int) ∧
      is_request_active s.heap s.requests = false ∧
      ∀ p ∈ requests, (s.heap p).state = State.COMPLETE := by
  obtain ⟨sched0, hsel, hempty⟩ := select_scheduler_letter policy
  have hA := largest_nonneg (fun p => (heap p).arrival_time) requests
  have hM := largest_nonneg (fun p => (heap p).track_required) requests
  have hgood := good_start sched0 requests heap hempty hcreated
  have htimed := timed_start (largest (fun p => (heap p).arrival_time) requests)
    (largest (fun p => (heap p).track_required) requests) (some sched0) requests heap hA hM
    (fun p hp => ⟨harrival p hp, le_largest (fun p => (heap p).arrival_time) requests p hp⟩)
    hincreasing
    (fun p hp => ⟨htrack p hp, le_largest (fun p => (heap p).track_required) requests p hp⟩)
  have hnM : 0 ≤ (requests.length : Int)
      * largest (fun p => (heap p).track_required) requests :=
    mul_nonneg (Int.ofNat_nonneg _) hM
  have hbudget : largest (fun p => (heap p).arrival_time) requests
      + ((Sim.start (some sched0) requests heap).requests.length : Int)
        * largest (fun p => (heap p).track_required) requests + 1
      ≤ (Sim.start (some sched0) requests heap).curr_time
        + ((turn_budget heap requests : Nat) : Int) := by
    show largest (fun p => (heap p).arrival_time) requests
      + (requests.length : Int) * largest (fun p => (heap p).track_required) requests + 1
      ≤ 0 + ((turn_budget heap requests : Nat) : Int)
    unfold turn_budget
    rw [Int.toNat_of_nonneg (by omega)]
    omega
  obtain ⟨s, hloop, hreq⟩ := loop_timed _ _ _ (turn_budget heap requests) _ [] hgood htimed
    hbudget
  have hinactive := (loop_ok _ _ s hloop).2
  have hclock : 0 ≤ s.curr_time ∧ s.curr_time ≤ (turn_budget heap requests : Int) := by
    obtain ⟨N, hN, hticks, -, -⟩ := loop_ticks _ _ s hloop
    obtain ⟨s2, log2, hticks2, -, htime, -⟩ := ticks_good _ N _ [] hgood
    rw [hticks] at hticks2
    rw [Outcome.ok.inj hticks2, htime]
    show (0 : Int) ≤ 0 + (N : Int) ∧ (0 : Int) + (N : Int) ≤ (turn_budget heap requests : Int)
    constructor
    · omega
    · have : (N : Int) ≤ (turn_budget heap requests : Int) := by exact_mod_cast hN
      omega
  refine ⟨s, ?_, hreq, hclock.1, hclock.2, hinactive, ?_⟩
  · intro fuel hfuel
    unfold simulate
    rw [hsel]
    have e : fuel = turn_budget heap requests + (fuel - turn_budget heap requests) := by omega
    rw [e]
    exact loop_fuel_mono _ _ s hloop _
  · intro p hp
    have hreq2 : s.requests = requests := hreq
    rw [← hreq2] at hp
    exact is_request_active_false s.heap s.requests hinactive p hp

/-- C21, on the input `0 5`, `1 5`, `3 2`, `4 9` under FLOOK: the budget is
4 + 4 * 9 + 1 = 41 turns, and the run ends with the four requests finished at
the ticks 5, 5, 16 and 9. -/
theorem loop_terminates_with_every_request_complete_witness :
    (∀ p ∈ example_requests [(0, 5), (1, 5), (3, 2), (4, 9)],
      ((example_heap [(0, 5), (1, 5), (3, 2), (4, 9)]) p).state = State.CREATED) ∧
    (∀ p ∈ example_requests [(0, 5), (1, 5), (3, 2), (4, 9)],
      0 ≤ ((example_heap [(0, 5), (1, 5), (3, 2), (4, 9)]) p).arrival_time) ∧
    (example_requests [(0, 5), (1, 5), (3, 2), (4, 9)]).Pairwise
      (fun p q => ((example_heap [(0, 5), (1, 5), (3, 2), (4, 9)]) p).arrival_time
        < ((example_heap [(0, 5), (1, 5), (3, 2), (4, 9)]) q).arrival_time) ∧
    (∀ p ∈ example_requests [(0, 5), (1, 5), (3, 2), (4, 9)],
      0 ≤ ((example_heap [(0, 5), (1, 5), (3, 2), (4, 9)]) p).track_required) ∧
    turn_budget (example_heap [(0, 5), (1, 5), (3, 2), (4, 9)])
      (example_requests [(0, 5), (1, 5), (3, 2), (4, 9)]) = 41 ∧
    (simulate 41 Policy.FLOOK.letter (example_requests [(0, 5), (1, 5), (3, 2), (4, 9)])
      (example_heap [(0, 5), (1, 5), (3, 2), (4, 9)])).report.map
        (fun rs => rs.map fun r => (r.state, r.end_time))
      = some [(State.COMPLETE, 5), (State.COMPLETE, 5), (State.COMPLETE, 16),
          (State.COMPLETE, 9)] ∧
    ∃ s,
      (∀ fuel, turn_budget (example_heap [(0, 5), (1, 5), (3, 2), (4, 9)])
          (example_requests [(0, 5), (1, 5), (3, 2), (4, 9)]) ≤ fuel →
        simulate fuel Policy.FLOOK.letter (example_requests [(0, 5), (1, 5), (3, 2), (4, 9)])
          (example_heap [(0, 5), (1, 5), (3, 2), (4, 9)]) = Outcome.ok s) ∧
      s.requests = example_requests [(0, 5), (1, 5), (3, 2), (4, 9)] ∧
      0 ≤ s.curr_time ∧
      s.curr_time ≤ (turn_budget (example_heap [(0, 5), (1, 5), (3, 2), (4, 9)])
        (example_requests [(0, 5), (1, 5), (3, 2), (4, 9)]) : Int) ∧
      is_request_active s.heap s.requests = false ∧
      ∀ p ∈ example_requests [(0, 5), (1, 5), (3, 2), (4, 9)],
        (s.heap p).state = State.COMPLETE :=
  ⟨by decide, by decide, by decide, by decide, by decide, by decide,
    loop_terminates_with_every_request_complete Policy.FLOOK
      (example_requests [(0, 5), (1, 5), (3, 2), (4, 9)])
      (example_heap [(0, 5), (1, 5), (3, 2), (4, 9)]) (by decide) (by decide) (by decide)
      (by decide)⟩
end IOSim
